import Mathlib

/-!
# One-shot optimisation core of `CDiscAdjFEASolver` and `CDiscAdjSolver`

Shallow embedding of the line-search, BFGS, multiplier, Lagrangian, volume-projection
and density-filter routines of SU2_CFD/src/solver_adjoint_elasticity.cpp and of the
line-search, step-model, design-update, multiplier and (damped, limited-memory) BFGS
routines of SU2_CFD/src/solver_adjoint_discrete.cpp.

`su2double` is read as an exact rational, a raw `su2double*` buffer as a function from
indices to values, and a `for` loop that accumulates into a scalar as a finite sum over
`Finset.range`.  In `CDiscAdjSolver::DesignUpdateProjected` and `ApplyDesignVar` the
rounding of the arithmetic is a parameter `fl`: the identity for exact arithmetic,
`roundDouble` for double precision.  A loop that overwrites the entries `0 .. n-1` of a
buffer leaves every other index as it was.

Sizes and loop counters declared `unsigned long` or `long` are natural numbers; the two
counters declared with 16 bits that run against a wider bound (`unsigned short kElem` in
`DensityFiltering`, `short k` in `GaussElimination`) wrap, and so does the
`unsigned long` difference `GetLBFGSNum()-1`.  The library function `sqrt` is a parameter
of the routines that call it.  A `while` loop without a bound on its passes is unrolled a
given number of times and has no result when that number does not suffice; a routine whose
returned value is a quotient has no value where the divisor is zero.
-/

open Finset

namespace SU2

/-- A raw `su2double*` buffer. -/
abbrev Vec := Nat → ℚ

/-- A raw `su2double**` buffer (row, column). -/
abbrev Mat := Nat → Nat → ℚ

/-- The getters of `CConfig` read by the routines below.  `ConstraintNum` is compared
with `unsigned short` counters only. -/
structure CConfig where
  OneShotStart : Nat
  StepTolerance : ℚ
  VolumeConstraint : ℚ
  Nx : Nat
  Ny : Nat
  HelmholtzFactor : ℚ
  DampedBFGS : Bool
  NormalizeHB : Bool
  DampedMin : ℚ
  DampedMax : ℚ
  DampedBFGSPow : Bool
  DampedGamma : ℚ
  NormalizeNewY : Bool
  CheckVk : Bool
  LBFGS : Bool
  LBFGSNum : Nat
  HInit : Bool
  IdentityHessian : Bool
  HScale : ℚ
  PosConstraint : Bool
  EqualConstraint : Bool
  FactorIncrease : Bool
  PosUpdate : Bool
  ConstraintFactor : ℚ
  ConstraintNum : Nat
  OneShotConstraint : Bool
  OneShotAlpha : ℚ
  OneShotBeta : ℚ
  OSStepAdaptive : Bool

/-- The members of `CDiscAdjFEASolver` used by the one-shot routines. -/
structure CDiscAdjFEASolver where
  Density : Vec
  UpdateSens : Vec
  UpdateSensOld : Vec
  DesignVarUpdate : Vec
  Lagrange_Sens : Vec
  Lagrange_Sens_Old : Vec
  Hess : Mat
  Lagrangian_Value : ℚ
  Lagrangian_Value_Old : ℚ
  ObjFunc_Value : ℚ
  Obj_Save : ℚ
  ConstraintFunc_Value : Vec
  Constraint_Save : Vec
  Constraint_Old : Vec
  multiplier : Vec
  cons_factor : Vec

/-- Result of `for (i = 0; i < n; i++) buf[i] = val i;` on the buffer `old`. -/
def writeRange (n : Nat) (val old : Vec) : Vec :=
  fun i => if i < n then val i else old i

/-- Result of a double loop `for i < n, for j < n: M[i][j] = val i j` on `old`. -/
def writeBlock (n : Nat) (val old : Mat) : Mat :=
  fun i j => if i < n ∧ j < n then val i j else old i j

/-- Accumulated `sum_i u[i]*v[i]` over `i < n`. -/
def dot (n : Nat) (u v : Vec) : ℚ :=
  ∑ i in range n, u i * v i

/-- Accumulated row-times-vector products `sum_j M[i][j]*v[j]` over `j < n`. -/
def mulVec (n : Nat) (M : Mat) (v : Vec) : Vec :=
  fun i => ∑ j in range n, M i j * v j

/-- The identity pattern written by the constructor and by the reset branch. -/
def identityMat : Mat :=
  fun i j => if i = j then 1 else 0

/-- The part of the constructor `CDiscAdjFEASolver::CDiscAdjFEASolver` that sets the
one-shot buffers: every vector zero, `Hess` the identity.  `ObjFunc_Value` is not
assigned by the constructor; it is assigned before it is read and stands here as `0`. -/
def CDiscAdjFEASolver.construct : CDiscAdjFEASolver where
  Density := fun _ => 0
  UpdateSens := fun _ => 0
  UpdateSensOld := fun _ => 0
  DesignVarUpdate := fun _ => 0
  Lagrange_Sens := fun _ => 0
  Lagrange_Sens_Old := fun _ => 0
  Hess := identityMat
  Lagrangian_Value := 0
  Lagrangian_Value_Old := 0
  ObjFunc_Value := 0
  Obj_Save := 0
  ConstraintFunc_Value := fun _ => 0
  Constraint_Save := fun _ => 0
  Constraint_Old := fun _ => 0
  multiplier := fun _ => 0
  cons_factor := fun _ => 0

/-- `CDiscAdjFEASolver::CheckFirstWolfe`: the returned flag and the solver afterwards.
`nElem` is `geometry->GetnElem()`. -/
def CheckFirstWolfe (nElem : Nat) (s : CDiscAdjFEASolver) (_steplen : ℚ) :
    Bool × CDiscAdjFEASolver :=
  let helper := ∑ i in range nElem, s.DesignVarUpdate i * s.Lagrange_Sens_Old i
  let s1 := { s with UpdateSens := writeRange nElem s.UpdateSensOld s.UpdateSens }
  if s.Lagrangian_Value ≤ s.Lagrangian_Value_Old + 1 / 10000 * helper then
    (false, s1)
  else if helper > 0 then
    (true, { s1 with
      UpdateSens := writeRange nElem (fun i => -(1 / 1000) * s1.UpdateSensOld i) s1.UpdateSens })
  else
    (true, s1)

/-- The rank-two formula of `BFGSUpdateProjected` for one entry `Hess[i][j]`. -/
def bfgsEntry (H : Mat) (wone duk : Vec) (vk wtwo : ℚ) (i j : Nat) : ℚ :=
  H i j - 1 / vk * (wone i * duk j + wone j * duk i) + 1 / vk * (1 + wtwo / vk) * duk i * duk j

/-- The `Hess` left by the `if (ExtIter > OneShotStart)` block of `BFGSUpdateProjected`. -/
def bfgsHess (nElem : Nat) (config : CConfig) (ExtIter : Nat) (s : CDiscAdjFEASolver) : Mat :=
  let rk : Vec := fun i => s.Lagrange_Sens i - s.Lagrange_Sens_Old i
  let duk : Vec := fun i => s.DesignVarUpdate i
  let vk := ∑ i in range nElem, rk i * duk i
  if ExtIter > config.OneShotStart then
    if vk > 0 then
      let wone : Vec := fun i => ∑ j in range nElem, s.Hess i j * rk j
      let wtwo := ∑ i in range nElem, rk i * wone i
      writeBlock nElem (bfgsEntry s.Hess wone duk vk wtwo) s.Hess
    else
      writeBlock nElem identityMat s.Hess
  else
    s.Hess

/-- `CDiscAdjFEASolver::BFGSUpdateProjected`.  The last loop runs `jElem` over all
elements and subtracts `Lagrange_Sens[iElem]` in each pass. -/
def BFGSUpdateProjected (nElem : Nat) (config : CConfig) (ExtIter : Nat)
    (s : CDiscAdjFEASolver) : CDiscAdjFEASolver :=
  { s with
    Hess := bfgsHess nElem config ExtIter s
    Lagrange_Sens_Old := writeRange nElem s.Lagrange_Sens s.Lagrange_Sens_Old
    Lagrangian_Value_Old := s.Lagrangian_Value
    UpdateSens :=
      writeRange nElem (fun i => 0 - ∑ _j in range nElem, s.Lagrange_Sens i) s.UpdateSens }

/-- `CDiscAdjFEASolver::DesignUpdateProjected` (the printed norm is not part of the state). -/
def DesignUpdateProjected (nElem : Nat) (s : CDiscAdjFEASolver) (steplen : ℚ) :
    CDiscAdjFEASolver :=
  let upd : Vec := writeRange nElem (fun i => s.UpdateSens i * steplen) s.DesignVarUpdate
  { s with
    DesignVarUpdate := upd
    Density := writeRange nElem (fun i => s.Density i + upd i) s.Density }

/-- The constant `std::numeric_limits<double>::epsilon()`. -/
def EPS : ℚ := 1 / 2 ^ 52

/-- The constant `itermax` of `VolumeProjection`. -/
def itermax : Nat := 10000

/-- The clipped entry `max(0.0, min(y - lambda, 1.0))`. -/
def clip (y lambda : ℚ) : ℚ :=
  max 0 (min (y - lambda) 1)

/-- The value `sumlambda - nElem*VolumeConstraint` computed from the shift `lambda`
(the function G of the comment in the source). -/
def volumeResidual (nElem : Nat) (y : Vec) (target lambda : ℚ) : ℚ :=
  (∑ i in range nElem, clip (y i) lambda * 1) - (nElem : ℚ) * target

/-- `lambdamin` after the scan has visited the indices below `k`. -/
def lambdaMinScan (y : Vec) : Nat → ℚ
  | 0 => y 0 - 1
  | k + 1 => if y k - 1 < lambdaMinScan y k then y k - 1 else lambdaMinScan y k

/-- `lambdamax` after the scan has visited the indices below `k`. -/
def lambdaMaxScan (y : Vec) : Nat → ℚ
  | 0 => y 0
  | k + 1 => if y k > lambdaMaxScan y k then y k else lambdaMaxScan y k

/-- The local variables of the root finder in `VolumeProjection`. -/
structure BrentState where
  a : ℚ
  b : ℚ
  c : ℚ
  d : ℚ
  e : ℚ
  fa : ℚ
  fb : ℚ
  fc : ℚ
  found : Bool
  iter : Nat
  zlambda : Vec

/-- The first `if` of the loop body: move `c` to `a` when `fb` and `fc` have the same
strict sign. -/
def brentRebracket (st : BrentState) : BrentState :=
  if (st.fb > 0 ∧ st.fc > 0) ∨ (st.fb < 0 ∧ st.fc < 0) then
    { st with c := st.a, fc := st.fa, e := st.b - st.a, d := st.b - st.a }
  else st

/-- The second `if` of the loop body: make `b` the point with the smaller residual. -/
def brentSwap (st : BrentState) : BrentState :=
  if |st.fc| < |st.fb| then
    { st with a := st.b, b := st.c, c := st.b, fa := st.fb, fb := st.fc, fc := st.fb }
  else st

/-- The `else` branch of the convergence test: choose the step `d` (interpolation or
bisection), move `a` to `b`, advance `b`, count the iteration. -/
def brentAdvance (tol1 xm : ℚ) (st : BrentState) : BrentState :=
  let st1 : BrentState :=
    if |st.e| ≥ tol1 ∧ |st.fa| > |st.fb| then
      let s := st.fb / st.fa
      let p0 :=
        if st.a = st.c then 2 * xm * s
        else s * (2 * xm * (st.fa / st.fc) * (st.fa / st.fc - st.fb / st.fc)
              - (st.b - st.a) * (st.fb / st.fc - 1))
      let q0 :=
        if st.a = st.c then 1 - s
        else (st.fa / st.fc - 1) * (st.fb / st.fc - 1) * (s - 1)
      let q := if p0 > 0 then -q0 else q0
      let p := |p0|
      let min1 := 3 * xm * q - |tol1 * q|
      let min2 := |st.e * q|
      if 2 * p < (if min1 < min2 then min1 else min2) then
        { st with e := st.d, d := p / q }
      else
        { st with d := xm, e := xm }
    else
      { st with d := xm, e := xm }
  let bnew :=
    if |st1.d| > tol1 then st1.b + st1.d
    else if xm ≥ 0 ∧ tol1 ≥ 0 then st1.b + tol1
    else if xm ≥ 0 ∧ tol1 < 0 then st1.b + -tol1
    else if xm < 0 ∧ tol1 ≥ 0 then st1.b + -tol1
    else st1.b + tol1
  { st1 with a := st1.b, fa := st1.fb, b := bnew, iter := st1.iter + 1 }

/-- One pass through the body of the `while` loop of `VolumeProjection`. -/
def brentPass (nElem : Nat) (y : Vec) (target tol : ℚ) (st0 : BrentState) : BrentState :=
  let st := brentSwap (brentRebracket st0)
  let tol1 := 2 * EPS * |st.b| + 1 / 2 * tol
  let xm := 1 / 2 * (st.c - st.b)
  let st2 : BrentState :=
    if |xm| ≤ tol1 ∨ st.fb = 0 then { st with found := true }
    else brentAdvance tol1 xm st
  { st2 with
    zlambda := writeRange nElem (fun i => clip (y i) st2.b) st2.zlambda
    fb := volumeResidual nElem y target st2.b }

/-- The loop `while (!found && iter < itermax)`, unrolled at most `fuel` times. -/
def brentLoop (nElem : Nat) (y : Vec) (target tol : ℚ) : Nat → BrentState → BrentState
  | 0, st => st
  | fuel + 1, st =>
    if st.found = false ∧ st.iter < itermax then
      brentLoop nElem y target tol fuel (brentPass nElem y target tol st)
    else st

/-- The locals of `VolumeProjection` on entry to the loop.  `d` and `e` are declared
without a value; they are assigned by the first pass before they are read, and stand
here as `0`.  The scratch buffer `zlambda` holds the clipped field at `b`. -/
def brentInit (nElem : Nat) (y : Vec) (target : ℚ) : BrentState :=
  let lambdamin := lambdaMinScan y nElem
  let lambdamax := lambdaMaxScan y nElem
  { a := lambdamin
    b := lambdamax
    c := lambdamax
    d := 0
    e := 0
    fa := volumeResidual nElem y target lambdamin
    fb := volumeResidual nElem y target lambdamax
    fc := volumeResidual nElem y target lambdamax
    found := false
    iter := 0
    zlambda := writeRange nElem (fun i => clip (y i) lambdamax) (fun _ => 0) }

/-- The locals of `VolumeProjection` when the loop has ended; each pass either sets
`found` or counts one iteration, so `itermax + 1` passes are never exceeded. -/
def brentFinal (nElem : Nat) (config : CConfig) (s : CDiscAdjFEASolver) (steplen : ℚ) :
    BrentState :=
  let y : Vec := fun i => s.Density i + steplen * s.UpdateSens i
  brentLoop nElem y config.VolumeConstraint config.StepTolerance (itermax + 1)
    (brentInit nElem y config.VolumeConstraint)

/-- `CDiscAdjFEASolver::VolumeProjection`. -/
def VolumeProjection (nElem : Nat) (config : CConfig) (s : CDiscAdjFEASolver) (steplen : ℚ) :
    CDiscAdjFEASolver :=
  let fin := brentFinal nElem config s steplen
  { s with
    UpdateSensOld := writeRange nElem s.UpdateSens s.UpdateSensOld
    UpdateSens := writeRange nElem (fun i => (fin.zlambda i - s.Density i) / steplen) s.UpdateSens }

/-- Two residuals do not have the same strict sign (the negation of the test that
opens the loop body). -/
def OppSign (u v : ℚ) : Prop :=
  ¬ ((u > 0 ∧ v > 0) ∨ (u < 0 ∧ v < 0))

/-- What holds of the locals of the root finder each time the loop test is evaluated:
the residuals belong to their abscissae, a sign change lies between `b` and `c` or
between `b` and `a`, and once `found` is set the stopping test has passed at the
current `b`, `c`. -/
structure BrentInv (nElem : Nat) (y : Vec) (target tol : ℚ) (st : BrentState) : Prop where
  hfa : st.fa = volumeResidual nElem y target st.a
  hfb : st.fb = volumeResidual nElem y target st.b
  hfc : st.fc = volumeResidual nElem y target st.c
  brack : OppSign st.fb st.fc ∨ OppSign st.fb st.fa
  conv : st.found = true →
    OppSign st.fb st.fc ∧ (|1 / 2 * (st.c - st.b)| ≤ 2 * EPS * |st.b| + 1 / 2 * tol ∨ st.fb = 0)

/-- What holds after the two opening tests of the loop body: the residuals belong to
their abscissae and a sign change lies between `b` and `c`. -/
structure BrentMid (nElem : Nat) (y : Vec) (target : ℚ) (st : BrentState) : Prop where
  hfa : st.fa = volumeResidual nElem y target st.a
  hfb : st.fb = volumeResidual nElem y target st.b
  hfc : st.fc = volumeResidual nElem y target st.c
  opp : OppSign st.fb st.fc

/-- The scratch array `HelpOne` of `ThomasAlgorithm` (the modified super-diagonal).
The entry for the last row is never assigned by the source and never read; it stands
here as `0`. -/
def thomasHelpOne (A : Mat) (n : Nat) : Nat → ℚ
  | 0 => A 0 1 / A 0 0
  | i + 1 =>
    if i + 1 ≠ n - 1 then
      A (i + 1) (i + 2) / (A (i + 1) (i + 1) - thomasHelpOne A n i * A (i + 1) i)
    else 0

/-- The scratch array `help` of `ThomasAlgorithm` (the modified right-hand side). -/
def thomasHelp (A : Mat) (d : Vec) (n : Nat) : Nat → ℚ
  | 0 => d 0 / A 0 0
  | i + 1 =>
    (d (i + 1) - thomasHelp A d n i * A (i + 1) i)
      / (A (i + 1) (i + 1) - thomasHelpOne A n i * A (i + 1) i)

/-- The value stored in `d[n-1-m]` by the backward loop of `ThomasAlgorithm`. -/
def thomasBack (A : Mat) (d : Vec) (n : Nat) : Nat → ℚ
  | 0 => thomasHelp A d n (n - 1)
  | m + 1 =>
    thomasHelp A d n (n - 2 - m) - thomasHelpOne A n (n - 2 - m) * thomasBack A d n m

/-- `CDiscAdjFEASolver::ThomasAlgorithm(A, d, nElemx)`: the contents of `d` afterwards
(`A` is only read). -/
def ThomasAlgorithm (A : Mat) (d : Vec) (nElemx : Nat) : Vec :=
  fun i => if i < nElemx then thomasBack A d nElemx (nElemx - 1 - i) else d i

/-- The row `maxRow` of the pivot search of `GaussElimination` in column `i` after the
rows `i+1 .. i+m` have been compared (`maxEl` is always `|A[maxRow][i]|`). -/
def pivotScan (A : Mat) (i : Nat) : Nat → Nat
  | 0 => i
  | m + 1 =>
    if |A (i + m + 1) i| > |A (pivotScan A i m) i| then i + m + 1 else pivotScan A i m

/-- The matrix after the rows `i` and `maxRow` have been swapped in the columns
`i .. n-1`. -/
def swapRows (A : Mat) (n i maxRow : Nat) : Mat :=
  fun p q =>
    if i ≤ q ∧ q < n then
      if p = i then A maxRow q else if p = maxRow then A i q else A p q
    else A p q

/-- The right-hand side after `b[i]` and `b[maxRow]` have been swapped. -/
def swapEntries (b : Vec) (i maxRow : Nat) : Vec :=
  fun p => if p = i then b maxRow else if p = maxRow then b i else b p

/-- The matrix after the rows `i+1 .. n-1` have been reduced with row `i`. -/
def eliminateBelow (A : Mat) (n i : Nat) : Mat :=
  fun p q =>
    if i < p ∧ p < n ∧ i ≤ q ∧ q < n then
      if i = q then 0 else A p q + -A p i / A i i * A i q
    else A p q

/-- The right-hand side after the rows `i+1 .. n-1` have been reduced with row `i`. -/
def eliminateRhs (A : Mat) (b : Vec) (n i : Nat) : Vec :=
  fun p => if i < p ∧ p < n then b p + -A p i / A i i * b i else b p

/-- One pass of the forward loop of `GaussElimination` (pivot search, swap, reduction). -/
def gaussStep (n i : Nat) (Ab : Mat × Vec) : Mat × Vec :=
  let maxRow := pivotScan Ab.1 i (n - 1 - i)
  let A1 := swapRows Ab.1 n i maxRow
  let b1 := swapEntries Ab.2 i maxRow
  (eliminateBelow A1 n i, eliminateRhs A1 b1 n i)

/-- The matrix and right-hand side after the forward loop has run for `i = 0 .. m-1`. -/
def gaussForward (n : Nat) : Nat → Mat × Vec → Mat × Vec
  | 0, Ab => Ab
  | m + 1, Ab => gaussStep n m (gaussForward n m Ab)

/-- Conversion of a `long` to `short` (two's complement, 16 bits). -/
def toShort (z : Int) : Int :=
  (z + 32768) % 65536 - 32768

/-- One pass `i` of the backward loop of `GaussElimination`: `b[i]` is divided by the
pivot and the inner loop `for (short k = i-1; k >= 0; k--)` subtracts its multiples
from the entries `b[k]`; the counter `k` starts at `i-1` converted to `short`. -/
def gaussBackStep (A : Mat) (i : Nat) (b : Vec) : Vec :=
  let bi := b i / A i i
  fun p =>
    if p = i then bi
    else if (p : Int) ≤ toShort ((i : Int) - 1) then b p - A p i * bi
    else b p

/-- The right-hand side after the backward loop has run for `i = n-1 .. n-m`. -/
def gaussBack (A : Mat) (n : Nat) : Nat → Vec → Vec
  | 0, b => b
  | m + 1, b => gaussBackStep A (n - 1 - m) (gaussBack A n m b)

/-- `CDiscAdjFEASolver::GaussElimination(A, b, nElemx)`: the contents of `A` and `b`
afterwards.  The last loop copies the saved entries back into `A`. -/
def GaussElimination (A : Mat) (b : Vec) (nElemx : Nat) : Mat × Vec :=
  let fwd := gaussForward nElemx nElemx (A, b)
  (writeBlock nElemx A fwd.1, gaussBack fwd.1 nElemx nElemx fwd.2)

/-- `BlockA` of `DensityFiltering` after the set-up loops (zero off the diagonal). -/
def BlockA (eps : ℚ) (nElemx : Nat) : Mat :=
  fun i j => if i < nElemx ∧ j = i then -eps * eps else 0

/-- `BlockC` of `DensityFiltering` after the set-up loops (zero off the diagonal). -/
def BlockC (eps : ℚ) (nElemx : Nat) : Mat :=
  fun i j => if i < nElemx ∧ j = i then -eps * eps else 0

/-- `BlockB` of `DensityFiltering` after the set-up loops: the diagonal `4*eps*eps+1`,
the neighbours `-eps*eps`, and `-2*eps*eps` for the single neighbour of the first and
of the last row.  The first row writes column `1` whatever `nElemx` is. -/
def BlockB (eps : ℚ) (nElemx : Nat) : Mat :=
  fun i j =>
    if i < nElemx then
      if j = i then 4 * eps * eps + 1
      else if i = 0 then (if j = i + 1 then -2 * eps * eps else 0)
      else if i = nElemx - 1 then (if j = i - 1 then -2 * eps * eps else 0)
      else if j = i - 1 ∨ j = i + 1 then -eps * eps
      else 0
    else 0

/-- The buffers `HelpOne` (transfer operators, `nElem` rows of `nElemx` entries) and
`help` (transformed right-hand side) of `DensityFiltering`. -/
structure FilterState where
  HelpOne : Mat
  help : Vec

/-- The buffers after the two blocks of `ThomasAlgorithm` calls that treat grid row 0. -/
def filterInit (eps : ℚ) (nElemx : Nat) (result : Vec) : FilterState where
  HelpOne := fun r j =>
    if r < nElemx ∧ j < nElemx then
      ThomasAlgorithm (BlockB eps nElemx) (fun i => 2 * BlockC eps nElemx i j) nElemx r
    else 0
  help := fun r =>
    if r < nElemx then ThomasAlgorithm (BlockB eps nElemx) result nElemx r else 0

/-- The matrix `HelpTwo` built at the start of the pass for grid row `kElem`. -/
def HelpTwo (eps : ℚ) (nElemx nElemy kElem : Nat) (st : FilterState) : Mat :=
  fun i j =>
    if i < nElemx ∧ j < nElemx then
      if kElem = nElemy - 1 then
        BlockB eps nElemx i j
          - 2 * BlockA eps nElemx i i * st.HelpOne ((kElem - 1) * nElemx + i) j
      else
        BlockB eps nElemx i j
          - BlockA eps nElemx i i * st.HelpOne ((kElem - 1) * nElemx + i) j
    else 0

/-- One pass of the loop over the grid rows `kElem >= 1` of `DensityFiltering`.
`GaussElimination` copies the saved entries back into its matrix before it returns, so
every call of the pass starts from the same `HelpTwo`. -/
def filterPass (eps : ℚ) (nElemx nElemy : Nat) (result : Vec) (kElem : Nat)
    (st : FilterState) : FilterState :=
  let H2 := HelpTwo eps nElemx nElemy kElem st
  let rhs : Vec := fun i =>
    if kElem = nElemy - 1 then
      result (kElem * nElemx + i)
        - 2 * BlockA eps nElemx i i * st.help ((kElem - 1) * nElemx + i)
    else
      result (kElem * nElemx + i) - BlockA eps nElemx i i * st.help ((kElem - 1) * nElemx + i)
  { HelpOne := fun r j =>
      if kElem * nElemx ≤ r ∧ r < kElem * nElemx + nElemx ∧ j < nElemx then
        (GaussElimination H2 (fun i => BlockC eps nElemx i j) nElemx).2 (r - kElem * nElemx)
      else st.HelpOne r j
    help := fun r =>
      if kElem * nElemx ≤ r ∧ r < kElem * nElemx + nElemx then
        (GaussElimination H2 rhs nElemx).2 (r - kElem * nElemx)
      else st.help r }

/-- The loop `for (unsigned short kElem = 1; kElem < nElemy; kElem++)`, unrolled at most
`fuel` times.  The counter is 16 bits wide and wraps from 65535 to 0; a pass with
`kElem = 0` would index `HelpOne` and `help` at `(kElem-1)*nElemx + iElem`, outside the
buffers, and the model has no result there. -/
def filterRows (eps : ℚ) (nElemx nElemy : Nat) (result : Vec) :
    Nat → Nat → FilterState → Option FilterState
  | 0, _, _ => none
  | fuel + 1, kElem, st =>
    if kElem < nElemy then
      if kElem = 0 then none
      else
        filterRows eps nElemx nElemy result fuel ((kElem + 1) % 65536)
          (filterPass eps nElemx nElemy result kElem st)
    else some st

/-- The buffers after the passes `kElem = 1 .. m` of the loop over the grid rows. -/
def filterPasses (eps : ℚ) (nElemx nElemy : Nat) (result : Vec) (st : FilterState) :
    Nat → FilterState
  | 0 => st
  | m + 1 =>
    filterPass eps nElemx nElemy result (m + 1) (filterPasses eps nElemx nElemy result st m)

/-- The value of `result[r*nElemx + c]` after the backward sweep has treated the grid
rows `nElemy-1 .. nElemy-1-m`, for `r = nElemy-1-m`. -/
def filterBack (nElemx nElemy : Nat) (st : FilterState) : Nat → Nat → ℚ
  | 0, c => st.help ((nElemy - 1) * nElemx + c)
  | m + 1, c =>
    st.help ((nElemy - 2 - m) * nElemx + c)
      - ∑ j in range nElemx,
          st.HelpOne ((nElemy - 2 - m) * nElemx + c) j * filterBack nElemx nElemy st m j

/-- The buffer `result` of `DensityFiltering` after the backward sweep, started from
the copy `result0` of `UpdateSens`. -/
def filterResult (nElemx nElemy : Nat) (st : FilterState) (result0 : Vec) : Vec :=
  fun r =>
    if r < nElemx * nElemy then
      filterBack nElemx nElemy st (nElemy - 1 - r / nElemx) (r % nElemx)
    else result0 r

/-- The buffer `result` of `DensityFiltering` on entry: a copy of `UpdateSens`. -/
def filterInput (nElem : Nat) (s : CDiscAdjFEASolver) : Vec :=
  writeRange nElem s.UpdateSens (fun _ => 0)

/-- `CDiscAdjFEASolver::DensityFiltering`: the solver afterwards, with `nElemx`,
`nElemy` and `eps` read from the configuration and `nElem = geometry->GetnElem()`.
There is no result when the loop over the grid rows has none. -/
def DensityFiltering (nElem : Nat) (config : CConfig) (s : CDiscAdjFEASolver) :
    Option CDiscAdjFEASolver :=
  (filterRows config.HelmholtzFactor config.Nx config.Ny (filterInput nElem s) 65536 1
      (filterInit config.HelmholtzFactor config.Nx (filterInput nElem s))).map
    fun st =>
      { s with
        UpdateSens :=
          writeRange nElem (filterResult config.Nx config.Ny st (filterInput nElem s))
            s.UpdateSens }

/-- The leading `n x n` block is upper triangular. -/
def IsUpper (n : Nat) (A : Mat) : Prop :=
  ∀ p q, q < p → p < n → A p q = 0

/-- What the buffers of `DensityFiltering` hold after the pass for grid row `m` when
`eps = 0`: no transfer operator, and `help` is the input on the rows treated so far. -/
structure ZeroInv (nx : Nat) (result : Vec) (m : Nat) (st : FilterState) : Prop where
  hOne : ∀ r j, st.HelpOne r j = 0
  hhelp : ∀ r, r < (m + 1) * nx → st.help r = result r

/-- The linear system with the leading `n x n` block of `A` has only the zero solution
for a zero right-hand side. -/
def Nonsingular (n : Nat) (A : Mat) : Prop :=
  ∀ x : Vec, (∀ i, i < n → mulVec n A x i = 0) → ∀ i, i < n → x i = 0

/-- The vector `x` solves the linear system of the leading `n x n` block of `A` with
right-hand side `b`. -/
def Solves (n : Nat) (A : Mat) (b x : Vec) : Prop :=
  ∀ i, i < n → mulVec n A x i = b i

/-- The columns below `m` are cleared under the diagonal (rows up to `n`). -/
def ZeroBelow (n m : Nat) (A : Mat) : Prop :=
  ∀ q, q < m → ∀ p, q < p → p < n → A p q = 0

/-- The first `m` diagonal entries are not zero. -/
def PivotsNonzero (m : Nat) (A : Mat) : Prop :=
  ∀ q, q < m → A q q ≠ 0

/-- The row that ends up in position `p` when the rows `i` and `r` are swapped. -/
def swapIdx (i r p : Nat) : Nat :=
  if p = i then r else if p = r then i else p

/-- What holds of the matrix of `GaussElimination` before the pass for column `m` when
the matrix given is nonsingular. -/
structure GaussInv (n m : Nat) (A : Mat) : Prop where
  hz : ZeroBelow n m A
  hd : PivotsNonzero m A
  hns : Nonsingular n A

/-- The divisor `A[i][i]` of the reduction in the pass for column `i` of the forward
loop of `GaussElimination` (the diagonal entry after the swap). -/
def gaussPivot (A : Mat) (b : Vec) (n i : Nat) : ℚ :=
  swapRows (gaussForward n i (A, b)).1 n i
    (pivotScan (gaussForward n i (A, b)).1 i (n - 1 - i)) i i

/-- The leading `n x n` block is tridiagonal. -/
def IsTridiagonal (n : Nat) (A : Mat) : Prop :=
  ∀ i j, i < n → j < n → (i + 1 < j ∨ j + 1 < i) → A i j = 0

/-- Strict row diagonal dominance of the leading `n x n` block. -/
def IsRowDominant (n : Nat) (A : Mat) : Prop :=
  ∀ i, i < n → (∑ j in range n, if j = i then 0 else |A i j|) < |A i i|

/-- The divisor of row `i` in the forward loop of `ThomasAlgorithm`. -/
def thomasDen (A : Mat) (n : Nat) : Nat → ℚ
  | 0 => A 0 0
  | i + 1 => A (i + 1) (i + 1) - thomasHelpOne A n i * A (i + 1) i

/-- The sum of the horizontal neighbours of column `i` in a grid row `y` of `nx`
entries, the single neighbour of an edge column counted twice. -/
def rowNeighbours (nx : Nat) (y : Vec) (i : Nat) : ℚ :=
  if i = 0 then 2 * y 1
  else if i = nx - 1 then 2 * y (nx - 2)
  else y (i - 1) + y (i + 1)

/-- The matrix `H` does not increase the largest modulus of a grid row of `nx` entries. -/
def NormLeOne (nx : Nat) (H : Mat) : Prop :=
  ∀ (x : Vec) (M : ℚ), (∀ j, j < nx → |x j| ≤ M) → ∀ i, i < nx → |mulVec nx H x i| ≤ M

/-- The factor of the coupling to the previous grid row in the pass for row `k`: the
last row couples twice. -/
def gammaRow (ny k : Nat) : ℚ :=
  if k = ny - 1 then 2 else 1

/-- The rows `k*nx .. k*nx + nx - 1` of a buffer of rows (the block of grid row `k`). -/
def blockRows (nx k : Nat) (M : Mat) : Mat :=
  fun i j => M (k * nx + i) j

/-- The entries `k*nx .. k*nx + nx - 1` of a buffer (grid row `k`). -/
def blockVec (nx k : Nat) (v : Vec) : Vec :=
  fun i => v (k * nx + i)

/-- What the buffers of `DensityFiltering` hold after the pass for grid row `m`: the
blocks written so far solve their linear systems, and the transfer operators of the
rows before the last do not increase the largest modulus of a grid row. -/
structure FilterInv (eps : ℚ) (nx ny : Nat) (f : Vec) (m : Nat) (st : FilterState) : Prop where
  init_one : ∀ j, j < nx →
    Solves nx (BlockB eps nx) (fun i => 2 * BlockC eps nx i j) (fun l => st.HelpOne l j)
  init_help : Solves nx (BlockB eps nx) f st.help
  row_one : ∀ k, 1 ≤ k → k ≤ m → ∀ j, j < nx →
    Solves nx (HelpTwo eps nx ny k st) (fun i => BlockC eps nx i j)
      (fun l => st.HelpOne (k * nx + l) j)
  row_help : ∀ k, 1 ≤ k → k ≤ m →
    Solves nx (HelpTwo eps nx ny k st)
      (fun i => f (k * nx + i)
        - gammaRow ny k * BlockA eps nx i i * st.help ((k - 1) * nx + i))
      (blockVec nx k st.help)
  bound : ∀ k, k ≤ m → k + 1 < ny → NormLeOne nx (blockRows nx k st.HelpOne)

/-- Grid row `k` of the buffer `result` after the backward sweep of `DensityFiltering`. -/
def filterRow (nx ny : Nat) (st : FilterState) (k : Nat) : Vec :=
  fun i => filterBack nx ny st (ny - 1 - k) i

/-- The sum of the vertical neighbours of the element `(k, i)` in a field given by its
grid rows, the single neighbour of an edge row counted twice. -/
def colNeighbours (ny : Nat) (U : Nat → Vec) (k i : Nat) : ℚ :=
  if k = 0 then 2 * U 1 i
  else if k = ny - 1 then 2 * U (ny - 2) i
  else U (k - 1) i + U (k + 1) i

/-- The left-hand side of the discrete Helmholtz equation with doubled edge coupling at
the element `(k, i)` of a field `u` stored row by row (`nx` columns, `ny` rows):
`(4*eps^2 + 1)*u[k,i] - eps^2*(h + v)`. -/
def helmholtzLhs (eps : ℚ) (nx ny : Nat) (u : Vec) (k i : Nat) : ℚ :=
  (4 * eps ^ 2 + 1) * u (k * nx + i)
    - eps ^ 2 *
      ((if i = 0 then 2 * u (k * nx + 1)
        else if i = nx - 1 then 2 * u (k * nx + (nx - 2))
        else u (k * nx + (i - 1)) + u (k * nx + (i + 1)))
      + (if k = 0 then 2 * u (1 * nx + i)
        else if k = ny - 1 then 2 * u ((ny - 2) * nx + i)
        else u ((k - 1) * nx + i) + u ((k + 1) * nx + i)))

/-- The quadratic form `x^T M x` over the first `n` indices. -/
def quadForm (n : Nat) (M : Mat) (x : Vec) : ℚ :=
  dot n x (mulVec n M x)

/-- Symmetry of the leading `n x n` block. -/
def IsSymm (n : Nat) (M : Mat) : Prop :=
  ∀ i, i < n → ∀ j, j < n → M i j = M j i

/-- Positive definiteness of the leading `n x n` block: `x^T M x > 0` for every
vector that is not zero on the first `n` indices. -/
def IsPosDef (n : Nat) (M : Mat) : Prop :=
  ∀ x : Vec, (∃ i, i < n ∧ x i ≠ 0) → 0 < quadForm n M x

/-- Symmetric positive definite. -/
def IsSPD (n : Nat) (M : Mat) : Prop :=
  IsSymm n M ∧ IsPosDef n M

/-- The nodal variables read by `AssembleLagrangian` (`CVariable::GetSolution` and
`CVariable::GetSolution_Store`), indexed by `iVar`. -/
structure CVariable where
  Solution : Vec
  Solution_Store : Vec

/-- `CDiscAdjFEASolver::StoreConstraint`. -/
def StoreConstraint (config : CConfig) (s : CDiscAdjFEASolver) : CDiscAdjFEASolver :=
  { s with
    Constraint_Old := writeRange config.ConstraintNum s.Constraint_Save s.Constraint_Old
    Constraint_Save := writeRange config.ConstraintNum s.ConstraintFunc_Value s.Constraint_Save }

/-- `CDiscAdjFEASolver::UpdateMultiplier`. -/
def UpdateMultiplier (config : CConfig) (s : CDiscAdjFEASolver) : CDiscAdjFEASolver :=
  { s with
    multiplier :=
      writeRange config.ConstraintNum
        (fun iValue => s.multiplier iValue + s.cons_factor iValue * s.Constraint_Save iValue)
        s.multiplier }

/-- `CDiscAdjFEASolver::AssembleLagrangian`.  `direct` are the nodes of the direct
solver, `node` the nodes of the adjoint solver; `helper` is the accumulator of the
source, restarted before each of the three loops over the nodes. -/
def AssembleLagrangian (config : CConfig) (nPoint nVar : Nat) (direct node : Nat → CVariable)
    (s : CDiscAdjFEASolver) : CDiscAdjFEASolver :=
  let helper1 := ∑ iPoint in range nPoint, ∑ iVar in range nVar,
    ((direct iPoint).Solution iVar - (direct iPoint).Solution_Store iVar)
      * ((direct iPoint).Solution iVar - (direct iPoint).Solution_Store iVar)
  let helper2 :=
    if config.OneShotConstraint = true then
      helper1 + ∑ iValue in range config.ConstraintNum,
        s.ConstraintFunc_Value iValue * s.ConstraintFunc_Value iValue
    else helper1
  let L1 := 0 + helper2 * (config.OneShotAlpha / 2)
  let helper3 := ∑ iPoint in range nPoint, ∑ iVar in range nVar,
    ((node iPoint).Solution iVar - (node iPoint).Solution_Store iVar)
      * ((node iPoint).Solution iVar - (node iPoint).Solution_Store iVar)
  let L2 := L1 + helper3 * (config.OneShotBeta / 2)
  let L3 := L2 + s.ObjFunc_Value
  let L4 :=
    if config.OneShotConstraint = true then
      L3 + ∑ iValue in range config.ConstraintNum,
        s.ConstraintFunc_Value iValue * s.multiplier iValue
    else L3
  let helper4 := ∑ iPoint in range nPoint, ∑ iVar in range nVar,
    ((direct iPoint).Solution iVar - (direct iPoint).Solution_Store iVar)
      * (node iPoint).Solution_Store iVar
  { s with
    Lagrangian_Value := L4 + helper4
    Obj_Save := s.ObjFunc_Value }

/-- The value of the Lagrangian as the specification words it:
`alpha/2*||x - x_store||^2 + beta/2*||a - a_store||^2 + f_obj + sum_c multiplier[c]*g_c
+ <x - x_store, a_store>`, plus `1/2*sum_c g_c^2` when `OneShotConstraint` is set. -/
def statedLagrangian (config : CConfig) (nPoint nVar : Nat) (direct node : Nat → CVariable)
    (s : CDiscAdjFEASolver) : ℚ :=
  config.OneShotAlpha / 2 * (∑ iPoint in range nPoint, ∑ iVar in range nVar,
      ((direct iPoint).Solution iVar - (direct iPoint).Solution_Store iVar) ^ 2)
    + config.OneShotBeta / 2 * (∑ iPoint in range nPoint, ∑ iVar in range nVar,
      ((node iPoint).Solution iVar - (node iPoint).Solution_Store iVar) ^ 2)
    + s.ObjFunc_Value
    + (∑ c in range config.ConstraintNum, s.multiplier c * s.ConstraintFunc_Value c)
    + (∑ iPoint in range nPoint, ∑ iVar in range nVar,
      ((direct iPoint).Solution iVar - (direct iPoint).Solution_Store iVar)
        * (node iPoint).Solution_Store iVar)
    + (if config.OneShotConstraint = true then
        1 / 2 * ∑ c in range config.ConstraintNum, s.ConstraintFunc_Value c ^ 2
      else 0)

/-- The members of `CDiscAdjSolver` (solver_adjoint_discrete.cpp) used by its one-shot
routines.  The vectors and `Hess`, `Bess` hold 38 design variables.  `rkStore` and
`dukStore` are allocated by the constructor with `LBFGSNum` rows of 38 entries; their
rows are addressed without a bound check. -/
structure CDiscAdjSolver where
  ProjectedSens : Vec
  ProjectedSensOld : Vec
  ProjectedGradient : Vec
  DesignVar : Vec
  DesignVarUpdate : Vec
  DesignVarUpdateSave : Vec
  DesignVarUpdateReal : Vec
  UpdateSens : Vec
  Hess : Mat
  Bess : Mat
  rkStore : Mat
  dukStore : Mat
  BFGSCount : Nat
  Lagrangian_Value : ℚ
  Lagrangian_Value_Old : ℚ
  ConstraintFunc_Value : ℚ
  Constraint_Save : ℚ
  Constraint_Old : ℚ
  multiplier : ℚ
  multiplierhelp : ℚ
  multiplieroriginal : ℚ
  cons_factor : ℚ
  GradPhiCubic : ℚ
  PhiCubic : ℚ
  PhiOld : ℚ
  StepOld : ℚ

/-- `CDiscAdjSolver::CheckFirstWolfe`: the returned flag (no member is written). -/
def CDiscAdjSolver.CheckFirstWolfe (s : CDiscAdjSolver) (_steplen : ℚ) : Bool :=
  let helper := ∑ iVertex in range 38, s.DesignVarUpdateReal iVertex * s.ProjectedSens iVertex
  if s.Lagrangian_Value ≤ s.Lagrangian_Value_Old + 1 / 10000 * helper then false else true

/-- `CDiscAdjSolver::SetMultiplier`. -/
def CDiscAdjSolver.SetMultiplier (config : CConfig) (value : ℚ) (s : CDiscAdjSolver) :
    CDiscAdjSolver :=
  { s with
    multiplier := value
    multiplierhelp := value
    multiplieroriginal := value
    cons_factor := config.ConstraintFactor }

/-- The inner `else` block of `CDiscAdjSolver::UpdateMultiplier` (the source has the same
statements under `PosConstraint` and under its negation): the optional growth of
`cons_factor`, then the step from `multiplierhelp` along `Constraint_Save`. -/
def CDiscAdjSolver.proportionalRule (config : CConfig) (s : CDiscAdjSolver) : CDiscAdjSolver :=
  let cons_factor :=
    if config.FactorIncrease = true then
      s.cons_factor * (1 + |s.Constraint_Save| / |s.Constraint_Save - s.Constraint_Old|)
    else s.cons_factor
  let multiplier :=
    if config.PosUpdate = true then s.multiplierhelp + cons_factor * s.Constraint_Save
    else s.multiplierhelp - cons_factor * s.Constraint_Save
  { s with
    cons_factor := cons_factor
    multiplier := multiplier
    multiplierhelp := multiplier }

/-- `CDiscAdjSolver::UpdateMultiplier`. -/
def CDiscAdjSolver.UpdateMultiplier (config : CConfig) (s : CDiscAdjSolver) : CDiscAdjSolver :=
  if config.PosConstraint = true then
    if s.Constraint_Save ≤ 0 ∧ config.EqualConstraint = false then
      { s with multiplier := 0, multiplierhelp := s.multiplieroriginal }
    else CDiscAdjSolver.proportionalRule config s
  else
    if s.Constraint_Save ≥ 0 ∧ config.EqualConstraint = false then
      { s with multiplier := 0, multiplierhelp := s.multiplieroriginal }
    else CDiscAdjSolver.proportionalRule config s

/-- The entry `MatA[i][j]` of the inverse update in `CDiscAdjSolver::BFGSUpdateProjected`
as the loops over `kVertex` and `lVertex` accumulate it (`n` is 38 in the source). -/
def secantEntry (n : Nat) (H : Mat) (rk duk : Vec) (vk : ℚ) (i j : Nat) : ℚ :=
  H i j + 1 / vk * duk i * duk j
    + ∑ k in range n,
        (-(1 / vk) * duk i * H j k * rk k - 1 / vk * duk j * H i k * rk k
          + ∑ l in range n, 1 / vk * (1 / vk) * duk i * duk j * rk l * H l k * rk k)

/-- The entry written when `Hess` is reset: `0`, `1.0` on the diagonal, and the value `c`
on the diagonal when `HInit` is set. -/
def resetEntry (hinit : Bool) (c : ℚ) (i j : Nat) : ℚ :=
  if hinit = true ∧ i = j then c else if i = j then 1 else 0

/-- The accumulated `sBs = sum_i sum_j duk[i]*Bess[i][j]*duk[j]` (`n` is 38). -/
def curvatureB (n : Nat) (Bess : Mat) (duk : Vec) : ℚ :=
  ∑ i in range n, ∑ j in range n, duk i * Bess i j * duk j

/-- The blending scalar `theta` of the damped branch of `BFGSUpdateProjected`, computed
from the normalised `rk`, `duk` (`normduk` is the squared norm of `duk` before it was
normalised; `n` is 38).  In the ratio path the accumulation starts from the initial
value `theta = 1.0`. -/
def dampedTheta (n : Nat) (config : CConfig) (Bess : Mat) (rk duk : Vec) (normduk : ℚ) : ℚ :=
  let sBs := curvatureB n Bess duk
  let vk := ∑ i in range n, rk i * duk i
  if config.DampedBFGSPow = true then
    if vk < config.DampedGamma * sBs then
      9 / 10 * ((1 - config.DampedGamma) * sBs) / (sBs - vk)
    else 1
  else
    if vk / normduk < config.DampedMin ∨ vk / normduk > config.DampedMax then
      let useb := if vk / normduk < config.DampedMin then config.DampedMin else config.DampedMax
      9 / 10 * ((1 + ∑ i in range n, ∑ j in range n,
          (if i = j then duk i * (Bess i j - useb) * duk j else duk i * Bess i j * duk j))
        / (sBs - vk))
    else 1

/-- The damped gradient difference: `rk[i] = theta*rk[i]` followed by the accumulation of
`(1-theta)*Bess[i][j]*duk[j]` over `j` (`n` is 38). -/
def dampedRk (n : Nat) (Bess : Mat) (rk duk : Vec) (theta : ℚ) : Vec :=
  fun i => theta * rk i + ∑ j in range n, (1 - theta) * Bess i j * duk j

/-- The damped branch of `CDiscAdjSolver::BFGSUpdateProjected`: the matrices `Bess` and
`Hess` it leaves.  `sqrt` is the library square root, `rk0`, `duk0` the differences
before normalisation, `normrk`, `normduk` their squared norms. -/
def dampedUpdate (sqrt : ℚ → ℚ) (config : CConfig) (Bess0 Hess0 : Mat) (rk0 duk0 : Vec)
    (normrk normduk : ℚ) : Mat × Mat :=
  let rk : Vec := fun i => rk0 i / sqrt normrk
  let duk : Vec := fun i => duk0 i / sqrt normduk
  let Bess1 : Mat :=
    if config.NormalizeHB = true then
      writeBlock 38 (fun i j => Bess0 i j * sqrt normduk / sqrt normrk) Bess0
    else Bess0
  let Hess1 : Mat :=
    if config.NormalizeHB = true then
      writeBlock 38 (fun i j => Hess0 i j * sqrt normrk / sqrt normduk) Hess0
    else Hess0
  let sBs := curvatureB 38 Bess1 duk
  let theta := dampedTheta 38 config Bess1 rk duk normduk
  let rk1 := dampedRk 38 Bess1 rk duk theta
  let normnewrk := sqrt (∑ i in range 38, rk1 i * rk1 i)
  let rk2 : Vec := if config.NormalizeNewY = true then fun i => rk1 i / normnewrk else rk1
  let vk := ∑ i in range 38, rk2 i * duk i
  let Bs : Vec := fun i => ∑ j in range 38, Bess1 i j * duk j
  let Bess2 : Mat :=
    writeBlock 38 (fun i j => Bess1 i j + 1 / vk * rk2 i * rk2 j - 1 / sBs * Bs i * Bs j) Bess1
  let Hess2 : Mat := writeBlock 38 (secantEntry 38 Hess1 rk2 duk vk) Hess1
  if config.NormalizeHB = true then
    (writeBlock 38 (fun i j => Bess2 i j * sqrt normrk / sqrt normduk) Bess2,
      writeBlock 38 (fun i j => Hess2 i j * sqrt normduk / sqrt normrk) Hess2)
  else (Bess2, Hess2)

/-- The local `maxCount` of the limited-memory branch: `GetLBFGSNum()-1` stored in an
`unsigned long` (64 bits, so `LBFGSNum = 0` gives `2^64-1`), then capped by `BFGSCount`. -/
def lbfgsMaxCount (config : CConfig) (BFGSCount : Nat) : Nat :=
  let maxCount := (config.LBFGSNum + (2 ^ 64 - 1)) % 2 ^ 64
  if maxCount > BFGSCount then BFGSCount else maxCount

/-- A store (`rkStore` or `dukStore`) after the passes `kCount = 0 .. m-1` of the loop
`store[kCount+1][iVertex] = store[kCount][iVertex]`, which runs upwards. -/
def shiftStore (S : Mat) : Nat → Mat
  | 0 => S
  | m + 1 => fun k i =>
    if k = m + 1 ∧ i < 38 then shiftStore S m m i else shiftStore S m k i

/-- A store after `store[maxCount][iVertex] = v[iVertex]` for the 38 entries. -/
def storePair (S : Mat) (maxCount : Nat) (v : Vec) : Mat :=
  fun k i => if k = maxCount ∧ i < 38 then v i else S k i

/-- The matrix `Hess` after the passes `kCount = 0 .. m-1` of the replay loop of the
limited-memory branch, started from `H0`. -/
def lbfgsReplay (rkStore dukStore : Mat) (H0 : Mat) : Nat → Mat
  | 0 => H0
  | m + 1 =>
    writeBlock 38
      (secantEntry 38 (lbfgsReplay rkStore dukStore H0 m) (rkStore m) (dukStore m)
        (∑ i in range 38, rkStore m i * dukStore m i))
      (lbfgsReplay rkStore dukStore H0 m)

/-- The part of `CDiscAdjSolver::BFGSUpdateProjected` before the direction is written:
the block under `if (ExtIter > OneShotStart)`.  `sqrt` is the library square root. -/
def CDiscAdjSolver.updateHess (sqrt : ℚ → ℚ) (config : CConfig) (ExtIter : Nat)
    (s : CDiscAdjSolver) : CDiscAdjSolver :=
  let rk : Vec := fun i => s.ProjectedSens i - s.ProjectedSensOld i
  let duk : Vec := fun i => s.DesignVarUpdate i
  let vk := ∑ i in range 38, rk i * duk i
  let normrk := ∑ i in range 38, rk i * rk i
  let normduk := ∑ i in range 38, duk i * duk i
  if ExtIter > config.OneShotStart then
    if config.DampedBFGS = true then
      { s with
        Bess := (dampedUpdate sqrt config s.Bess s.Hess rk duk normrk normduk).1
        Hess := (dampedUpdate sqrt config s.Bess s.Hess rk duk normrk normduk).2 }
    else if vk > 0 ∧ (|vk| > 1 / 1000 ∨ config.CheckVk = false) then
      if config.LBFGS = true then
        let maxCount := lbfgsMaxCount config s.BFGSCount
        let rkS := storePair (shiftStore s.rkStore maxCount) maxCount rk
        let dukS := storePair (shiftStore s.dukStore maxCount) maxCount duk
        { s with
          rkStore := rkS
          dukStore := dukS
          Hess :=
            lbfgsReplay rkS dukS (writeBlock 38 (resetEntry config.HInit (vk / normrk)) s.Hess)
              (maxCount + 1)
          BFGSCount := s.BFGSCount + 1 }
      else
        { s with
          Hess := writeBlock 38 (secantEntry 38 s.Hess rk duk vk) s.Hess
          BFGSCount := s.BFGSCount + 1 }
    else if config.IdentityHessian = true then
      { s with Hess := writeBlock 38 (resetEntry config.HInit config.HScale) s.Hess }
    else s
  else s

/-- `CDiscAdjSolver::BFGSUpdateProjected`.  `sqrt` is the library square root. -/
def CDiscAdjSolver.BFGSUpdateProjected (sqrt : ℚ → ℚ) (config : CConfig) (ExtIter : Nat)
    (s : CDiscAdjSolver) : CDiscAdjSolver :=
  let s1 := CDiscAdjSolver.updateHess sqrt config ExtIter s
  { s1 with
    ProjectedSensOld := writeRange 38 s.ProjectedSens s.ProjectedSensOld
    Lagrangian_Value_Old := s.Lagrangian_Value
    UpdateSens :=
      writeRange 38 (fun i => 0 - ∑ j in range 38, s1.Hess i j * s.ProjectedGradient j)
        s.UpdateSens }

/-- The curvature `vk = sum_i rk[i]*duk[i]` formed at the start of
`CDiscAdjSolver::BFGSUpdateProjected`, with `rk = ProjectedSens - ProjectedSensOld` and
`duk = DesignVarUpdate`. -/
def CDiscAdjSolver.vk (s : CDiscAdjSolver) : ℚ :=
  ∑ i in range 38, (s.ProjectedSens i - s.ProjectedSensOld i) * s.DesignVarUpdate i

/-- The directional derivative `sum_{i<38} UpdateSens[i]*ProjectedSens[i]` accumulated in
`helper` by `CheckDescentDirection` and by `QuadraticApproximation`. -/
def CDiscAdjSolver.slope (s : CDiscAdjSolver) : ℚ :=
  ∑ iVertex in range 38, s.UpdateSens iVertex * s.ProjectedSens iVertex

/-- The quadratic `q(t) = L_old + g*t + c*t^2` with `q(0) = L_old`, `q'(0) = g` and
`q(s) = L_new`, that is `c = (L_new - L_old - g*s)/s^2`. -/
def quadraticModel (Lold g Lnew s t : ℚ) : ℚ :=
  Lold + g * t + (Lnew - Lold - g * s) / s ^ 2 * t ^ 2

/-- The derivative `q'(t) = g + 2*c*t` of `quadraticModel`. -/
def quadraticModelDeriv (Lold g Lnew s t : ℚ) : ℚ :=
  g + 2 * ((Lnew - Lold - g * s) / s ^ 2) * t

/-- `CDiscAdjSolver::CheckDescentDirection`: the returned flag (no member is written). -/
def CDiscAdjSolver.CheckDescentDirection (s : CDiscAdjSolver) (_steplen : ℚ) : Bool :=
  let helper := ∑ iVertex in range 38, s.UpdateSens iVertex * s.ProjectedSens iVertex
  if helper ≤ 0 then true else false

/-- `CDiscAdjSolver::ChangeDirection`. -/
def CDiscAdjSolver.ChangeDirection (s : CDiscAdjSolver) : CDiscAdjSolver :=
  { s with UpdateSens := writeRange 38 (fun iVertex => -s.UpdateSens iVertex) s.UpdateSens }

/-- `CDiscAdjSolver::QuadraticApproximation`: the returned step and the solver afterwards.
The returned value is the quotient itself; the source divides without a test, and where
the divisor `2*(Lagrangian_Value - Lagrangian_Value_Old - helper*steplen)` is zero the
quotient is no number (an infinity or NaN in floating point) and the model has no
value. -/
def CDiscAdjSolver.QuadraticApproximation (s : CDiscAdjSolver) (steplen : ℚ) :
    Option ℚ × CDiscAdjSolver :=
  let helper := ∑ iVertex in range 38, s.UpdateSens iVertex * s.ProjectedSens iVertex
  let s1 : CDiscAdjSolver :=
    { s with
      GradPhiCubic := helper
      PhiCubic := s.Lagrangian_Value_Old
      PhiOld := s.Lagrangian_Value
      StepOld := steplen }
  if 2 * (s.Lagrangian_Value - s.Lagrangian_Value_Old - helper * steplen) = 0 then (none, s1)
  else
    (some (-helper * steplen * steplen
      / (2 * (s.Lagrangian_Value - s.Lagrangian_Value_Old - helper * steplen))), s1)

/-- The candidate `steplennew` of `CDiscAdjSolver::CubicApproximation`.  `sqrt` is the
library square root. -/
def cubicCandidate (sqrt : ℚ → ℚ) (s : CDiscAdjSolver) (steplen : ℚ) : ℚ :=
  let avalue0 :=
    s.StepOld * s.StepOld * (s.Lagrangian_Value - s.PhiCubic - s.GradPhiCubic * steplen)
      - steplen * steplen * (s.PhiOld - s.PhiCubic - s.GradPhiCubic * s.StepOld)
  let bvalue0 :=
    -s.StepOld * s.StepOld * s.StepOld
        * (s.Lagrangian_Value - s.PhiCubic - s.GradPhiCubic * steplen)
      + steplen * steplen * steplen * (s.PhiOld - s.PhiCubic - s.GradPhiCubic * s.StepOld)
  let avalue := 1 / (s.StepOld * s.StepOld * steplen * steplen * (steplen - s.StepOld)) * avalue0
  let bvalue := 1 / (s.StepOld * s.StepOld * steplen * steplen * (steplen - s.StepOld)) * bvalue0
  (-bvalue + sqrt (bvalue * bvalue - 3 * avalue * s.GradPhiCubic)) / (3 * avalue)

/-- `CDiscAdjSolver::CubicApproximation`: the returned step and the solver afterwards. -/
def CDiscAdjSolver.CubicApproximation (sqrt : ℚ → ℚ) (s : CDiscAdjSolver) (steplen : ℚ) :
    ℚ × CDiscAdjSolver :=
  let steplennew := cubicCandidate sqrt s steplen
  let s1 : CDiscAdjSolver := { s with PhiOld := s.Lagrangian_Value, StepOld := steplen }
  if |steplennew - steplen| < 1 / 10 ^ 15 then (steplen * (1 / 2), s1)
  else if |steplennew - steplen| > 1 / 2 ∨ steplennew = 0 then (steplen * (1 / 2), s1)
  else (steplennew, s1)

/-- Rounding of `y` to the nearest integer, to the even one when two are nearest. -/
def roundNearestEven (y : ℚ) : ℤ :=
  if y - ⌊y⌋ < 1 / 2 then ⌊y⌋
  else if y - ⌊y⌋ > 1 / 2 then ⌊y⌋ + 1
  else if ⌊y⌋ % 2 = 0 then ⌊y⌋ else ⌊y⌋ + 1

/-- The `double` nearest to `x`: a significand of 53 bits, ties to the even significand.
The exponent is not limited, so overflow and the subnormal numbers are not represented. -/
def roundDouble (x : ℚ) : ℚ :=
  if x = 0 then 0
  else (roundNearestEven (x / 2 ^ (Int.log 2 |x| - 52)) : ℚ) * 2 ^ (Int.log 2 |x| - 52)

/-- The accumulation `acc += term[i]` over `i < n`, started from `0.0`; `fl` is the
rounding applied to each sum. -/
def accumulate (fl : ℚ → ℚ) (term : Nat → ℚ) : Nat → ℚ
  | 0 => 0
  | n + 1 => fl (accumulate fl term n + term n)

/-- The entry `DesignVarUpdate[iVertex]` left by the second loop of
`CDiscAdjSolver::DesignUpdateProjected`: the scaled direction, reduced when
`OSStepAdaptive` is set and `normsens` is large, then cut at the upper and at the lower
bound of the box.  `fl` is the rounding applied to the literals `0.005`, `1E-3` and to the
result of each arithmetic operation: the identity for exact arithmetic, `roundDouble` for
the arithmetic of `su2double`. -/
def projectedEntry (fl : ℚ → ℚ) (config : CConfig) (normsens : ℚ) (s : CDiscAdjSolver)
    (steplen : ℚ) (iVertex : Nat) : ℚ :=
  let d0 := fl (s.UpdateSens iVertex * steplen)
  let d1 :=
    if config.OSStepAdaptive = true then
      if normsens > 10000000 then fl (d0 * fl (1 / 1000)) else d0
    else d0
  let d2 :=
    if fl (s.DesignVar iVertex + d1) > fl (5 / 1000) then
      fl (fl (5 / 1000) - s.DesignVar iVertex)
    else d1
  if fl (s.DesignVar iVertex + d2) < -fl (5 / 1000) then
    fl (-fl (5 / 1000) - s.DesignVar iVertex)
  else d2

/-- `CDiscAdjSolver::DesignUpdateProjected`.  `fl` is the rounding of the arithmetic (the
identity for exact arithmetic, `roundDouble` for `su2double`), `sqrt` the library square
root. -/
def CDiscAdjSolver.DesignUpdateProjected (fl sqrt : ℚ → ℚ) (config : CConfig)
    (s : CDiscAdjSolver) (steplen : ℚ) : CDiscAdjSolver :=
  let normsens :=
    sqrt (fl (accumulate fl
      (fun iVertex => fl (s.UpdateSens iVertex * s.UpdateSens iVertex)) 38 / (38 * 38)))
  { s with
    DesignVarUpdateSave := writeRange 38 s.DesignVarUpdateReal s.DesignVarUpdateSave
    DesignVarUpdate :=
      writeRange 38 (projectedEntry fl config normsens s steplen) s.DesignVarUpdate
    DesignVarUpdateReal :=
      writeRange 38 (projectedEntry fl config normsens s steplen) s.DesignVarUpdateReal }

/-- `CDiscAdjSolver::ApplyDesignVar`.  `fl` is the rounding of the sum (the identity for
exact arithmetic, `roundDouble` for `su2double`). -/
def CDiscAdjSolver.ApplyDesignVar (fl : ℚ → ℚ) (s : CDiscAdjSolver) : CDiscAdjSolver :=
  { s with
    DesignVar :=
      writeRange 38
        (fun iVertex => fl (s.DesignVar iVertex + s.DesignVarUpdateReal iVertex))
        s.DesignVar }

/-- The loop `while (dv + u*steplen > 0.005 || dv + u*steplen < -0.005) steplen = steplen*0.5`
of `DesignUpdateBounds` for one design variable, unrolled at most `fuel` times: the step
length on exit, and no value when the passes allowed do not suffice. -/
def halveWhile (dv u : ℚ) : Nat → ℚ → Option ℚ
  | 0, _ => none
  | fuel + 1, steplen =>
    if dv + u * steplen > 5 / 1000 ∨ dv + u * steplen < -(5 / 1000) then
      halveWhile dv u fuel (steplen * (1 / 2))
    else some steplen

/-- The step length after the loop over `iVertex = 0 .. m-1` of `DesignUpdateBounds`, each
inner `while` loop unrolled at most `fuel` times. -/
def boundsLoop (DesignVar UpdateSens : Vec) (fuel : Nat) : Nat → ℚ → Option ℚ
  | 0, steplen => some steplen
  | m + 1, steplen =>
    (boundsLoop DesignVar UpdateSens fuel m steplen).bind
      (halveWhile (DesignVar m) (UpdateSens m) fuel)

/-- `CDiscAdjSolver::DesignUpdateBounds`: the returned step length and the solver
afterwards, with each `while` loop unrolled at most `fuel` times (`normsens` is only
printed). -/
def CDiscAdjSolver.DesignUpdateBounds (fuel : Nat) (s : CDiscAdjSolver) (steplen : ℚ) :
    Option (ℚ × CDiscAdjSolver) :=
  (boundsLoop s.DesignVar s.UpdateSens fuel 38 steplen).map fun steplen1 =>
    (steplen1,
      { s with
        DesignVarUpdateSave := writeRange 38 s.DesignVarUpdateReal s.DesignVarUpdateSave
        DesignVarUpdate :=
          writeRange 38 (fun iVertex => s.UpdateSens iVertex * steplen1) s.DesignVarUpdate
        DesignVarUpdateReal :=
          writeRange 38 (fun iVertex => s.UpdateSens iVertex * steplen1)
            s.DesignVarUpdateReal })

/-- A value lies in the box `[-0.005, 0.005]` of the design variables. -/
def InBox (x : ℚ) : Prop :=
  -(5 / 1000) ≤ x ∧ x ≤ 5 / 1000

/-- A configuration with `OneShotStart = 0`, tolerance `1/1000`, target fraction `1/2`,
a grid of `2 x 2` cells; plain (not damped, not limited-memory) BFGS, one constraint
treated as an inequality with positive sign. -/
def sampleConfig : CConfig where
  OneShotStart := 0
  StepTolerance := 1 / 1000
  VolumeConstraint := 1 / 2
  Nx := 2
  Ny := 2
  HelmholtzFactor := 1
  DampedBFGS := false
  NormalizeHB := false
  DampedMin := 1 / 10
  DampedMax := 10
  DampedBFGSPow := false
  DampedGamma := 1 / 5
  NormalizeNewY := false
  CheckVk := false
  LBFGS := false
  LBFGSNum := 1
  HInit := false
  IdentityHessian := false
  HScale := 1
  PosConstraint := true
  EqualConstraint := false
  FactorIncrease := false
  PosUpdate := true
  ConstraintFactor := 1
  ConstraintNum := 1
  OneShotConstraint := false
  OneShotAlpha := 1
  OneShotBeta := 1
  OSStepAdaptive := false

/-- One element, equal Lagrangian values, update `1` along an old gradient `1`. -/
def ascentState : CDiscAdjFEASolver :=
  { CDiscAdjFEASolver.construct with
    DesignVarUpdate := fun _ => 1
    Lagrange_Sens_Old := fun _ => 1 }

/-- The constructor state with the Lagrangian gradient `[1,0,0,0]`. -/
def unitGradientState : CDiscAdjFEASolver :=
  { CDiscAdjFEASolver.construct with
    Lagrange_Sens := fun i => if i = 0 then 1 else 0 }

/-- One element, identity `Hess`, gradient difference `rk = 2`, step `duk = 1`. -/
def secantState : CDiscAdjFEASolver :=
  { CDiscAdjFEASolver.construct with
    Lagrange_Sens := fun _ => 2
    DesignVarUpdate := fun _ => 1 }

/-- The field `[0.2, 0.8, 0.3, 0.7]`. -/
def scenarioY : Vec :=
  fun i => if i = 0 then 1 / 5 else if i = 1 then 4 / 5 else if i = 2 then 3 / 10 else 7 / 10

/-- The constructor state with `Density = [0.2, 0.8, 0.3, 0.7]` and a zero direction, so
that the input field of the projection is `[0.2, 0.8, 0.3, 0.7]`. -/
def scenarioState : CDiscAdjFEASolver :=
  { CDiscAdjFEASolver.construct with Density := scenarioY }

/-- The field `[1.5, 1.5, 1, 1]`. -/
def steepY : Vec :=
  fun i => if i < 2 then 3 / 2 else 1

/-- The constructor state with `Density = [1.5, 1.5, 1, 1]` and a zero direction. -/
def steepState : CDiscAdjFEASolver :=
  { CDiscAdjFEASolver.construct with Density := steepY }

/-- Target fraction `0.49` and tolerance `0.01`. -/
def steepConfig : CConfig :=
  { sampleConfig with VolumeConstraint := 49 / 100, StepTolerance := 1 / 100 }

/-- A grid of one cell with length scale `eps`. -/
def oneCellConfig (eps : ℚ) : CConfig :=
  { sampleConfig with Nx := 1, Ny := 1, HelmholtzFactor := eps }

/-- The constructor state with `UpdateSens[0] = f`. -/
def oneCellState (f : ℚ) : CDiscAdjFEASolver :=
  { CDiscAdjFEASolver.construct with UpdateSens := fun _ => f }

/-- A grid of `nx` columns and 65536 rows with length scale `eps`. -/
def tallConfig (eps : ℚ) (nx : Nat) : CConfig :=
  { sampleConfig with Nx := nx, Ny := 65536, HelmholtzFactor := eps }

/-- The identity of size 32770 with the additional entry `A[0][32769] = 1`. -/
def wideMatrix : Mat :=
  fun p q => if p = q then 1 else if p = 0 ∧ q = 32769 then 1 else 0

/-- The right-hand side with the single entry `b[32769] = 1`. -/
def wideRhs : Vec :=
  fun p => if p = 32769 then 1 else 0

/-- The vector `[c, 0, 0, ...]`. -/
def unitVec (c : ℚ) : Vec :=
  fun i => if i = 0 then c else 0

/-- A `CDiscAdjSolver` with every buffer zero, `Hess` and `Bess` the identity and
`BFGSCount = 0`. -/
def zeroSolver : CDiscAdjSolver where
  ProjectedSens := fun _ => 0
  ProjectedSensOld := fun _ => 0
  ProjectedGradient := fun _ => 0
  DesignVar := fun _ => 0
  DesignVarUpdate := fun _ => 0
  DesignVarUpdateSave := fun _ => 0
  DesignVarUpdateReal := fun _ => 0
  UpdateSens := fun _ => 0
  Hess := identityMat
  Bess := identityMat
  rkStore := fun _ _ => 0
  dukStore := fun _ _ => 0
  BFGSCount := 0
  Lagrangian_Value := 0
  Lagrangian_Value_Old := 0
  ConstraintFunc_Value := 0
  Constraint_Save := 0
  Constraint_Old := 0
  multiplier := 0
  multiplierhelp := 0
  multiplieroriginal := 0
  cons_factor := 0
  GradPhiCubic := 0
  PhiCubic := 0
  PhiOld := 0
  StepOld := 0

/-- Limited-memory BFGS with `LBFGSNum = m` (not damped, `CheckVk` off, `HInit` off). -/
def lbfgsConfig (m : Nat) : CConfig :=
  { sampleConfig with LBFGS := true, LBFGSNum := m }

/-- The call of `BFGSUpdateProjected` (with `ExtIter = 1 > OneShotStart = 0`) that the
driver makes after a design step `u` that led to the gradient `g`. -/
def lbfgsCall (sqrt : ℚ → ℚ) (m : Nat) (g u : Vec) (s : CDiscAdjSolver) : CDiscAdjSolver :=
  CDiscAdjSolver.BFGSUpdateProjected sqrt (lbfgsConfig m) 1
    { s with ProjectedSens := g, DesignVarUpdate := u }

/-- Three calls with capacity `m`, from the all-zero solver: the gradients `[1,0,..]`,
`[3,0,..]`, `[6,0,..]` after the steps `[1,0,..]`, `[2,0,..]`, `[3,0,..]`, so that the
pairs `(rk, duk)` are `p1 = ([1,0,..],[1,0,..])`, `p2 = ([2,0,..],[2,0,..])` and
`p3 = ([3,0,..],[3,0,..])`. -/
def lbfgsThreeCalls (sqrt : ℚ → ℚ) (m : Nat) : CDiscAdjSolver :=
  lbfgsCall sqrt m (unitVec 6) (unitVec 3)
    (lbfgsCall sqrt m (unitVec 3) (unitVec 2)
      (lbfgsCall sqrt m (unitVec 1) (unitVec 1) zeroSolver))

/-- The all-zero solver with the gradient `[2,0,..]` after the step `[1,0,..]` and the
projected gradient `[1,0,..]`. -/
def firstPairState : CDiscAdjSolver :=
  { zeroSolver with
    ProjectedSens := unitVec 2
    DesignVarUpdate := unitVec 1
    ProjectedGradient := unitVec 1 }

/-- Damped BFGS on the ratio path with `[bmin, bmax] = [7/10, 10]`. -/
def ratioConfig : CConfig :=
  { sampleConfig with DampedBFGS := true, DampedMin := 7 / 10, DampedMax := 10 }

/-- The unit vector `[3/5, 4/5, 0, ...]`. -/
def tiltedVec : Vec :=
  fun i => if i = 0 then 3 / 5 else if i = 1 then 4 / 5 else 0

/-- One constraint with value `1` and multiplier `1`, everything else as constructed. -/
def oneConstraintState : CDiscAdjFEASolver :=
  { CDiscAdjFEASolver.construct with
    ConstraintFunc_Value := fun _ => 1
    multiplier := fun _ => 1 }

/-- A node whose solution and stored solution are zero. -/
def zeroNode : Nat → CVariable :=
  fun _ => { Solution := fun _ => 0, Solution_Store := fun _ => 0 }

/-- One constraint folded into the penalty, with `OneShotAlpha = 4`. -/
def penaltyConfig : CConfig :=
  { sampleConfig with OneShotConstraint := true, OneShotAlpha := 4 }

/-- The discrete solver after `SetMultiplier(config, 1)` with a stored constraint value
`-1` (satisfied for a positive constraint). -/
def inactiveState : CDiscAdjSolver :=
  { CDiscAdjSolver.SetMultiplier sampleConfig 1 zeroSolver with Constraint_Save := -1 }

/-- Growth of the factor switched on. -/
def growthConfig : CConfig :=
  { sampleConfig with FactorIncrease := true }

/-- The all-zero solver with the direction `[-1,0,..]` and the gradient `[1,0,..]`
(directional derivative `-1`) and equal Lagrangian values `0`. -/
def flatState : CDiscAdjSolver :=
  { zeroSolver with
    UpdateSens := unitVec (-1)
    ProjectedSens := unitVec 1 }

/-- The same direction and gradient with `Lagrangian_Value_Old = 0` and
`Lagrangian_Value = -1`: the Lagrangian is linear along the step `1`. -/
def linearState : CDiscAdjSolver :=
  { flatState with Lagrangian_Value := -1 }

/-- The samples of `phi(t) = -9*t - 3*t^2 + t^3` held after a step `8`: `PhiCubic = 0`,
`GradPhiCubic = -9`, `StepOld = 8`, `PhiOld = phi(8) = 248`, and the current value
`Lagrangian_Value = phi(4) = -20` for the current step `4`. -/
def cubicState : CDiscAdjSolver :=
  { zeroSolver with
    PhiCubic := 0
    GradPhiCubic := -9
    StepOld := 8
    PhiOld := 248
    Lagrangian_Value := -20 }

/-- The all-zero solver with the direction `[1,0,..]`. -/
def unitDirectionState : CDiscAdjSolver :=
  { zeroSolver with UpdateSens := unitVec 1 }

/-- The direction `[1,0,..]` with the design variables `[1,0,..]`: the first design
variable lies outside the box. -/
def outsideState : CDiscAdjSolver :=
  { zeroSolver with UpdateSens := unitVec 1, DesignVar := unitVec 1 }

theorem writeRange_lt {n : Nat} (val old : Vec) {i : Nat} (h : i < n) :
    writeRange n val old i = val i := by
  simp [writeRange, h]

theorem writeBlock_lt {n : Nat} (val old : Mat) {i j : Nat} (hi : i < n) (hj : j < n) :
    writeBlock n val old i j = val i j := by
  simp [writeBlock, hi, hj]

theorem mulVec_writeBlock {n : Nat} (val old : Mat) (v : Vec) {i : Nat} (hi : i < n) :
    mulVec n (writeBlock n val old) v i = mulVec n val v i := by
  unfold mulVec
  refine sum_congr rfl fun j hj => ?_
  rw [writeBlock_lt val old hi (mem_range.mp hj)]

theorem dot_comm (n : Nat) (u v : Vec) : dot n u v = dot n v u := by
  unfold dot
  exact sum_congr rfl fun i _ => mul_comm _ _

/-- Row `i` of the rank-two formula applied to a vector `x`. -/
theorem mulVec_bfgsEntry (n : Nat) (H : Mat) (wone duk x : Vec) (vk wtwo : ℚ) (i : Nat) :
    mulVec n (bfgsEntry H wone duk vk wtwo) x i
      = mulVec n H x i - 1 / vk * (wone i * dot n duk x + duk i * dot n wone x)
        + 1 / vk * (1 + wtwo / vk) * duk i * dot n duk x := by
  unfold mulVec dot bfgsEntry
  have key : ∀ j, (H i j - 1 / vk * (wone i * duk j + wone j * duk i)
        + 1 / vk * (1 + wtwo / vk) * duk i * duk j) * x j
      = H i j * x j - (1 / vk * wone i) * (duk j * x j) - (1 / vk * duk i) * (wone j * x j)
        + (1 / vk * (1 + wtwo / vk) * duk i) * (duk j * x j) := by
    intro j; ring
  simp only [key, sum_add_distrib, sum_sub_distrib, ← mul_sum]
  ring

/-- The inverse secant equation for the rank-two formula. -/
theorem bfgsEntry_secant (n : Nat) (H : Mat) (rk duk : Vec) (hvk : 0 < dot n rk duk) (i : Nat) :
    mulVec n (bfgsEntry H (mulVec n H rk) duk (dot n rk duk) (dot n rk (mulVec n H rk))) rk i
      = duk i := by
  rw [mulVec_bfgsEntry, dot_comm n duk rk, dot_comm n (mulVec n H rk) rk]
  have h0 : dot n rk duk ≠ 0 := ne_of_gt hvk
  field_simp
  ring

theorem quadForm_congr {n : Nat} {M N : Mat} (h : ∀ i, i < n → ∀ j, j < n → M i j = N i j)
    (x : Vec) : quadForm n M x = quadForm n N x := by
  unfold quadForm dot mulVec
  refine sum_congr rfl fun i hi => ?_
  congr 1
  exact sum_congr rfl fun j hj => by rw [h i (mem_range.mp hi) j (mem_range.mp hj)]

theorem IsSPD.congr {n : Nat} {M N : Mat} (h : ∀ i, i < n → ∀ j, j < n → M i j = N i j)
    (hN : IsSPD n N) : IsSPD n M := by
  refine ⟨fun i hi j hj => ?_, fun x hx => ?_⟩
  · rw [h i hi j hj, h j hj i hi]; exact hN.1 i hi j hj
  · rw [quadForm_congr h]; exact hN.2 x hx

theorem quadForm_identityMat (n : Nat) (x : Vec) :
    quadForm n identityMat x = ∑ i in range n, x i * x i := by
  unfold quadForm dot mulVec identityMat
  refine sum_congr rfl fun i hi => ?_
  congr 1
  simp [mem_range.mp hi]

theorem identityMat_spd (n : Nat) : IsSPD n identityMat := by
  refine ⟨fun i _ j _ => ?_, fun x hx => ?_⟩
  · unfold identityMat
    by_cases h : i = j
    · simp [h]
    · simp [h, Ne.symm h]
  · rw [quadForm_identityMat]
    obtain ⟨i, hi, hxi⟩ := hx
    have hnn : ∀ k ∈ range n, 0 ≤ x k * x k := fun k _ => mul_self_nonneg _
    have hle := single_le_sum hnn (mem_range.mpr hi)
    have hpos : 0 < x i * x i := mul_self_pos.mpr hxi
    linarith

theorem clip_nonneg (y lambda : ℚ) : 0 ≤ clip y lambda :=
  le_max_left _ _

theorem clip_le_one (y lambda : ℚ) : clip y lambda ≤ 1 :=
  max_le (by norm_num) (min_le_right _ _)

theorem clip_eq_one {y lambda : ℚ} (h : 1 ≤ y - lambda) : clip y lambda = 1 := by
  unfold clip
  rw [min_eq_right h]
  exact max_eq_right (by norm_num)

theorem clip_eq_zero {y lambda : ℚ} (h : y - lambda ≤ 0) : clip y lambda = 0 := by
  unfold clip
  have : min (y - lambda) 1 ≤ 0 := le_trans (min_le_left _ _) h
  exact max_eq_left this

/-- The clipped entry moves by at most the shift. -/
theorem clip_lipschitz (y l1 l2 : ℚ) : |clip y l1 - clip y l2| ≤ |l1 - l2| := by
  unfold clip
  have h1 : |max 0 (min (y - l1) 1) - max 0 (min (y - l2) 1)|
      ≤ |min (y - l1) 1 - min (y - l2) 1| := by
    rw [max_comm 0, max_comm 0]
    exact abs_max_sub_max_le_abs _ _ _
  have h2 := abs_min_sub_min_le_max (y - l1) 1 (y - l2) 1
  have h3 : max |y - l1 - (y - l2)| |(1 : ℚ) - 1| = |l1 - l2| := by
    have : y - l1 - (y - l2) = -(l1 - l2) := by ring
    rw [this, abs_neg, sub_self, abs_zero]
    exact max_eq_left (abs_nonneg _)
  calc |max 0 (min (y - l1) 1) - max 0 (min (y - l2) 1)|
      ≤ |min (y - l1) 1 - min (y - l2) 1| := h1
    _ ≤ max |y - l1 - (y - l2)| |(1 : ℚ) - 1| := h2
    _ = |l1 - l2| := h3

theorem volumeResidual_lipschitz (n : Nat) (y : Vec) (target l1 l2 : ℚ) :
    |volumeResidual n y target l1 - volumeResidual n y target l2| ≤ (n : ℚ) * |l1 - l2| := by
  unfold volumeResidual
  have h : (∑ i in range n, clip (y i) l1 * 1) - (n : ℚ) * target
      - ((∑ i in range n, clip (y i) l2 * 1) - (n : ℚ) * target)
      = ∑ i in range n, (clip (y i) l1 - clip (y i) l2) := by
    rw [sum_sub_distrib]; simp
  rw [h]
  calc |∑ i in range n, (clip (y i) l1 - clip (y i) l2)|
      ≤ ∑ i in range n, |clip (y i) l1 - clip (y i) l2| := abs_sum_le_sum_abs _ _
    _ ≤ ∑ _i in range n, |l1 - l2| := sum_le_sum fun i _ => clip_lipschitz (y i) l1 l2
    _ = (n : ℚ) * |l1 - l2| := by simp

theorem oppSign_next {fb fc : ℚ} (h : OppSign fb fc) (w : ℚ) :
    OppSign w fc ∨ OppSign w fb := by
  unfold OppSign at *
  by_contra hcon
  push_neg at hcon h
  obtain ⟨h1, h2⟩ := hcon
  obtain ⟨k1, k2⟩ := h
  rcases h1 with ⟨a1, a2⟩ | ⟨a1, a2⟩ <;> rcases h2 with ⟨b1, b2⟩ | ⟨b1, b2⟩
  · have := k1 b2; linarith
  · linarith
  · linarith
  · have := k2 b2; linarith

theorem oppSign_symm {u v : ℚ} (h : OppSign u v) : OppSign v u := by
  unfold OppSign at *
  intro hcon
  apply h
  rcases hcon with ⟨a1, a2⟩ | ⟨a1, a2⟩
  · exact Or.inl ⟨a2, a1⟩
  · exact Or.inr ⟨a2, a1⟩

theorem brentRebracket_found (st : BrentState) : (brentRebracket st).found = st.found := by
  unfold brentRebracket; split_ifs <;> rfl

theorem brentSwap_found (st : BrentState) : (brentSwap st).found = st.found := by
  unfold brentSwap; split_ifs <;> rfl

theorem brentAdvance_found (tol1 xm : ℚ) (st : BrentState) :
    (brentAdvance tol1 xm st).found = st.found := by
  unfold brentAdvance; simp only []; split_ifs <;> rfl

theorem brentAdvance_c (tol1 xm : ℚ) (st : BrentState) :
    (brentAdvance tol1 xm st).c = st.c := by
  unfold brentAdvance; simp only []; split_ifs <;> rfl

theorem brentAdvance_fc (tol1 xm : ℚ) (st : BrentState) :
    (brentAdvance tol1 xm st).fc = st.fc := by
  unfold brentAdvance; simp only []; split_ifs <;> rfl

theorem brentAdvance_a (tol1 xm : ℚ) (st : BrentState) :
    (brentAdvance tol1 xm st).a = st.b := by
  unfold brentAdvance; simp only []; split_ifs <;> rfl

theorem brentAdvance_fa (tol1 xm : ℚ) (st : BrentState) :
    (brentAdvance tol1 xm st).fa = st.fb := by
  unfold brentAdvance; simp only []; split_ifs <;> rfl

theorem brentAdvance_iter (tol1 xm : ℚ) (st : BrentState) :
    (brentAdvance tol1 xm st).iter = st.iter + 1 := by
  unfold brentAdvance; simp only []; split_ifs <;> rfl

theorem brentRebracket_iter (st : BrentState) : (brentRebracket st).iter = st.iter := by
  unfold brentRebracket; split_ifs <;> rfl

theorem brentSwap_iter (st : BrentState) : (brentSwap st).iter = st.iter := by
  unfold brentSwap; split_ifs <;> rfl

theorem brentRebracket_mid {n : Nat} {y : Vec} {target tol : ℚ} {st : BrentState}
    (h : BrentInv n y target tol st) : BrentMid n y target (brentRebracket st) := by
  unfold brentRebracket
  split_ifs with hc
  · refine ⟨h.hfa, h.hfb, h.hfa, ?_⟩
    rcases h.brack with hb | hb
    · exact absurd hc hb
    · exact hb
  · exact ⟨h.hfa, h.hfb, h.hfc, hc⟩

theorem brentSwap_mid {n : Nat} {y : Vec} {target : ℚ} {st : BrentState}
    (h : BrentMid n y target st) : BrentMid n y target (brentSwap st) := by
  unfold brentSwap
  split_ifs with hc
  · exact ⟨h.hfb, h.hfc, h.hfb, oppSign_symm h.opp⟩
  · exact h

/-- One pass of the loop body keeps the invariant of the root finder. -/
theorem brentPass_inv {n : Nat} {y : Vec} {target tol : ℚ} {st : BrentState}
    (h : BrentInv n y target tol st) (hf : st.found = false) :
    BrentInv n y target tol (brentPass n y target tol st) := by
  have hm := brentSwap_mid (brentRebracket_mid h)
  have hfound : (brentSwap (brentRebracket st)).found = false := by
    rw [brentSwap_found, brentRebracket_found, hf]
  unfold brentPass
  simp only []
  split_ifs with hc
  · refine ⟨hm.hfa, rfl, hm.hfc, Or.inl ?_, fun _ => ⟨?_, ?_⟩⟩
    · show OppSign (volumeResidual n y target (brentSwap (brentRebracket st)).b) _
      rw [← hm.hfb]; exact hm.opp
    · show OppSign (volumeResidual n y target (brentSwap (brentRebracket st)).b) _
      rw [← hm.hfb]; exact hm.opp
    · show _ ∨ volumeResidual n y target (brentSwap (brentRebracket st)).b = 0
      rw [← hm.hfb]; exact hc
  · refine ⟨?_, rfl, ?_, ?_, fun hcon => ?_⟩
    · show (brentAdvance _ _ _).fa = volumeResidual n y target (brentAdvance _ _ _).a
      rw [brentAdvance_fa, brentAdvance_a]; exact hm.hfb
    · show (brentAdvance _ _ _).fc = volumeResidual n y target (brentAdvance _ _ _).c
      rw [brentAdvance_fc, brentAdvance_c]; exact hm.hfc
    · show OppSign _ (brentAdvance _ _ _).fc ∨ OppSign _ (brentAdvance _ _ _).fa
      rw [brentAdvance_fc, brentAdvance_fa]
      exact oppSign_next hm.opp _
    · have : (brentAdvance (2 * EPS * |(brentSwap (brentRebracket st)).b| + 1 / 2 * tol)
          (1 / 2 * ((brentSwap (brentRebracket st)).c - (brentSwap (brentRebracket st)).b))
          (brentSwap (brentRebracket st))).found = true := hcon
      rw [brentAdvance_found, hfound] at this
      exact absurd this (by simp)

theorem brentLoop_inv {n : Nat} {y : Vec} {target tol : ℚ} (fuel : Nat) :
    ∀ st : BrentState, BrentInv n y target tol st →
      BrentInv n y target tol (brentLoop n y target tol fuel st) := by
  induction fuel with
  | zero => intro st h; exact h
  | succ k ih =>
    intro st h
    unfold brentLoop
    split_ifs with hc
    · exact ih _ (brentPass_inv h hc.1)
    · exact h

/-- The scratch field is the clipped field at the current `b` after every pass. -/
theorem brentPass_zlambda (n : Nat) (y : Vec) (target tol : ℚ) (st : BrentState)
    (i : Nat) (hi : i < n) :
    (brentPass n y target tol st).zlambda i = clip (y i) (brentPass n y target tol st).b := by
  unfold brentPass
  simp only []
  split_ifs <;> exact writeRange_lt _ _ hi

theorem brentLoop_zlambda {n : Nat} {y : Vec} {target tol : ℚ} (fuel : Nat) :
    ∀ st : BrentState, (∀ i, i < n → st.zlambda i = clip (y i) st.b) →
      ∀ i, i < n → (brentLoop n y target tol fuel st).zlambda i
        = clip (y i) (brentLoop n y target tol fuel st).b := by
  induction fuel with
  | zero => intro st h; exact h
  | succ k ih =>
    intro st h
    unfold brentLoop
    split_ifs with hc
    · exact ih _ (brentPass_zlambda n y target tol st)
    · exact h

theorem brentInit_zlambda (n : Nat) (y : Vec) (target : ℚ) (i : Nat) (hi : i < n) :
    (brentInit n y target).zlambda i = clip (y i) (brentInit n y target).b := by
  show writeRange n (fun i => clip (y i) (lambdaMaxScan y n)) (fun _ => 0) i = _
  rw [writeRange_lt _ _ hi]
  rfl

/-- The scratch field left by the loop of `VolumeProjection` is the clipped field at
the final shift. -/
theorem brentFinal_zlambda (n : Nat) (config : CConfig) (s : CDiscAdjFEASolver) (steplen : ℚ)
    (i : Nat) (hi : i < n) :
    (brentFinal n config s steplen).zlambda i
      = clip (s.Density i + steplen * s.UpdateSens i) (brentFinal n config s steplen).b :=
  brentLoop_zlambda (itermax + 1) _ (brentInit_zlambda n _ _) i hi

/-- The loop has really ended after `itermax + 1` passes: the test of the `while` is
false in the state returned. -/
theorem brentLoop_exit {n : Nat} {y : Vec} {target tol : ℚ} (fuel : Nat) :
    ∀ st : BrentState, itermax < st.iter + fuel →
      ¬ ((brentLoop n y target tol fuel st).found = false
          ∧ (brentLoop n y target tol fuel st).iter < itermax) := by
  induction fuel with
  | zero =>
    intro st h
    unfold brentLoop
    rintro ⟨_, h2⟩
    omega
  | succ k ih =>
    intro st h
    unfold brentLoop
    split_ifs with hc
    · by_cases hf : (brentPass n y target tol st).found = true
      · cases k with
        | zero => unfold brentLoop; simp [hf]
        | succ m => unfold brentLoop; simp [hf]
      · have hit : (brentPass n y target tol st).iter = st.iter + 1 := by
          unfold brentPass at hf ⊢
          simp only [] at hf ⊢
          split_ifs at hf ⊢ with hx
          · simp at hf
          · show (brentAdvance _ _ _).iter = _
            rw [brentAdvance_iter, brentSwap_iter, brentRebracket_iter]
        apply ih
        rw [hit]; omega
    · exact hc

theorem lambdaMinScan_le (y : Vec) (n : Nat) : ∀ i, i < n → lambdaMinScan y n ≤ y i - 1 := by
  induction n with
  | zero => intro i hi; omega
  | succ k ih =>
    intro i hi
    unfold lambdaMinScan
    rcases Nat.lt_succ_iff_lt_or_eq.mp hi with h | h
    · have := ih i h
      split_ifs with hc
      · linarith
      · exact this
    · subst h
      split_ifs with hc
      · exact le_refl _
      · exact not_lt.mp hc

theorem le_lambdaMaxScan (y : Vec) (n : Nat) : ∀ i, i < n → y i ≤ lambdaMaxScan y n := by
  induction n with
  | zero => intro i hi; omega
  | succ k ih =>
    intro i hi
    unfold lambdaMaxScan
    rcases Nat.lt_succ_iff_lt_or_eq.mp hi with h | h
    · have := ih i h
      split_ifs with hc
      · linarith
      · exact this
    · subst h
      split_ifs with hc
      · exact le_refl _
      · exact not_lt.mp hc

/-- At `lambdamin` every entry is clipped to one: the residual is `N*(1 - target)`. -/
theorem volumeResidual_lambdaMin (n : Nat) (y : Vec) (target : ℚ) :
    volumeResidual n y target (lambdaMinScan y n) = (n : ℚ) * (1 - target) := by
  unfold volumeResidual
  have h : ∑ i in range n, clip (y i) (lambdaMinScan y n) * 1 = ∑ _i in range n, (1 : ℚ) := by
    refine sum_congr rfl fun i hi => ?_
    have := lambdaMinScan_le y n i (mem_range.mp hi)
    rw [clip_eq_one (by linarith), mul_one]
  rw [h]
  simp
  ring

/-- At `lambdamax` every entry is clipped to zero: the residual is `-N*target`. -/
theorem volumeResidual_lambdaMax (n : Nat) (y : Vec) (target : ℚ) :
    volumeResidual n y target (lambdaMaxScan y n) = -((n : ℚ) * target) := by
  unfold volumeResidual
  have h : ∑ i in range n, clip (y i) (lambdaMaxScan y n) * 1 = 0 := by
    refine sum_eq_zero fun i hi => ?_
    have := le_lambdaMaxScan y n i (mem_range.mp hi)
    rw [clip_eq_zero (by linarith), mul_one]
  rw [h]
  ring

theorem brentInit_inv (n : Nat) (y : Vec) (target tol : ℚ) (h0 : 0 ≤ target) (h1 : target ≤ 1) :
    BrentInv n y target tol (brentInit n y target) := by
  refine ⟨rfl, rfl, rfl, Or.inr ?_, fun hf => ?_⟩
  · show OppSign (volumeResidual n y target (lambdaMaxScan y n))
      (volumeResidual n y target (lambdaMinScan y n))
    rw [volumeResidual_lambdaMin, volumeResidual_lambdaMax]
    have hn : (0 : ℚ) ≤ n := Nat.cast_nonneg n
    have ha : 0 ≤ (n : ℚ) * target := mul_nonneg hn h0
    have hb : 0 ≤ (n : ℚ) * (1 - target) := mul_nonneg hn (by linarith)
    unfold OppSign
    rintro (⟨c1, _⟩ | ⟨_, c2⟩) <;> linarith
  · have : (brentInit n y target).found = false := rfl
    rw [this] at hf
    exact absurd hf (by simp)

theorem abs_le_of_oppSign {u v : ℚ} (h : OppSign u v) : |u| ≤ |u - v| := by
  unfold OppSign at h
  push_neg at h
  obtain ⟨k1, k2⟩ := h
  rcases lt_trichotomy u 0 with hu | hu | hu
  · have hv : 0 ≤ v := k2 hu
    rw [abs_of_neg hu, abs_of_nonpos (by linarith)]
    linarith
  · rw [hu]; simp
  · have hv : v ≤ 0 := k1 hu
    rw [abs_of_pos hu, abs_of_nonneg (by linarith)]
    linarith

theorem brentPass_fb (n : Nat) (y : Vec) (target tol : ℚ) (st : BrentState) :
    (brentPass n y target tol st).fb
      = volumeResidual n y target (brentPass n y target tol st).b := by
  unfold brentPass
  simp only []

theorem brentLoop_fb {n : Nat} {y : Vec} {target tol : ℚ} (fuel : Nat) :
    ∀ st : BrentState, st.fb = volumeResidual n y target st.b →
      (brentLoop n y target tol fuel st).fb
        = volumeResidual n y target (brentLoop n y target tol fuel st).b := by
  induction fuel with
  | zero => intro st h; exact h
  | succ k ih =>
    intro st h
    unfold brentLoop
    split_ifs with hc
    · exact ih _ (brentPass_fb n y target tol st)
    · exact h

/-- The residual kept in `fb` when the loop has ended belongs to the final shift. -/
theorem brentFinal_fb (n : Nat) (config : CConfig) (s : CDiscAdjFEASolver) (steplen : ℚ) :
    (brentFinal n config s steplen).fb
      = volumeResidual n (fun i => s.Density i + steplen * s.UpdateSens i)
          config.VolumeConstraint (brentFinal n config s steplen).b :=
  brentLoop_fb (itermax + 1) _ rfl

/-- The point reached by the projected direction is the scratch field `zlambda`. -/
theorem VolumeProjection_point (n : Nat) (config : CConfig) (s : CDiscAdjFEASolver)
    (steplen : ℚ) (hstep : steplen ≠ 0) (i : Nat) (hi : i < n) :
    s.Density i + steplen * (VolumeProjection n config s steplen).UpdateSens i
      = clip (s.Density i + steplen * s.UpdateSens i) (brentFinal n config s steplen).b := by
  have h : (VolumeProjection n config s steplen).UpdateSens i
      = ((brentFinal n config s steplen).zlambda i - s.Density i) / steplen := by
    unfold VolumeProjection
    simp only []
    rw [writeRange_lt _ _ hi]
  rw [h, brentFinal_zlambda n config s steplen i hi]
  field_simp

/-- The volume defect of the projected point is the residual kept in `fb`. -/
theorem VolumeProjection_defect (n : Nat) (config : CConfig) (s : CDiscAdjFEASolver)
    (steplen : ℚ) (hstep : steplen ≠ 0) :
    (∑ i in range n,
        (s.Density i + steplen * (VolumeProjection n config s steplen).UpdateSens i))
      - (n : ℚ) * config.VolumeConstraint = (brentFinal n config s steplen).fb := by
  rw [brentFinal_fb]
  unfold volumeResidual
  congr 1
  refine sum_congr rfl fun i hi => ?_
  rw [VolumeProjection_point n config s steplen hstep i (mem_range.mp hi), mul_one]

theorem brentLoop_step {n : Nat} {y : Vec} {target tol : ℚ} {fuel : Nat} {st : BrentState}
    (hfuel : 0 < fuel) (hc : st.found = false ∧ st.iter < itermax) :
    brentLoop n y target tol fuel st
      = brentLoop n y target tol (fuel - 1) (brentPass n y target tol st) := by
  cases fuel with
  | zero => omega
  | succ k =>
    rw [brentLoop, if_pos hc]
    rfl

theorem brentLoop_stop {n : Nat} {y : Vec} {target tol : ℚ} (fuel : Nat) {st : BrentState}
    (hc : ¬ (st.found = false ∧ st.iter < itermax)) :
    brentLoop n y target tol fuel st = st := by
  cases fuel with
  | zero => rfl
  | succ k => rw [brentLoop, if_neg hc]

/-- When the root finder stops with `found` set, the residual at the final shift is
zero or at most `N` times the width allowed for the bracket of the shift. -/
theorem brentFinal_bound (n : Nat) (config : CConfig) (s : CDiscAdjFEASolver) (steplen : ℚ)
    (h0 : 0 ≤ config.VolumeConstraint) (h1 : config.VolumeConstraint ≤ 1)
    (hfound : (brentFinal n config s steplen).found = true) :
    (brentFinal n config s steplen).fb = 0 ∨
      |(brentFinal n config s steplen).fb|
        ≤ (n : ℚ) * (config.StepTolerance + 4 * EPS * |(brentFinal n config s steplen).b|) := by
  have hinv : BrentInv n (fun i => s.Density i + steplen * s.UpdateSens i)
      config.VolumeConstraint config.StepTolerance (brentFinal n config s steplen) :=
    brentLoop_inv (itermax + 1) _ (brentInit_inv n _ _ _ h0 h1)
  obtain ⟨hopp, hstop⟩ := hinv.conv hfound
  rcases hstop with hx | hz
  · right
    have ha := abs_le_of_oppSign hopp
    have hl := volumeResidual_lipschitz n (fun i => s.Density i + steplen * s.UpdateSens i)
      config.VolumeConstraint (brentFinal n config s steplen).b (brentFinal n config s steplen).c
    rw [← hinv.hfb, ← hinv.hfc] at hl
    have hn : (0 : ℚ) ≤ n := Nat.cast_nonneg n
    have hw : |(brentFinal n config s steplen).b - (brentFinal n config s steplen).c|
        = 2 * |1 / 2 * ((brentFinal n config s steplen).c - (brentFinal n config s steplen).b)| := by
      rw [abs_mul, abs_sub_comm, abs_of_pos (by norm_num : (0 : ℚ) < 1 / 2)]
      ring
    calc |(brentFinal n config s steplen).fb|
        ≤ |(brentFinal n config s steplen).fb - (brentFinal n config s steplen).fc| := ha
      _ ≤ (n : ℚ) * |(brentFinal n config s steplen).b - (brentFinal n config s steplen).c| := hl
      _ ≤ (n : ℚ) * (config.StepTolerance
            + 4 * EPS * |(brentFinal n config s steplen).b|) := by
          apply mul_le_mul_of_nonneg_left _ hn
          rw [hw]; linarith
  · exact Or.inl hz

theorem scenario_field :
    (fun i => scenarioState.Density i + 1 * scenarioState.UpdateSens i) = scenarioY := by
  funext i
  simp [scenarioState, CDiscAdjFEASolver.construct]

theorem scenario_residual (l : ℚ) : volumeResidual 4 scenarioY (1 / 2) l
    = clip (1 / 5) l + clip (4 / 5) l + clip (3 / 10) l + clip (7 / 10) l - 2 := by
  norm_num [volumeResidual, scenarioY, sum_range_succ]

theorem scenario_init : brentInit 4 scenarioY (1 / 2)
    = ⟨-4 / 5, 4 / 5, 4 / 5, 0, 0, 2, -2, -2, false, 0,
        writeRange 4 (fun i => clip (scenarioY i) (4 / 5)) (fun _ => 0)⟩ := by
  have hmin : lambdaMinScan scenarioY 4 = -4 / 5 := by norm_num [lambdaMinScan, scenarioY]
  have hmax : lambdaMaxScan scenarioY 4 = 4 / 5 := by norm_num [lambdaMaxScan, scenarioY]
  unfold brentInit
  simp only [hmin, hmax, scenario_residual]
  norm_num [clip]

theorem scenario_pass1 (zl : Vec) : brentPass 4 scenarioY (1 / 2) (1 / 1000)
      ⟨-4 / 5, 4 / 5, 4 / 5, 0, 0, 2, -2, -2, false, 0, zl⟩
    = ⟨4 / 5, 0, -4 / 5, -4 / 5, -4 / 5, -2, 0, 2, false, 1,
        writeRange 4 (fun i => clip (scenarioY i) 0) zl⟩ := by
  unfold brentPass brentSwap brentRebracket brentAdvance
  simp only [scenario_residual]
  norm_num [clip, EPS, abs_of_neg, abs_of_pos]

theorem scenario_pass2 (zl : Vec) : brentPass 4 scenarioY (1 / 2) (1 / 1000)
      ⟨4 / 5, 0, -4 / 5, -4 / 5, -4 / 5, -2, 0, 2, false, 1, zl⟩
    = ⟨4 / 5, 0, -4 / 5, -4 / 5, -4 / 5, -2, 0, 2, true, 1,
        writeRange 4 (fun i => clip (scenarioY i) 0) zl⟩ := by
  unfold brentPass brentSwap brentRebracket brentAdvance
  simp only [scenario_residual]
  norm_num [clip, EPS, abs_of_neg, abs_of_pos]

/-- The root finder stops at shift `0` with residual `0` on `[0.2, 0.8, 0.3, 0.7]`. -/
theorem scenario_final :
    (brentFinal 4 sampleConfig scenarioState 1).found = true ∧
    (brentFinal 4 sampleConfig scenarioState 1).b = 0 ∧
    (brentFinal 4 sampleConfig scenarioState 1).fb = 0 := by
  have h : brentFinal 4 sampleConfig scenarioState 1
      = ⟨4 / 5, 0, -4 / 5, -4 / 5, -4 / 5, -2, 0, 2, true, 1,
          writeRange 4 (fun i => clip (scenarioY i) 0)
            (writeRange 4 (fun i => clip (scenarioY i) 0)
              (writeRange 4 (fun i => clip (scenarioY i) (4 / 5)) (fun _ => 0)))⟩ := by
    unfold brentFinal
    simp only [scenario_field]
    show brentLoop 4 scenarioY (1 / 2) (1 / 1000) (itermax + 1) (brentInit 4 scenarioY (1 / 2)) = _
    rw [scenario_init, brentLoop_step (by norm_num [itermax]) (by norm_num [itermax]),
      scenario_pass1, brentLoop_step (by norm_num [itermax]) (by norm_num [itermax]),
      scenario_pass2, brentLoop_stop _ (by norm_num)]
  rw [h]
  exact ⟨rfl, rfl, rfl⟩

theorem steep_field :
    (fun i => steepState.Density i + 1 * steepState.UpdateSens i) = steepY := by
  funext i
  simp [steepState, CDiscAdjFEASolver.construct]

theorem steep_residual (l : ℚ) : volumeResidual 4 steepY (49 / 100) l
    = clip (3 / 2) l + clip (3 / 2) l + clip 1 l + clip 1 l - 49 / 25 := by
  norm_num [volumeResidual, steepY, sum_range_succ]

theorem steep_init : brentInit 4 steepY (49 / 100)
    = ⟨0, 3 / 2, 3 / 2, 0, 0, 51 / 25, -49 / 25, -49 / 25, false, 0,
        writeRange 4 (fun i => clip (steepY i) (3 / 2)) (fun _ => 0)⟩ := by
  have hmin : lambdaMinScan steepY 4 = 0 := by norm_num [lambdaMinScan, steepY]
  have hmax : lambdaMaxScan steepY 4 = 3 / 2 := by norm_num [lambdaMaxScan, steepY]
  unfold brentInit
  simp only [hmin, hmax, steep_residual]
  norm_num [clip]

theorem steep_pass1 (zl : Vec) : brentPass 4 steepY (49 / 100) (1 / 100)
      ⟨0, 3 / 2, 3 / 2, 0, 0, 51 / 25, -49 / 25, -49 / 25, false, 0, zl⟩
    = ⟨3 / 2, 153 / 200, 0, -147 / 200, 3 / 2, -49 / 25, -1 / 50, 51 / 25, false, 1,
        writeRange 4 (fun i => clip (steepY i) (153 / 200)) zl⟩ := by
  unfold brentPass brentSwap brentRebracket brentAdvance
  simp only [steep_residual]
  norm_num [clip, EPS, abs_of_neg, abs_of_pos]

theorem steep_pass2 (zl : Vec) : brentPass 4 steepY (49 / 100) (1 / 100)
      ⟨3 / 2, 153 / 200, 0, -147 / 200, 3 / 2, -49 / 25, -1 / 50, 51 / 25, false, 1, zl⟩
    = ⟨153 / 200, 1513629 / 1998200, 0, -7497 / 999100, -147 / 200, -1 / 50, 5003 / 499550,
        51 / 25, false, 2, writeRange 4 (fun i => clip (steepY i) (1513629 / 1998200)) zl⟩ := by
  unfold brentPass brentSwap brentRebracket brentAdvance
  simp only [steep_residual]
  norm_num [clip, EPS, abs_of_neg, abs_of_pos]

theorem steep_pass3 (zl : Vec) : brentPass 4 steepY (49 / 100) (1 / 100)
      ⟨153 / 200, 1513629 / 1998200, 0, -7497 / 999100, -147 / 200, -1 / 50, 5003 / 499550,
        51 / 25, false, 2, zl⟩
    = ⟨153 / 200, 1513629 / 1998200, 153 / 200, -7497 / 999100, -7497 / 999100, -1 / 50,
        5003 / 499550, -1 / 50, true, 2,
        writeRange 4 (fun i => clip (steepY i) (1513629 / 1998200)) zl⟩ := by
  unfold brentPass brentSwap brentRebracket brentAdvance
  simp only [steep_residual]
  norm_num [clip, EPS, abs_of_neg, abs_of_pos]

/-- On `[1.5, 1.5, 1, 1]` with target `0.49` and tolerance `0.01` the root finder
stops after two iterations with `found` set and residual `5003/499550`. -/
theorem steep_final :
    (brentFinal 4 steepConfig steepState 1).found = true ∧
    (brentFinal 4 steepConfig steepState 1).fb = 5003 / 499550 := by
  have h : brentFinal 4 steepConfig steepState 1
      = ⟨153 / 200, 1513629 / 1998200, 153 / 200, -7497 / 999100, -7497 / 999100, -1 / 50,
        5003 / 499550, -1 / 50, true, 2,
        writeRange 4 (fun i => clip (steepY i) (1513629 / 1998200))
          (writeRange 4 (fun i => clip (steepY i) (1513629 / 1998200))
            (writeRange 4 (fun i => clip (steepY i) (153 / 200))
              (writeRange 4 (fun i => clip (steepY i) (3 / 2)) (fun _ => 0))))⟩ := by
    unfold brentFinal
    simp only [steep_field]
    show brentLoop 4 steepY (49 / 100) (1 / 100) (itermax + 1) (brentInit 4 steepY (49 / 100)) = _
    rw [steep_init, brentLoop_step (by norm_num [itermax]) (by norm_num [itermax]),
      steep_pass1, brentLoop_step (by norm_num [itermax]) (by norm_num [itermax]),
      steep_pass2, brentLoop_step (by norm_num [itermax]) (by norm_num [itermax]),
      steep_pass3, brentLoop_stop _ (by norm_num)]
  rw [h]
  exact ⟨rfl, rfl⟩

theorem filterRows_exit (eps : ℚ) (nx ny : Nat) (result : Vec) (fuel k : Nat)
    (st : FilterState) (hfuel : 0 < fuel) (hk : ¬ k < ny) :
    filterRows eps nx ny result fuel k st = some st := by
  cases fuel with
  | zero => omega
  | succ m => rw [filterRows, if_neg hk]

theorem filterRows_step (eps : ℚ) (nx ny : Nat) (result : Vec) (fuel k : Nat)
    (st : FilterState) (hfuel : 0 < fuel) (hk : k < ny) (hk0 : k ≠ 0) :
    filterRows eps nx ny result fuel k st
      = filterRows eps nx ny result (fuel - 1) ((k + 1) % 65536)
          (filterPass eps nx ny result k st) := by
  cases fuel with
  | zero => omega
  | succ m =>
    rw [filterRows, if_pos hk, if_neg hk0]
    rfl

/-- With 65536 grid rows or more the 16-bit row counter wraps to `0` before it reaches
`nElemy`: the loop has no result, whatever the buffers hold. -/
theorem filterRows_wrap (eps : ℚ) (nx ny : Nat) (result : Vec) (hny : 65536 ≤ ny) :
    ∀ (d k : Nat) (st : FilterState), k + d = 65535 → 1 ≤ k →
      filterRows eps nx ny result (d + 2) k st = none := by
  intro d
  induction d with
  | zero =>
    intro k st hk _
    have hk1 : k = 65535 := by omega
    subst hk1
    rw [filterRows_step eps nx ny result 2 65535 st (by norm_num) (by omega) (by norm_num)]
    show filterRows eps nx ny result 1 0 _ = none
    rw [filterRows, if_pos (by omega), if_pos rfl]
  | succ e ih =>
    intro k st hk hk1
    rw [filterRows_step eps nx ny result (e + 1 + 2) k st (by omega) (by omega) (by omega)]
    have hmod : (k + 1) % 65536 = k + 1 := Nat.mod_eq_of_lt (by omega)
    rw [hmod]
    exact ih (k + 1) _ (by omega) (by omega)

theorem filterRows_run (eps : ℚ) (nx ny : Nat) (result : Vec) (st0 : FilterState)
    (hny : ny ≤ 65535) :
    ∀ (d k fuel : Nat), k + d = ny → 1 ≤ k → d < fuel →
      filterRows eps nx ny result fuel k (filterPasses eps nx ny result st0 (k - 1))
        = some (filterPasses eps nx ny result st0 (ny - 1)) := by
  intro d
  induction d with
  | zero =>
    intro k fuel hk _ hfuel
    have : k = ny := by omega
    subst this
    exact filterRows_exit eps nx k result fuel k _ hfuel (lt_irrefl k)
  | succ e ih =>
    intro k fuel hk hk1 hfuel
    rw [filterRows_step eps nx ny result fuel k _ (by omega) (by omega) (by omega)]
    have hmod : (k + 1) % 65536 = k + 1 := Nat.mod_eq_of_lt (by omega)
    rw [hmod]
    have hpass : filterPass eps nx ny result k (filterPasses eps nx ny result st0 (k - 1))
        = filterPasses eps nx ny result st0 (k + 1 - 1) := by
      obtain ⟨j, rfl⟩ : ∃ j, k = j + 1 := ⟨k - 1, by omega⟩
      rfl
    rw [hpass]
    exact ih (k + 1) (fuel - 1) (by omega) (by omega) (by omega)

/-- The loop over the grid rows ends with a result when `nElemy` fits the 16-bit
counter: the passes `kElem = 1 .. nElemy-1` have run in turn. -/
theorem filterRows_some (eps : ℚ) (nx ny : Nat) (result : Vec) (st0 : FilterState)
    (hny1 : 1 ≤ ny) (hny : ny ≤ 65535) :
    filterRows eps nx ny result 65536 1 st0
      = some (filterPasses eps nx ny result st0 (ny - 1)) :=
  filterRows_run eps nx ny result st0 hny (ny - 1) 1 65536 (by omega) (le_refl 1) (by omega)

theorem pivotScan_upper {n : Nat} {A : Mat} (hA : IsUpper n A) (i : Nat) :
    ∀ m, i + m < n → pivotScan A i m = i := by
  intro m
  induction m with
  | zero => intro _; rfl
  | succ k ih =>
    intro h
    have hk := ih (by omega)
    rw [pivotScan, hk, hA (i + k + 1) i (by omega) (by omega)]
    simp

theorem swapRows_self (A : Mat) (n i : Nat) : swapRows A n i i = A := by
  funext p q
  unfold swapRows
  split_ifs with h1 h2 <;> simp_all

theorem swapEntries_self (b : Vec) (i : Nat) : swapEntries b i i = b := by
  funext p
  unfold swapEntries
  split_ifs with h1 <;> simp_all

theorem eliminateBelow_upper {n : Nat} {A : Mat} (hA : IsUpper n A) (i : Nat) :
    eliminateBelow A n i = A := by
  funext p q
  unfold eliminateBelow
  split_ifs with h1 h2
  · rw [← h2, hA p i h1.1 h1.2.1]
  · rw [hA p i h1.1 h1.2.1]; simp
  · rfl

theorem eliminateRhs_upper {n : Nat} {A : Mat} (hA : IsUpper n A) (b : Vec) (i : Nat) :
    eliminateRhs A b n i = b := by
  funext p
  unfold eliminateRhs
  split_ifs with h1
  · rw [hA p i h1.1 h1.2]; simp
  · rfl

theorem gaussStep_upper {n : Nat} {A : Mat} (hA : IsUpper n A) (b : Vec) {i : Nat}
    (hi : i < n) : gaussStep n i (A, b) = (A, b) := by
  unfold gaussStep
  simp only []
  rw [pivotScan_upper hA i (n - 1 - i) (by omega), swapRows_self, swapEntries_self,
    eliminateBelow_upper hA, eliminateRhs_upper hA]

/-- The forward loop leaves an upper triangular system as it is. -/
theorem gaussForward_upper {n : Nat} {A : Mat} (hA : IsUpper n A) (b : Vec) :
    ∀ m, m ≤ n → gaussForward n m (A, b) = (A, b) := by
  intro m
  induction m with
  | zero => intro _; rfl
  | succ k ih =>
    intro h
    rw [gaussForward, ih (by omega), gaussStep_upper hA b (by omega)]

theorem gaussBackStep_fix {A : Mat} {i : Nat} {b : Vec} (h1 : b i / A i i = b i)
    (h2 : ∀ p, p ≠ i → (p : Int) ≤ toShort ((i : Int) - 1) → A p i * (b i / A i i) = 0) :
    gaussBackStep A i b = b := by
  funext p
  unfold gaussBackStep
  split_ifs with hp hr
  · rw [hp, h1]
  · rw [h2 p hp hr, sub_zero]
  · rfl

/-- The backward loop leaves `b` as it is when every pass does. -/
theorem gaussBack_fix {A : Mat} {n : Nat} {b : Vec}
    (h1 : ∀ i, i < n → b i / A i i = b i)
    (h2 : ∀ i, i < n → ∀ p, p ≠ i → (p : Int) ≤ toShort ((i : Int) - 1) →
      A p i * (b i / A i i) = 0) :
    ∀ m, m ≤ n → gaussBack A n m b = b := by
  intro m
  induction m with
  | zero => intro _; rfl
  | succ k ih =>
    intro h
    rw [gaussBack, ih (by omega)]
    exact gaussBackStep_fix (h1 _ (by omega)) (h2 _ (by omega))

/-- The matrix with ones on the diagonal of the leading `n x n` block and zeros
elsewhere is solved by the right-hand side itself. -/
theorem GaussElimination_unit {n : Nat} {A : Mat}
    (hdiag : ∀ i, i < n → A i i = 1) (hoff : ∀ p q, p ≠ q → A p q = 0) (b : Vec) :
    (GaussElimination A b n).2 = b := by
  have hA : IsUpper n A := fun p q hqp _ => hoff p q (by omega)
  unfold GaussElimination
  simp only []
  rw [gaussForward_upper hA b n (le_refl n)]
  apply gaussBack_fix _ _ n (le_refl n)
  · intro i hi
    show b i / A i i = b i
    rw [hdiag i hi, div_one]
  · intro i hi p hp _
    show A p i * (b i / A i i) = 0
    rw [hoff p i hp, zero_mul]

/-- The last loop of `GaussElimination` restores the leading block of the matrix. -/
theorem GaussElimination_fst_block (A : Mat) (b : Vec) {n i j : Nat} (hi : i < n) (hj : j < n) :
    (GaussElimination A b n).1 i j = A i j := by
  unfold GaussElimination
  simp only []
  rw [writeBlock_lt _ _ hi hj]

theorem thomasHelpOne_unit {n : Nat} {A : Mat} (hoff : ∀ p q, p ≠ q → A p q = 0) :
    ∀ i, thomasHelpOne A n i = 0 := by
  intro i
  cases i with
  | zero => rw [thomasHelpOne, hoff 0 1 (by omega), zero_div]
  | succ k =>
    rw [thomasHelpOne]
    split_ifs
    · rw [hoff (k + 1) (k + 2) (by omega), zero_div]
    · rfl

theorem thomasHelp_unit {n : Nat} {A : Mat} (hdiag : ∀ i, i < n → A i i = 1)
    (hoff : ∀ p q, p ≠ q → A p q = 0) (d : Vec) :
    ∀ i, i < n → thomasHelp A d n i = d i := by
  intro i
  induction i with
  | zero => intro h; rw [thomasHelp, hdiag 0 h, div_one]
  | succ k _ =>
    intro h
    rw [thomasHelp, thomasHelpOne_unit hoff, hoff (k + 1) k (by omega), hdiag (k + 1) h]
    simp

theorem thomasBack_unit {n : Nat} {A : Mat} (hdiag : ∀ i, i < n → A i i = 1)
    (hoff : ∀ p q, p ≠ q → A p q = 0) (d : Vec) :
    ∀ m, m < n → thomasBack A d n m = d (n - 1 - m) := by
  intro m
  induction m with
  | zero => intro h; rw [thomasBack, thomasHelp_unit hdiag hoff d _ (by omega)]; rfl
  | succ k _ =>
    intro h
    rw [thomasBack, thomasHelpOne_unit hoff, thomasHelp_unit hdiag hoff d _ (by omega)]
    have : n - 2 - k = n - 1 - (k + 1) := by omega
    rw [this]
    simp

/-- The tridiagonal solve with ones on the diagonal and zeros elsewhere returns the
right-hand side. -/
theorem ThomasAlgorithm_unit {n : Nat} {A : Mat} (hdiag : ∀ i, i < n → A i i = 1)
    (hoff : ∀ p q, p ≠ q → A p q = 0) (d : Vec) :
    ThomasAlgorithm A d n = d := by
  funext i
  unfold ThomasAlgorithm
  split_ifs with h
  · rw [thomasBack_unit hdiag hoff d _ (by omega)]
    congr 1
    omega
  · rfl

theorem BlockB_zero_diag (nx i : Nat) (hi : i < nx) : BlockB 0 nx i i = 1 := by
  simp [BlockB, hi]

theorem BlockB_zero_off (nx p q : Nat) (h : p ≠ q) : BlockB 0 nx p q = 0 := by
  unfold BlockB
  have h2 : q ≠ p := Ne.symm h
  split_ifs <;> simp_all

theorem BlockA_zero (nx i j : Nat) : BlockA 0 nx i j = 0 := by
  simp [BlockA]

theorem BlockC_zero (nx i j : Nat) : BlockC 0 nx i j = 0 := by
  simp [BlockC]

theorem HelpTwo_zero_diag (nx ny k : Nat) (st : FilterState) (i : Nat) (hi : i < nx) :
    HelpTwo 0 nx ny k st i i = 1 := by
  unfold HelpTwo
  simp [hi, BlockA_zero, BlockB_zero_diag nx i hi]

theorem HelpTwo_zero_off (nx ny k : Nat) (st : FilterState) (p q : Nat) (h : p ≠ q) :
    HelpTwo 0 nx ny k st p q = 0 := by
  unfold HelpTwo
  split_ifs <;> simp [BlockA_zero, BlockB_zero_off nx p q h]

theorem filterInit_zero (nx : Nat) (result : Vec) : ZeroInv nx result 0 (filterInit 0 nx result) := by
  constructor
  · intro r j
    unfold filterInit
    simp only []
    split_ifs
    · rw [ThomasAlgorithm_unit (BlockB_zero_diag nx) (BlockB_zero_off nx)]
      simp [BlockC_zero]
    · rfl
  · intro r hr
    have hr1 : r < nx := by simpa using hr
    unfold filterInit
    simp only []
    rw [if_pos hr1, ThomasAlgorithm_unit (BlockB_zero_diag nx) (BlockB_zero_off nx)]

theorem filterPass_zero {nx ny : Nat} {result : Vec} {m : Nat} {st : FilterState}
    (h : ZeroInv nx result m st) :
    ZeroInv nx result (m + 1) (filterPass 0 nx ny result (m + 1) st) := by
  constructor
  · intro r j
    unfold filterPass
    simp only []
    split_ifs
    · rw [GaussElimination_unit (HelpTwo_zero_diag nx ny (m + 1) st)
        (HelpTwo_zero_off nx ny (m + 1) st)]
      exact BlockC_zero nx _ j
    · exact h.hOne r j
  · intro r hr
    unfold filterPass
    simp only []
    by_cases hb : (m + 1) * nx ≤ r ∧ r < (m + 1) * nx + nx
    · rw [if_pos hb, GaussElimination_unit (HelpTwo_zero_diag nx ny (m + 1) st)
        (HelpTwo_zero_off nx ny (m + 1) st)]
      have : (m + 1) * nx + (r - (m + 1) * nx) = r := by omega
      simp only [BlockA_zero, this]
      split_ifs <;> simp
    · rw [if_neg hb]
      apply h.hhelp
      have : (m + 1 + 1) * nx = (m + 1) * nx + nx := by ring
      omega

theorem filterPasses_zero (nx ny : Nat) (result : Vec) :
    ∀ m, ZeroInv nx result m (filterPasses 0 nx ny result (filterInit 0 nx result) m) := by
  intro m
  induction m with
  | zero => exact filterInit_zero nx result
  | succ k ih => exact filterPass_zero ih

theorem filterBack_zero {nx ny : Nat} {result : Vec} {st : FilterState}
    (h : ZeroInv nx result (ny - 1) st) (hny : 1 ≤ ny) :
    ∀ m c, m < ny → c < nx → filterBack nx ny st m c = result ((ny - 1 - m) * nx + c) := by
  intro m
  induction m with
  | zero =>
    intro c _ hc
    rw [filterBack, h.hhelp]
    · rfl
    · have : (ny - 1 + 1) * nx = (ny - 1) * nx + nx := by ring
      omega
  | succ k _ =>
    intro c hk hc
    rw [filterBack]
    have hsum : ∑ j in range nx, st.HelpOne ((ny - 2 - k) * nx + c) j * filterBack nx ny st k j
        = 0 := sum_eq_zero fun j _ => by rw [h.hOne, zero_mul]
    have hrow : ny - 2 - k = ny - 1 - (k + 1) := by omega
    rw [hsum, sub_zero, h.hhelp, hrow]
    · have h1 : (ny - 1 + 1) * nx = (ny - 1) * nx + nx := by ring
      have h2 : (ny - 2 - k) * nx ≤ (ny - 1) * nx := Nat.mul_le_mul_right nx (by omega)
      omega

theorem filterResult_zero {nx ny : Nat} {result : Vec} {st : FilterState}
    (h : ZeroInv nx result (ny - 1) st) (hny : 1 ≤ ny) :
    filterResult nx ny st result = result := by
  funext r
  unfold filterResult
  split_ifs with hr
  · have hnx : 0 < nx := by
      rcases Nat.eq_zero_or_pos nx with h0 | h0
      · subst h0; simp at hr
      · exact h0
    have hdiv : r / nx < ny := (Nat.div_lt_iff_lt_mul hnx).mpr (by rwa [Nat.mul_comm] at hr)
    have hsplit : nx * (r / nx) + r % nx = r := Nat.div_add_mod r nx
    generalize r / nx = q at hdiv hsplit ⊢
    rw [filterBack_zero h hny _ _ (by omega) (Nat.mod_lt r hnx)]
    congr 1
    have : ny - 1 - (ny - 1 - q) = q := by omega
    rw [this, Nat.mul_comm]
    exact hsplit
  · rfl

/-- With `eps = 0` and a row count that fits the 16-bit counter, `DensityFiltering`
returns and leaves `UpdateSens` as it was. -/
theorem DensityFiltering_zero (nElem : Nat) (config : CConfig) (s : CDiscAdjFEASolver)
    (heps : config.HelmholtzFactor = 0) (hny1 : 1 ≤ config.Ny) (hny : config.Ny ≤ 65535) :
    DensityFiltering nElem config s = some s := by
  unfold DensityFiltering
  rw [heps, filterRows_some 0 config.Nx config.Ny _ _ hny1 hny, Option.map_some']
  rw [filterResult_zero (filterPasses_zero config.Nx config.Ny _ (config.Ny - 1)) hny1]
  have : writeRange nElem (filterInput nElem s) s.UpdateSens = s.UpdateSens := by
    funext i
    unfold writeRange filterInput writeRange
    split_ifs <;> rfl
  rw [this]

/-- With 65536 grid rows or more `DensityFiltering` has no result. -/
theorem DensityFiltering_wrap (nElem : Nat) (config : CConfig) (s : CDiscAdjFEASolver)
    (hny : 65536 ≤ config.Ny) : DensityFiltering nElem config s = none := by
  unfold DensityFiltering
  rw [filterRows_wrap config.HelmholtzFactor config.Nx config.Ny (filterInput nElem s) hny
    65534 1 _ (by norm_num) (le_refl 1)]
  rfl

theorem wideMatrix_upper : IsUpper 32770 wideMatrix := by
  intro p q hqp _
  unfold wideMatrix
  rw [if_neg (by omega), if_neg (by omega)]

theorem wideMatrix_diag (i : Nat) : wideMatrix i i = 1 := by
  simp [wideMatrix]

theorem toShort_wrap : toShort ((32769 : Nat) - 1) = -32768 := by
  norm_num [toShort]

/-- Row `i >= 1` of the wide matrix picks the entry `x[i]`. -/
theorem mulVec_wideMatrix_pos (x : Vec) (i : Nat) (hi0 : i ≠ 0) (hi : i < 32770) :
    mulVec 32770 wideMatrix x i = x i := by
  unfold mulVec
  rw [sum_eq_single i]
  · rw [wideMatrix_diag, one_mul]
  · intro j _ hj
    unfold wideMatrix
    rw [if_neg (Ne.symm hj), if_neg (fun h => hi0 h.1), zero_mul]
  · intro h
    exact absurd (mem_range.mpr hi) h

/-- Row `0` of the wide matrix adds the entries `x[0]` and `x[32769]`. -/
theorem mulVec_wideMatrix_zero (x : Vec) :
    mulVec 32770 wideMatrix x 0 = x 0 + x 32769 := by
  unfold mulVec
  have hsplit : ∀ j, wideMatrix 0 j * x j
      = (if j = 0 then x j else 0) + (if j = 32769 then x j else 0) := by
    intro j
    unfold wideMatrix
    by_cases h0 : j = 0
    · subst h0; simp
    · by_cases h1 : j = 32769
      · subst h1; simp
      · simp [h0, h1, Ne.symm h0]
  simp only [hsplit, sum_add_distrib]
  rw [sum_ite_eq' (range 32770) 0 x, sum_ite_eq' (range 32770) 32769 x]
  simp

theorem wideMatrix_nonsingular : Nonsingular 32770 wideMatrix := by
  intro x hx
  have hpos : ∀ i, i ≠ 0 → i < 32770 → x i = 0 := by
    intro i hi0 hi
    rw [← mulVec_wideMatrix_pos x i hi0 hi]
    exact hx i hi
  intro i hi
  by_cases hi0 : i = 0
  · subst hi0
    have h0 := hx 0 hi
    rw [mulVec_wideMatrix_zero, hpos 32769 (by norm_num) (by norm_num)] at h0
    simpa using h0
  · exact hpos i hi0 hi

/-- On the wide system the forward loop changes nothing and the backward loop skips
the column `32769` (its counter starts at `(short)32768 = -32768`): the right-hand side
is returned as it was. -/
theorem GaussElimination_wide : (GaussElimination wideMatrix wideRhs 32770).2 = wideRhs := by
  unfold GaussElimination
  simp only []
  rw [gaussForward_upper wideMatrix_upper wideRhs 32770 (le_refl _)]
  apply gaussBack_fix _ _ 32770 (le_refl _)
  · intro i _
    show wideRhs i / wideMatrix i i = wideRhs i
    rw [wideMatrix_diag, div_one]
  · intro i _ p _ hp
    show wideMatrix p i * (wideRhs i / wideMatrix i i) = 0
    by_cases h : i = 32769
    · subst h
      rw [toShort_wrap] at hp
      omega
    · have : wideRhs i = 0 := by simp [wideRhs, h]
      rw [this, zero_div, mul_zero]

theorem toShort_small {z : Int} (h1 : -32768 ≤ z) (h2 : z < 32768) : toShort z = z := by
  unfold toShort
  omega

/-- One pass of the backward loop while the column index fits a `short`. -/
theorem gaussBackStep_entry (U : Mat) {i : Nat} (hi : i ≤ 32768) (b : Vec) (p : Nat) :
    gaussBackStep U i b p
      = if p = i then b i / U i i
        else if p < i then b p - U p i * (b i / U i i) else b p := by
  unfold gaussBackStep
  have hs : toShort ((i : Int) - 1) = (i : Int) - 1 := toShort_small (by omega) (by omega)
  rw [hs]
  by_cases h1 : p = i
  · simp [h1]
  · by_cases h2 : p < i
    · have : (p : Int) ≤ (i : Int) - 1 := by omega
      simp [h1, h2, this]
    · have : ¬ (p : Int) ≤ (i : Int) - 1 := by omega
      simp [h1, h2, this]

/-- The state of the backward loop after `m` passes: the rows treated are solved, the
others carry the right-hand side reduced by the entries already known. -/
theorem gaussBack_inv (U : Mat) (k : Nat) (hk : k ≤ 32769) (c : Vec)
    (hd : ∀ j, j < k → U j j ≠ 0) :
    ∀ m, m ≤ k →
      (∀ j, k - m ≤ j → j < k →
        U j j * gaussBack U k m c j + ∑ q in Ico (j + 1) k, U j q * gaussBack U k m c q = c j) ∧
      (∀ p, p < k - m →
        gaussBack U k m c p = c p - ∑ q in Ico (k - m) k, U p q * gaussBack U k m c q) ∧
      (∀ p, k ≤ p → gaussBack U k m c p = c p) := by
  intro m
  induction m with
  | zero =>
    intro _
    refine ⟨fun j h1 h2 => by omega, fun p _ => ?_, fun p _ => rfl⟩
    simp [gaussBack]
  | succ m ih =>
    intro hm
    obtain ⟨ha, hb, hc⟩ := ih (by omega)
    have hi : k - 1 - m ≤ 32768 := by omega
    have hik : k - 1 - m < k := by omega
    have hsucc : k - m = (k - 1 - m) + 1 := by omega
    have hpred : k - (m + 1) = k - 1 - m := by omega
    have hentry := gaussBackStep_entry U hi (gaussBack U k m c)
    have hgt : ∀ q, k - 1 - m < q → gaussBack U k (m + 1) c q = gaussBack U k m c q := by
      intro q hq
      rw [gaussBack, hentry, if_neg (by omega), if_neg (by omega)]
    have hsumgt : ∀ (j t : Nat), k - 1 - m < t →
        ∑ q in Ico t k, U j q * gaussBack U k (m + 1) c q
          = ∑ q in Ico t k, U j q * gaussBack U k m c q := by
      intro j t ht
      refine sum_congr rfl fun q hq => ?_
      rw [hgt q (by have := (mem_Ico.mp hq).1; omega)]
    have hat : gaussBack U k (m + 1) c (k - 1 - m)
        = gaussBack U k m c (k - 1 - m) / U (k - 1 - m) (k - 1 - m) := by
      rw [gaussBack, hentry, if_pos rfl]
    refine ⟨fun j h1 h2 => ?_, fun p hp => ?_, fun p hp => ?_⟩
    · rcases Nat.eq_or_lt_of_le (show k - 1 - m ≤ j by omega) with hj | hj
      · subst hj
        rw [hat, hsumgt _ _ (by omega), mul_div_cancel₀ _ (hd _ hik),
          hb (k - 1 - m) (by omega), hsucc]
        ring
      · rw [hgt j hj, hsumgt _ _ (by omega)]
        exact ha j (by omega) h2
    · have hplt : p < k - 1 - m := by omega
      have hpe : gaussBack U k (m + 1) c p
          = gaussBack U k m c p - U p (k - 1 - m) * gaussBack U k (m + 1) c (k - 1 - m) := by
        rw [hat, gaussBack, hentry, if_neg (by omega), if_pos hplt]
      rw [hpe, hb p (by omega), hpred, sum_eq_sum_Ico_succ_bot hik, hsumgt _ _ (by omega),
        hsucc]
      ring
    · rw [hgt p (by omega)]
      exact hc p hp

/-- Splitting a sum over `range n` at an index `i < n`. -/
theorem sum_range_split (f : Nat → ℚ) {i n : Nat} (hi : i < n) :
    ∑ q in range n, f q = (∑ q in range i, f q) + f i + ∑ q in Ico (i + 1) n, f q := by
  rw [range_eq_Ico, ← sum_Ico_consecutive f (Nat.zero_le i) (le_of_lt hi),
    sum_eq_sum_Ico_succ_bot hi, add_assoc]

/-- Back substitution solves an upper triangular system with nonzero diagonal. -/
theorem gaussBack_solves (U : Mat) (k : Nat) (hk : k ≤ 32769) (c : Vec)
    (hd : PivotsNonzero k U) (hU : IsUpper k U) :
    Solves k U c (gaussBack U k k c) := by
  intro j hj
  obtain ⟨ha, _, _⟩ := gaussBack_inv U k hk c hd k (le_refl k)
  have h := ha j (by omega) hj
  unfold mulVec
  rw [sum_range_split _ hj]
  have hz : ∑ q in range j, U j q * gaussBack U k k c q = 0 :=
    sum_eq_zero fun q hq => by rw [hU j q (mem_range.mp hq) hj, zero_mul]
  rw [hz, zero_add]
  exact h

theorem gaussBack_outside (U : Mat) (k : Nat) (hk : k ≤ 32769) (c : Vec)
    (hd : PivotsNonzero k U) (p : Nat) (hp : k ≤ p) : gaussBack U k k c p = c p :=
  (gaussBack_inv U k hk c hd k (le_refl k)).2.2 p hp

theorem pivotScan_range (A : Mat) (i : Nat) :
    ∀ k, i ≤ pivotScan A i k ∧ pivotScan A i k ≤ i + k := by
  intro k
  induction k with
  | zero => exact ⟨le_refl i, le_refl i⟩
  | succ m ih =>
    rw [pivotScan]
    split_ifs
    · constructor <;> omega
    · constructor <;> omega

/-- The row found by the pivot search carries the largest modulus of the column. -/
theorem pivotScan_max (A : Mat) (i : Nat) :
    ∀ k j, j ≤ k → |A (i + j) i| ≤ |A (pivotScan A i k) i| := by
  intro k
  induction k with
  | zero =>
    intro j hj
    have : j = 0 := by omega
    subst this
    exact le_refl _
  | succ m ih =>
    intro j hj
    rw [pivotScan]
    split_ifs with h
    · rcases Nat.eq_or_lt_of_le hj with hj1 | hj1
      · subst hj1
        exact le_refl _
      · have := ih j (by omega)
        exact le_trans this (le_of_lt h)
    · rcases Nat.eq_or_lt_of_le hj with hj1 | hj1
      · subst hj1
        exact not_lt.mp h
      · exact ih j (by omega)

theorem swapIdx_lt {n i r p : Nat} (hi : i < n) (hr : r < n) (hp : p < n) :
    swapIdx i r p < n := by
  unfold swapIdx
  split_ifs <;> assumption

theorem swapIdx_swapIdx (i r p : Nat) : swapIdx i r (swapIdx i r p) = p := by
  unfold swapIdx
  split_ifs <;> simp_all

theorem swapEntries_eq (b : Vec) (i r p : Nat) : swapEntries b i r p = b (swapIdx i r p) := by
  unfold swapEntries swapIdx
  split_ifs <;> rfl

/-- Swapping the columns `i .. n-1` of two rows is a swap of the whole rows once the
columns before `i` are cleared. -/
theorem swapRows_eq {n i r : Nat} {A : Mat} (hz : ZeroBelow n i A) (hi : i < n) (hir : i ≤ r)
    (hr : r < n) (p q : Nat) (hq : q < n) :
    swapRows A n i r p q = A (swapIdx i r p) q := by
  unfold swapRows swapIdx
  by_cases hcol : i ≤ q
  · rw [if_pos ⟨hcol, hq⟩]
    split_ifs <;> rfl
  · rw [if_neg (fun h => hcol h.1)]
    have hqi : q < i := by omega
    have h1 : A i q = 0 := hz q hqi i hqi hi
    have h2 : A r q = 0 := hz q hqi r (by omega) hr
    split_ifs with ha hb
    · rw [ha, h1, h2]
    · rw [hb, h1, h2]
    · rfl

theorem mulVec_swapRows {n i r : Nat} {A : Mat} (hz : ZeroBelow n i A) (hi : i < n)
    (hir : i ≤ r) (hr : r < n) (x : Vec) (p : Nat) :
    mulVec n (swapRows A n i r) x p = mulVec n A x (swapIdx i r p) := by
  unfold mulVec
  refine sum_congr rfl fun q hq => ?_
  rw [swapRows_eq hz hi hir hr p q (mem_range.mp hq)]

theorem solves_swap {n i r : Nat} {A : Mat} (hz : ZeroBelow n i A) (hi : i < n)
    (hir : i ≤ r) (hr : r < n) (b x : Vec) :
    Solves n A b x ↔ Solves n (swapRows A n i r) (swapEntries b i r) x := by
  constructor
  · intro h p hp
    rw [mulVec_swapRows hz hi hir hr, swapEntries_eq]
    exact h _ (swapIdx_lt hi hr hp)
  · intro h p hp
    have := h (swapIdx i r p) (swapIdx_lt hi hr hp)
    rwa [mulVec_swapRows hz hi hir hr, swapEntries_eq, swapIdx_swapIdx] at this

theorem swapEntries_zero (i r : Nat) : swapEntries (fun _ => 0) i r = fun _ => 0 := by
  funext p
  unfold swapEntries
  split_ifs <;> rfl

theorem zeroBelow_swapRows {n i r : Nat} {A : Mat} (hz : ZeroBelow n i A) :
    ZeroBelow n i (swapRows A n i r) := by
  intro q hq p hqp hp
  unfold swapRows
  rw [if_neg (by omega)]
  exact hz q hq p hqp hp

theorem pivotsNonzero_swapRows {n i r : Nat} {A : Mat} (hd : PivotsNonzero i A) :
    PivotsNonzero i (swapRows A n i r) := by
  intro q hq
  unfold swapRows
  rw [if_neg (by omega)]
  exact hd q hq

theorem nonsingular_swapRows {n i r : Nat} {A : Mat} (hz : ZeroBelow n i A) (hi : i < n)
    (hir : i ≤ r) (hr : r < n) (hA : Nonsingular n A) :
    Nonsingular n (swapRows A n i r) := by
  intro x hx
  apply hA x
  have h := (solves_swap hz hi hir hr (fun _ => 0) x).mpr
  rw [swapEntries_zero] at h
  exact h hx

/-- After the swap the entry on the diagonal has the largest modulus of its column at
and below the diagonal. -/
theorem swapRows_pivot_max {n i : Nat} (A : Mat) (hi : i < n) (p : Nat) (hip : i ≤ p)
    (hp : p < n) :
    |swapRows A n i (pivotScan A i (n - 1 - i)) p i|
      ≤ |swapRows A n i (pivotScan A i (n - 1 - i)) i i| := by
  have hmax : ∀ t, i ≤ t → t < n → |A t i| ≤ |A (pivotScan A i (n - 1 - i)) i| := by
    intro t hit ht
    have := pivotScan_max A i (n - 1 - i) (t - i) (by omega)
    rwa [show i + (t - i) = t by omega] at this
  have hii : swapRows A n i (pivotScan A i (n - 1 - i)) i i
      = A (pivotScan A i (n - 1 - i)) i := by
    unfold swapRows
    rw [if_pos ⟨le_refl i, hi⟩, if_pos rfl]
  have hpi : swapRows A n i (pivotScan A i (n - 1 - i)) p i
      = if p = i then A (pivotScan A i (n - 1 - i)) i
        else if p = pivotScan A i (n - 1 - i) then A i i else A p i := by
    unfold swapRows
    rw [if_pos ⟨le_refl i, hi⟩]
  rw [hii, hpi]
  split_ifs with h1 h2
  · exact le_refl _
  · exact hmax i (le_refl i) hi
  · exact hmax p hip hp

/-- The reduction of the rows below `i` adds a multiple of row `i` to each of them. -/
theorem eliminateBelow_eq {n i : Nat} {A : Mat} (hz : ZeroBelow n i A) (hi : i < n)
    (hpiv : A i i ≠ 0) (p q : Nat) (hq : q < n) :
    eliminateBelow A n i p q
      = if i < p ∧ p < n then A p q + -A p i / A i i * A i q else A p q := by
  unfold eliminateBelow
  by_cases hrow : i < p ∧ p < n
  · rw [if_pos hrow]
    by_cases hcol : i ≤ q
    · rw [if_pos ⟨hrow.1, hrow.2, hcol, hq⟩]
      split_ifs with hiq
      · rw [← hiq]
        field_simp
      · rfl
    · rw [if_neg (fun h => hcol h.2.2.1)]
      have : A i q = 0 := hz q (by omega) i (by omega) hi
      rw [this, mul_zero, add_zero]
  · rw [if_neg hrow, if_neg (fun h => hrow ⟨h.1, h.2.1⟩)]

theorem mulVec_eliminateBelow {n i : Nat} {A : Mat} (hz : ZeroBelow n i A) (hi : i < n)
    (hpiv : A i i ≠ 0) (x : Vec) (p : Nat) :
    mulVec n (eliminateBelow A n i) x p
      = if i < p ∧ p < n then mulVec n A x p + -A p i / A i i * mulVec n A x i
        else mulVec n A x p := by
  unfold mulVec
  by_cases hrow : i < p ∧ p < n
  · rw [if_pos hrow, mul_sum, ← sum_add_distrib]
    refine sum_congr rfl fun q hq => ?_
    rw [eliminateBelow_eq hz hi hpiv p q (mem_range.mp hq), if_pos hrow]
    ring
  · rw [if_neg hrow]
    refine sum_congr rfl fun q hq => ?_
    rw [eliminateBelow_eq hz hi hpiv p q (mem_range.mp hq), if_neg hrow]

theorem solves_eliminate {n i : Nat} {A : Mat} (hz : ZeroBelow n i A) (hi : i < n)
    (hpiv : A i i ≠ 0) (b x : Vec) :
    Solves n A b x ↔ Solves n (eliminateBelow A n i) (eliminateRhs A b n i) x := by
  constructor
  · intro h p hp
    rw [mulVec_eliminateBelow hz hi hpiv]
    unfold eliminateRhs
    split_ifs with hrow
    · rw [h p hp, h i hi]
    · exact h p hp
  · intro h
    have hrowi : mulVec n A x i = b i := by
      have := h i hi
      rw [mulVec_eliminateBelow hz hi hpiv] at this
      unfold eliminateRhs at this
      rwa [if_neg (by omega), if_neg (by omega)] at this
    intro p hp
    have := h p hp
    rw [mulVec_eliminateBelow hz hi hpiv] at this
    unfold eliminateRhs at this
    by_cases hrow : i < p ∧ p < n
    · rw [if_pos hrow, if_pos hrow, hrowi] at this
      linarith
    · rwa [if_neg hrow, if_neg hrow] at this

theorem eliminateRhs_zero (A : Mat) (n i : Nat) :
    eliminateRhs A (fun _ => 0) n i = fun _ => 0 := by
  funext p
  unfold eliminateRhs
  split_ifs <;> simp

theorem zeroBelow_eliminate {n i : Nat} {A : Mat} (hz : ZeroBelow n i A) :
    ZeroBelow n (i + 1) (eliminateBelow A n i) := by
  intro q hq p hqp hp
  unfold eliminateBelow
  by_cases hqi : q = i
  · subst hqi
    rw [if_pos ⟨hqp, hp, le_refl q, by omega⟩, if_pos rfl]
  · rw [if_neg (by omega)]
    exact hz q (by omega) p hqp hp

theorem pivotsNonzero_eliminate {n i : Nat} {A : Mat} (hd : PivotsNonzero i A)
    (hpiv : A i i ≠ 0) : PivotsNonzero (i + 1) (eliminateBelow A n i) := by
  intro q hq
  unfold eliminateBelow
  rw [if_neg (by omega)]
  by_cases hqi : q = i
  · subst hqi; exact hpiv
  · exact hd q (by omega)

theorem nonsingular_eliminate {n i : Nat} {A : Mat} (hz : ZeroBelow n i A) (hi : i < n)
    (hpiv : A i i ≠ 0) (hA : Nonsingular n A) : Nonsingular n (eliminateBelow A n i) := by
  intro x hx
  apply hA x
  have h := (solves_eliminate hz hi hpiv (fun _ => 0) x).mpr
  rw [eliminateRhs_zero] at h
  exact h hx

/-- With a nonsingular matrix whose columns before `i` are cleared, the entry of largest
modulus in column `i` at and below the diagonal is not zero. -/
theorem pivot_ne_zero {n i : Nat} {A : Mat} (hn : n ≤ 32769) (hi : i < n)
    (hz : ZeroBelow n i A) (hd : PivotsNonzero i A) (hA : Nonsingular n A)
    (hmax : ∀ p, i ≤ p → p < n → |A p i| ≤ |A i i|) : A i i ≠ 0 := by
  intro h0
  have hcol : ∀ p, i ≤ p → p < n → A p i = 0 := by
    intro p hip hp
    have := hmax p hip hp
    rw [h0, abs_zero] at this
    exact abs_eq_zero.mp (le_antisymm this (abs_nonneg _))
  have hU : IsUpper i A := fun p q hqp hp => hz q (by omega) p hqp (by omega)
  have hy := gaussBack_solves A i (by omega) (fun j => -A j i) hd hU
  have hx : ∀ p, p < n →
      mulVec n A (fun q => if q < i then gaussBack A i i (fun j => -A j i) q
        else if q = i then 1 else 0) p = 0 := by
    intro p hp
    unfold mulVec
    rw [sum_range_split _ hi]
    have h3 : ∑ q in Ico (i + 1) n, A p q *
        (if q < i then gaussBack A i i (fun j => -A j i) q else if q = i then 1 else 0) = 0 := by
      refine sum_eq_zero fun q hq => ?_
      have := (mem_Ico.mp hq).1
      rw [if_neg (by omega), if_neg (by omega), mul_zero]
    have h1 : ∑ q in range i, A p q *
        (if q < i then gaussBack A i i (fun j => -A j i) q else if q = i then 1 else 0)
        = mulVec i A (gaussBack A i i (fun j => -A j i)) p := by
      unfold mulVec
      refine sum_congr rfl fun q hq => ?_
      rw [if_pos (mem_range.mp hq)]
    rw [h3, h1, add_zero]
    simp only [lt_irrefl, if_false, if_true, mul_one]
    by_cases hpi : p < i
    · rw [hy p hpi]
      ring
    · have hzero : mulVec i A (gaussBack A i i (fun j => -A j i)) p = 0 := by
        unfold mulVec
        refine sum_eq_zero fun q hq => ?_
        have hq1 := mem_range.mp hq
        rw [hz q hq1 p (by omega) hp, zero_mul]
      rw [hzero, hcol p (by omega) hp, add_zero]
  have := hA _ hx i hi
  simp at this

/-- One pass of the forward loop: the next column is cleared with a nonzero pivot and
the solutions of the system are kept. -/
theorem gaussStep_inv {n i : Nat} (hn : n ≤ 32769) (hi : i < n) (Ab : Mat × Vec)
    (h : GaussInv n i Ab.1) :
    GaussInv n (i + 1) (gaussStep n i Ab).1 ∧
    (∀ x, Solves n Ab.1 Ab.2 x ↔ Solves n (gaussStep n i Ab).1 (gaussStep n i Ab).2 x) ∧
    swapRows Ab.1 n i (pivotScan Ab.1 i (n - 1 - i)) i i ≠ 0 := by
  have hr := pivotScan_range Ab.1 i (n - 1 - i)
  have hr1 : i ≤ pivotScan Ab.1 i (n - 1 - i) := hr.1
  have hr2 : pivotScan Ab.1 i (n - 1 - i) < n := by omega
  have hz1 := zeroBelow_swapRows (r := pivotScan Ab.1 i (n - 1 - i)) h.hz
  have hd1 := pivotsNonzero_swapRows (n := n) (r := pivotScan Ab.1 i (n - 1 - i)) h.hd
  have hns1 := nonsingular_swapRows h.hz hi hr1 hr2 h.hns
  have hpiv := pivot_ne_zero hn hi hz1 hd1 hns1 (swapRows_pivot_max Ab.1 hi)
  refine ⟨⟨?_, ?_, ?_⟩, fun x => ?_, hpiv⟩
  · exact zeroBelow_eliminate hz1
  · exact pivotsNonzero_eliminate hd1 hpiv
  · exact nonsingular_eliminate hz1 hi hpiv hns1
  · exact (solves_swap h.hz hi hr1 hr2 Ab.2 x).trans (solves_eliminate hz1 hi hpiv _ x)

/-- The forward loop keeps the solutions and ends with an upper triangular matrix with
nonzero diagonal. -/
theorem gaussForward_inv {n : Nat} (hn : n ≤ 32769) {A : Mat} (hA : Nonsingular n A)
    (b : Vec) :
    ∀ m, m ≤ n →
      GaussInv n m (gaussForward n m (A, b)).1 ∧
      (∀ x, Solves n A b x
        ↔ Solves n (gaussForward n m (A, b)).1 (gaussForward n m (A, b)).2 x) := by
  intro m
  induction m with
  | zero =>
    intro _
    exact ⟨⟨fun q hq => by omega, fun q hq => by omega, hA⟩, fun x => Iff.rfl⟩
  | succ k ih =>
    intro hk
    obtain ⟨hinv, hsol⟩ := ih (by omega)
    obtain ⟨h1, h2, _⟩ := gaussStep_inv hn (show k < n by omega) (gaussForward n k (A, b)) hinv
    exact ⟨h1, fun x => (hsol x).trans (h2 x)⟩

/-- No pass of the forward loop divides by zero when the matrix is nonsingular. -/
theorem gaussPivot_ne_zero {n : Nat} (hn : n ≤ 32769) {A : Mat} (hA : Nonsingular n A)
    (b : Vec) (i : Nat) (hi : i < n) : gaussPivot A b n i ≠ 0 :=
  (gaussStep_inv hn hi (gaussForward n i (A, b))
    (gaussForward_inv hn hA b i (le_of_lt hi)).1).2.2

/-- Round trip of `GaussElimination` for a nonsingular matrix whose size fits the
16-bit counter of the backward loop: the returned vector solves the system, and the
backward loop divides by nonzero diagonal entries. -/
theorem GaussElimination_solves {n : Nat} (hn : n ≤ 32769) {A : Mat}
    (hA : Nonsingular n A) (b : Vec) :
    Solves n A b (GaussElimination A b n).2 ∧
    PivotsNonzero n (gaussForward n n (A, b)).1 := by
  obtain ⟨hinv, hsol⟩ := gaussForward_inv hn hA b n (le_refl n)
  have hU : IsUpper n (gaussForward n n (A, b)).1 :=
    fun p q hqp hp => hinv.hz q (by omega) p hqp hp
  refine ⟨?_, hinv.hd⟩
  unfold GaussElimination
  simp only []
  exact (hsol _).mpr (gaussBack_solves _ n hn _ hinv.hd hU)

/-- A row of a tridiagonal matrix times a vector has at most three terms. -/
theorem mulVec_tridiagonal {n : Nat} {A : Mat} (hT : IsTridiagonal n A) (x : Vec) {i : Nat}
    (hi : i < n) :
    mulVec n A x i
      = (if 0 < i then A i (i - 1) * x (i - 1) else 0) + A i i * x i
        + (if i + 1 < n then A i (i + 1) * x (i + 1) else 0) := by
  unfold mulVec
  rw [sum_range_split _ hi]
  have hleft : ∑ q in range i, A i q * x q
      = if 0 < i then A i (i - 1) * x (i - 1) else 0 := by
    split_ifs with h0
    · rw [sum_range_split _ (show i - 1 < i by omega)]
      have h1 : ∑ q in range (i - 1), A i q * x q = 0 :=
        sum_eq_zero fun q hq => by
          have := mem_range.mp hq
          rw [hT i q hi (by omega) (Or.inr (by omega)), zero_mul]
      have h2 : ∑ q in Ico (i - 1 + 1) i, A i q * x q = 0 := by
        rw [show i - 1 + 1 = i by omega]; simp
      rw [h1, h2]; ring
    · have : i = 0 := by omega
      subst this; simp
  have hright : ∑ q in Ico (i + 1) n, A i q * x q
      = if i + 1 < n then A i (i + 1) * x (i + 1) else 0 := by
    split_ifs with h0
    · rw [sum_eq_sum_Ico_succ_bot h0]
      have h1 : ∑ q in Ico (i + 1 + 1) n, A i q * x q = 0 :=
        sum_eq_zero fun q hq => by
          have := mem_Ico.mp hq
          rw [hT i q hi this.2 (Or.inl (by omega)), zero_mul]
      rw [h1, add_zero]
    · rw [Ico_eq_empty (by omega), sum_empty]
  rw [hleft, hright]

/-- Strict dominance over the two neighbours of the diagonal. -/
theorem rowDominant_neighbours {n : Nat} {A : Mat} (hT : IsTridiagonal n A)
    (hD : IsRowDominant n A) {i : Nat} (hi : i < n) :
    (if 0 < i then |A i (i - 1)| else 0) + (if i + 1 < n then |A i (i + 1)| else 0)
      < |A i i| := by
  have h := hD i hi
  have habs : IsTridiagonal n (fun p q => if q = p then 0 else |A p q|) := by
    intro p q hp hq hpq
    show (if q = p then 0 else |A p q|) = 0
    split_ifs
    · rfl
    · rw [hT p q hp hq hpq, abs_zero]
  have hsum := mulVec_tridiagonal habs (fun _ => 1) hi
  unfold mulVec at hsum
  simp only [mul_one, if_true] at hsum
  rw [hsum] at h
  have e1 : (if 0 < i then (if i - 1 = i then (0 : ℚ) else |A i (i - 1)|) else 0)
      = if 0 < i then |A i (i - 1)| else 0 := by
    split_ifs with h1 h2
    · omega
    · rfl
    · rfl
  have e2 : (if i + 1 < n then (if i + 1 = i then (0 : ℚ) else |A i (i + 1)|) else 0)
      = if i + 1 < n then |A i (i + 1)| else 0 := by
    split_ifs with h1 h2
    · omega
    · rfl
    · rfl
  rw [e1, e2] at h
  linarith

/-- No divisor of the forward loop is zero and the modified super-diagonal stays below
one in modulus. -/
theorem thomas_bounds {n : Nat} {A : Mat} (hT : IsTridiagonal n A) (hD : IsRowDominant n A) :
    ∀ i, i < n → thomasDen A n i ≠ 0 ∧ (i + 1 < n → |thomasHelpOne A n i| < 1) := by
  intro i
  induction i with
  | zero =>
    intro h0
    have hd := rowDominant_neighbours hT hD h0
    simp only [lt_irrefl, if_false, zero_add] at hd
    have hpos : 0 < |A 0 0| := by
      split_ifs at hd
      · exact lt_of_le_of_lt (abs_nonneg _) hd
      · exact hd
    refine ⟨abs_pos.mp hpos, fun h1 => ?_⟩
    rw [if_pos h1] at hd
    rw [thomasHelpOne, abs_div, div_lt_one hpos]
    exact hd
  | succ k ih =>
    intro hk
    obtain ⟨_, hc⟩ := ih (by omega)
    have hc1 := hc hk
    have hd := rowDominant_neighbours hT hD hk
    rw [if_pos (Nat.succ_pos k)] at hd
    simp only [Nat.add_sub_cancel] at hd
    have hR : 0 ≤ (if k + 1 + 1 < n then |A (k + 1) (k + 1 + 1)| else 0) := by
      split_ifs
      · exact abs_nonneg _
      · exact le_refl _
    have hlow : |A (k + 1) (k + 1)| - |A (k + 1) k|
        ≤ |A (k + 1) (k + 1) - thomasHelpOne A n k * A (k + 1) k| := by
      have h1 : |thomasHelpOne A n k * A (k + 1) k| ≤ |A (k + 1) k| := by
        rw [abs_mul]
        calc |thomasHelpOne A n k| * |A (k + 1) k| ≤ 1 * |A (k + 1) k| :=
              mul_le_mul_of_nonneg_right (le_of_lt hc1) (abs_nonneg _)
          _ = |A (k + 1) k| := one_mul _
      have h2 := abs_sub_abs_le_abs_sub (A (k + 1) (k + 1)) (thomasHelpOne A n k * A (k + 1) k)
      linarith
    have hpos : 0 < |thomasDen A n (k + 1)| := by
      rw [thomasDen]; linarith
    refine ⟨abs_pos.mp hpos, fun h2 => ?_⟩
    rw [if_pos h2] at hd
    rw [thomasHelpOne, if_pos (by omega), abs_div]
    rw [thomasDen] at hpos
    rw [div_lt_one hpos]
    linarith

theorem thomas_last (A : Mat) (d : Vec) {n : Nat} (hn : 0 < n) :
    ThomasAlgorithm A d n (n - 1) = thomasHelp A d n (n - 1) := by
  unfold ThomasAlgorithm
  rw [if_pos (by omega), show n - 1 - (n - 1) = 0 by omega, thomasBack]

theorem thomas_rec (A : Mat) (d : Vec) {n i : Nat} (hi : i + 1 < n) :
    ThomasAlgorithm A d n i
      = thomasHelp A d n i - thomasHelpOne A n i * ThomasAlgorithm A d n (i + 1) := by
  unfold ThomasAlgorithm
  rw [if_pos (by omega), if_pos hi, show n - 1 - i = (n - 2 - i) + 1 by omega, thomasBack,
    show n - 2 - (n - 2 - i) = i by omega, show n - 1 - (i + 1) = n - 2 - i by omega]

theorem thomasHelp_succ_mul (A : Mat) (d : Vec) (n k : Nat) (hden : thomasDen A n (k + 1) ≠ 0) :
    thomasDen A n (k + 1) * thomasHelp A d n (k + 1)
      = d (k + 1) - thomasHelp A d n k * A (k + 1) k := by
  rw [thomasHelp]
  rw [thomasDen] at hden ⊢
  field_simp

theorem thomasHelpOne_succ_mul (A : Mat) {n k : Nat} (hk : k + 1 ≠ n - 1)
    (hden : thomasDen A n (k + 1) ≠ 0) :
    thomasDen A n (k + 1) * thomasHelpOne A n (k + 1) = A (k + 1) (k + 2) := by
  rw [thomasHelpOne, if_pos hk]
  rw [thomasDen] at hden ⊢
  field_simp

/-- Round trip of `ThomasAlgorithm` for a tridiagonal, strictly row diagonally dominant
matrix: the returned vector solves the system. -/
theorem ThomasAlgorithm_solves {n : Nat} {A : Mat} (hT : IsTridiagonal n A)
    (hD : IsRowDominant n A) (d : Vec) : Solves n A d (ThomasAlgorithm A d n) := by
  intro i hi
  rw [mulVec_tridiagonal hT _ hi]
  cases i with
  | zero =>
    have hden : A 0 0 ≠ 0 := (thomas_bounds hT hD 0 hi).1
    simp only [lt_irrefl, if_false, zero_add]
    by_cases h1 : 0 + 1 < n
    · rw [if_pos h1, thomas_rec A d h1, thomasHelp, thomasHelpOne]
      field_simp
    · rw [if_neg h1]
      have hn : n - 1 = 0 := by omega
      have := thomas_last A d hi
      rw [hn] at this
      rw [this, thomasHelp]
      field_simp
  | succ k =>
    have hden : thomasDen A n (k + 1) ≠ 0 := (thomas_bounds hT hD (k + 1) hi).1
    have e1 := thomasHelp_succ_mul A d n k hden
    have hdef : thomasDen A n (k + 1)
        = A (k + 1) (k + 1) - thomasHelpOne A n k * A (k + 1) k := rfl
    rw [if_pos (Nat.succ_pos k)]
    simp only [Nat.add_sub_cancel]
    rw [thomas_rec A d (show k + 1 < n from hi)]
    by_cases h1 : k + 1 + 1 < n
    · have e2 := thomasHelpOne_succ_mul A (show k + 1 ≠ n - 1 by omega) hden
      rw [if_pos h1, thomas_rec A d h1]
      rw [hdef] at e1 e2
      linear_combination e1 - ThomasAlgorithm A d n (k + 1 + 1) * e2
    · rw [if_neg h1]
      have hn : n - 1 = k + 1 := by omega
      have := thomas_last A d (show 0 < n by omega)
      rw [hn] at this
      rw [this]
      rw [hdef] at e1
      linear_combination e1

/-- No division by zero in `ThomasAlgorithm` on such a matrix. -/
theorem ThomasAlgorithm_pivots {n : Nat} {A : Mat} (hT : IsTridiagonal n A)
    (hD : IsRowDominant n A) (i : Nat) (hi : i < n) : thomasDen A n i ≠ 0 :=
  (thomas_bounds hT hD i hi).1

theorem BlockB_diag (eps : ℚ) {nx i : Nat} (hi : i < nx) :
    BlockB eps nx i i = 4 * eps * eps + 1 := by
  unfold BlockB
  rw [if_pos hi, if_pos rfl]

theorem BlockB_left (eps : ℚ) {nx i : Nat} (h0 : 0 < i) (hi : i < nx) :
    BlockB eps nx i (i - 1) = if i = nx - 1 then -2 * eps * eps else -eps * eps := by
  unfold BlockB
  rw [if_pos hi, if_neg (by omega), if_neg (by omega)]
  split_ifs with h1 h2 h3 <;> first | rfl | omega

theorem BlockB_right (eps : ℚ) {nx i : Nat} (hi : i + 1 < nx) :
    BlockB eps nx i (i + 1) = if i = 0 then -2 * eps * eps else -eps * eps := by
  unfold BlockB
  rw [if_pos (by omega), if_neg (by omega)]
  split_ifs with h1 h2 h3 <;> first | rfl | omega

theorem BlockB_tridiagonal (eps : ℚ) (nx : Nat) : IsTridiagonal nx (BlockB eps nx) := by
  intro i j hi _ hij
  unfold BlockB
  rw [if_pos hi, if_neg (by omega)]
  split_ifs <;> first | rfl | omega

theorem BlockA_diag (eps : ℚ) {nx i : Nat} (hi : i < nx) : BlockA eps nx i i = -eps * eps := by
  unfold BlockA
  rw [if_pos ⟨hi, rfl⟩]

theorem BlockC_entry (eps : ℚ) {nx i : Nat} (hi : i < nx) (j : Nat) :
    BlockC eps nx i j = if j = i then -eps * eps else 0 := by
  unfold BlockC
  split_ifs with h1 h2 h3 <;> first | rfl | tauto

/-- Row `i` of `BlockB` applied to a grid row. -/
theorem mulVec_BlockB (eps : ℚ) {nx : Nat} (hnx : 2 ≤ nx) (y : Vec) {i : Nat} (hi : i < nx) :
    mulVec nx (BlockB eps nx) y i
      = (4 * eps * eps + 1) * y i - eps * eps * rowNeighbours nx y i := by
  rw [mulVec_tridiagonal (BlockB_tridiagonal eps nx) y hi, BlockB_diag eps hi]
  unfold rowNeighbours
  by_cases h0 : i = 0
  · subst h0
    rw [if_neg (lt_irrefl 0), if_pos (by omega), BlockB_right eps (by omega), if_pos rfl,
      if_pos rfl]
    ring
  · by_cases h1 : i = nx - 1
    · rw [if_pos (by omega), if_neg (by omega), BlockB_left eps (by omega) hi, if_pos h1,
        if_neg h0, if_pos h1]
      have : i - 1 = nx - 2 := by omega
      rw [this]
      ring
    · rw [if_pos (by omega), if_pos (by omega), BlockB_left eps (by omega) hi, if_neg h1,
        BlockB_right eps (by omega), if_neg h0, if_neg h0, if_neg h1]
      ring

theorem BlockB_rowDominant (eps : ℚ) {nx : Nat} (hnx : 2 ≤ nx) :
    IsRowDominant nx (BlockB eps nx) := by
  intro i hi
  have habs : IsTridiagonal nx (fun p q => if q = p then 0 else |BlockB eps nx p q|) := by
    intro p q hp hq hpq
    show (if q = p then 0 else |BlockB eps nx p q|) = 0
    split_ifs
    · rfl
    · rw [BlockB_tridiagonal eps nx p q hp hq hpq, abs_zero]
  have hsum := mulVec_tridiagonal habs (fun _ => 1) hi
  unfold mulVec at hsum
  simp only [mul_one, if_true] at hsum
  rw [hsum, BlockB_diag eps hi]
  have he : 0 ≤ eps * eps := mul_self_nonneg eps
  have hpos : |4 * eps * eps + 1| = 4 * (eps * eps) + 1 := by
    rw [abs_of_pos (by nlinarith)]; ring
  have h2 : |-2 * eps * eps| = 2 * (eps * eps) := by
    rw [show -2 * eps * eps = -(2 * (eps * eps)) by ring, abs_neg, abs_of_nonneg (by linarith)]
  have h1 : |-eps * eps| = eps * eps := by
    rw [show -eps * eps = -(eps * eps) by ring, abs_neg, abs_of_nonneg he]
  rw [hpos]
  by_cases h0 : i = 0
  · subst h0
    rw [if_neg (lt_irrefl 0), if_pos (by omega), if_neg (by omega),
      BlockB_right eps (by omega), if_pos rfl, h2]
    linarith
  · by_cases hl : i = nx - 1
    · rw [if_pos (by omega), if_neg (by omega), if_neg (by omega),
        BlockB_left eps (by omega) hi, if_pos hl, h2]
      linarith
    · rw [if_pos (by omega), if_neg (by omega), if_pos (by omega), if_neg (by omega),
        BlockB_left eps (by omega) hi, if_neg hl, BlockB_right eps (by omega), if_neg h0, h1]
      linarith

/-- Some entry of a grid row has the largest modulus. -/
theorem exists_max_abs {nx : Nat} (hnx : 0 < nx) (y : Vec) :
    ∃ i, i < nx ∧ ∀ j, j < nx → |y j| ≤ |y i| := by
  obtain ⟨i, hi, hmax⟩ := exists_max_image (range nx) (fun j => |y j|)
    ⟨0, mem_range.mpr hnx⟩
  exact ⟨i, mem_range.mp hi, fun j hj => hmax j (mem_range.mpr hj)⟩

theorem abs_rowNeighbours_le {nx : Nat} (hnx : 2 ≤ nx) (y : Vec) {i : Nat} (hi : i < nx)
    {M : ℚ} (hM : ∀ j, j < nx → |y j| ≤ M) : |rowNeighbours nx y i| ≤ 2 * M := by
  unfold rowNeighbours
  split_ifs with h0 h1
  · rw [abs_mul, abs_of_pos (by norm_num : (0 : ℚ) < 2)]
    have := hM 1 (by omega)
    linarith
  · rw [abs_mul, abs_of_pos (by norm_num : (0 : ℚ) < 2)]
    have := hM (nx - 2) (by omega)
    linarith
  · have h2 := hM (i - 1) (by omega)
    have h3 := hM (i + 1) (by omega)
    have := abs_add (y (i - 1)) (y (i + 1))
    linarith

/-- At an entry of largest modulus, `BlockB` keeps the modulus above `(2*eps*eps + 1)`
times it. -/
theorem BlockB_lower_bound (eps : ℚ) {nx : Nat} (hnx : 2 ≤ nx) (y : Vec) {i : Nat}
    (hi : i < nx) (hmax : ∀ j, j < nx → |y j| ≤ |y i|) :
    (2 * (eps * eps) + 1) * |y i| ≤ |mulVec nx (BlockB eps nx) y i| := by
  rw [mulVec_BlockB eps hnx y hi]
  have he : 0 ≤ eps * eps := mul_self_nonneg eps
  have hN := abs_rowNeighbours_le hnx y hi hmax
  have h1 : |(4 * eps * eps + 1) * y i| = (4 * (eps * eps) + 1) * |y i| := by
    rw [abs_mul, abs_of_pos (by nlinarith)]; ring
  have h2 : |eps * eps * rowNeighbours nx y i| ≤ eps * eps * (2 * |y i|) := by
    rw [abs_mul, abs_of_nonneg he]
    exact mul_le_mul_of_nonneg_left hN he
  have h3 := abs_sub_abs_le_abs_sub ((4 * eps * eps + 1) * y i)
    (eps * eps * rowNeighbours nx y i)
  rw [h1] at h3
  nlinarith

/-- A matrix applied to the product of a matrix and a vector, column by column. -/
theorem mulVec_mulVec (n : Nat) (M N : Mat) (x : Vec) (i : Nat) :
    mulVec n M (mulVec n N x) i
      = ∑ j in range n, mulVec n M (fun l => N l j) i * x j := by
  unfold mulVec
  simp only [mul_sum, sum_mul]
  rw [sum_comm]
  refine sum_congr rfl fun j _ => sum_congr rfl fun l _ => ?_
  ring

theorem mulVec_congr {n : Nat} {M N : Mat} {x y : Vec}
    (hM : ∀ i, i < n → ∀ j, j < n → M i j = N i j) (hx : ∀ j, j < n → x j = y j) (i : Nat)
    (hi : i < n) : mulVec n M x i = mulVec n N y i := by
  unfold mulVec
  refine sum_congr rfl fun j hj => ?_
  rw [hM i hi j (mem_range.mp hj), hx j (mem_range.mp hj)]

/-- The core estimate of the block elimination: if `BlockB*y = -alpha*eps^2*x -
beta*eps^2*(H*y)` row by row with `alpha + beta <= 2` and `H` not increasing the largest
modulus, then `y` is bounded by the bound of `x`. -/
theorem block_estimate (eps : ℚ) {nx : Nat} (hnx : 2 ≤ nx) (H : Mat) (hH : NormLeOne nx H)
    (alpha beta : ℚ) (ha : 0 ≤ alpha) (hb : 0 ≤ beta) (hab : alpha + beta ≤ 2)
    (x y : Vec) (M : ℚ) (hx : ∀ j, j < nx → |x j| ≤ M)
    (hy : ∀ i, i < nx → mulVec nx (BlockB eps nx) y i
      = -(alpha * (eps * eps)) * x i - beta * (eps * eps) * mulVec nx H y i) :
    ∀ i, i < nx → |y i| ≤ M := by
  obtain ⟨s, hs, hmax⟩ := exists_max_abs (show 0 < nx by omega) y
  have he : 0 ≤ eps * eps := mul_self_nonneg eps
  have hM : 0 ≤ M := le_trans (abs_nonneg _) (hx 0 (by omega))
  have hlow := BlockB_lower_bound eps hnx y hs hmax
  have hHy := hH y |y s| hmax s hs
  have hup : |mulVec nx (BlockB eps nx) y s|
      ≤ alpha * (eps * eps) * M + beta * (eps * eps) * |y s| := by
    rw [hy s hs]
    have h1 : |-(alpha * (eps * eps)) * x s| ≤ alpha * (eps * eps) * M := by
      rw [abs_mul, abs_neg, abs_of_nonneg (mul_nonneg ha he)]
      exact mul_le_mul_of_nonneg_left (hx s hs) (mul_nonneg ha he)
    have h2 : |beta * (eps * eps) * mulVec nx H y s| ≤ beta * (eps * eps) * |y s| := by
      rw [abs_mul, abs_of_nonneg (mul_nonneg hb he)]
      exact mul_le_mul_of_nonneg_left hHy (mul_nonneg hb he)
    have h3 := abs_sub (-(alpha * (eps * eps)) * x s) (beta * (eps * eps) * mulVec nx H y s)
    linarith
  have hys : |y s| ≤ M := by
    by_contra hcon
    push_neg at hcon
    have h1 : 0 ≤ (eps * eps) * (|y s| - M) := mul_nonneg he (by linarith)
    have h2 : 0 ≤ (2 - alpha - beta) * ((eps * eps) * M) :=
      mul_nonneg (by linarith) (mul_nonneg he hM)
    have h3 : 0 ≤ (2 - beta) * ((eps * eps) * (|y s| - M)) :=
      mul_nonneg (by linarith) h1
    nlinarith
  exact fun i hi => le_trans (hmax i hi) hys

/-- The matrix `BlockB + gamma*eps^2*H` is nonsingular for `0 <= gamma <= 2` when `H`
does not increase the largest modulus. -/
theorem block_nonsingular (eps : ℚ) {nx : Nat} (hnx : 2 ≤ nx) (H : Mat)
    (hH : NormLeOne nx H) (gamma : ℚ) (hg0 : 0 ≤ gamma) (hg2 : gamma ≤ 2) (T : Mat)
    (hT : ∀ i, i < nx → ∀ j, j < nx →
      T i j = BlockB eps nx i j + gamma * (eps * eps) * H i j) :
    Nonsingular nx T := by
  intro x hx
  have hrow : ∀ i, i < nx → mulVec nx (BlockB eps nx) x i
      = -(0 * (eps * eps)) * (fun _ => 0) i - gamma * (eps * eps) * mulVec nx H x i := by
    intro i hi
    have h := hx i hi
    have hsplit : mulVec nx T x i
        = mulVec nx (BlockB eps nx) x i + gamma * (eps * eps) * mulVec nx H x i := by
      unfold mulVec
      rw [mul_sum, ← sum_add_distrib]
      refine sum_congr rfl fun j hj => ?_
      rw [hT i hi j (mem_range.mp hj)]
      ring
    rw [hsplit] at h
    linarith
  have hb := block_estimate eps hnx H hH 0 gamma (le_refl 0) hg0 (by linarith)
    (fun _ => 0) x 0 (fun j _ => by simp) hrow
  intro i hi
  exact abs_eq_zero.mp (le_antisymm (hb i hi) (abs_nonneg _))

theorem solves_congr {n : Nat} {A B : Mat} {b c x y : Vec}
    (hA : ∀ i, i < n → ∀ j, j < n → A i j = B i j) (hb : ∀ i, i < n → b i = c i)
    (hx : ∀ j, j < n → x j = y j) (h : Solves n A b x) : Solves n B c y := by
  intro i hi
  rw [← mulVec_congr hA hx i hi, ← hb i hi]
  exact h i hi

theorem gammaRow_nonneg (ny k : Nat) : 0 ≤ gammaRow ny k := by
  unfold gammaRow; split_ifs <;> norm_num

theorem gammaRow_le_two (ny k : Nat) : gammaRow ny k ≤ 2 := by
  unfold gammaRow; split_ifs <;> norm_num

/-- The entries of `HelpTwo`: `BlockB` plus `eps^2` times the transfer operator of the
row before, twice for the last row. -/
theorem HelpTwo_entry (eps : ℚ) (nx ny k : Nat) (st : FilterState) {i j : Nat} (hi : i < nx)
    (hj : j < nx) :
    HelpTwo eps nx ny k st i j
      = BlockB eps nx i j
        + gammaRow ny k * (eps * eps) * blockRows nx (k - 1) st.HelpOne i j := by
  unfold HelpTwo gammaRow blockRows
  rw [if_pos ⟨hi, hj⟩, BlockA_diag eps hi]
  split_ifs <;> ring

theorem mulVec_HelpTwo (eps : ℚ) (nx ny k : Nat) (st : FilterState) (y : Vec) {i : Nat}
    (hi : i < nx) :
    mulVec nx (HelpTwo eps nx ny k st) y i
      = mulVec nx (BlockB eps nx) y i
        + gammaRow ny k * (eps * eps) * mulVec nx (blockRows nx (k - 1) st.HelpOne) y i := by
  unfold mulVec
  rw [mul_sum, ← sum_add_distrib]
  refine sum_congr rfl fun j hj => ?_
  rw [HelpTwo_entry eps nx ny k st hi (mem_range.mp hj)]
  ring

theorem HelpTwo_nonsingular (eps : ℚ) {nx : Nat} (hnx : 2 ≤ nx) (ny k : Nat)
    (st : FilterState) (hH : NormLeOne nx (blockRows nx (k - 1) st.HelpOne)) :
    Nonsingular nx (HelpTwo eps nx ny k st) :=
  block_nonsingular eps hnx _ hH (gammaRow ny k) (gammaRow_nonneg ny k)
    (gammaRow_le_two ny k) _ (fun _ hi _ hj => HelpTwo_entry eps nx ny k st hi hj)

theorem sum_BlockC (eps : ℚ) {nx i : Nat} (hi : i < nx) (x : Vec) :
    ∑ j in range nx, BlockC eps nx i j * x j = -(eps * eps) * x i := by
  have : ∀ j, BlockC eps nx i j * x j = if j = i then -(eps * eps) * x j else 0 := by
    intro j
    rw [BlockC_entry eps hi]
    split_ifs <;> ring
  simp only [this]
  rw [sum_ite_eq' (range nx) i, if_pos (mem_range.mpr hi)]

theorem normLeOne_zero (nx : Nat) (hnx : 0 < nx) : NormLeOne nx (fun _ _ => 0) := by
  intro x M hx i _
  have hM : 0 ≤ M := le_trans (abs_nonneg _) (hx 0 hnx)
  unfold mulVec
  simpa using hM

/-- The transfer operator of grid row 0 does not increase the largest modulus. -/
theorem normLeOne_first (eps : ℚ) {nx : Nat} (hnx : 2 ≤ nx) (H : Mat)
    (hsol : ∀ j, j < nx →
      Solves nx (BlockB eps nx) (fun i => 2 * BlockC eps nx i j) (fun l => H l j)) :
    NormLeOne nx H := by
  intro x M hx
  apply block_estimate eps hnx (fun _ _ => 0) (normLeOne_zero nx (by omega)) 2 0
    (by norm_num) (le_refl 0) (by norm_num) x (mulVec nx H x) M hx
  intro i hi
  rw [mulVec_mulVec]
  have : ∀ j ∈ range nx, mulVec nx (BlockB eps nx) (fun l => H l j) i * x j
      = 2 * (BlockC eps nx i j * x j) := by
    intro j hj
    rw [hsol j (mem_range.mp hj) i hi]
    ring
  rw [sum_congr rfl this, ← mul_sum, sum_BlockC eps hi]
  ring

/-- The transfer operator of a grid row before the last does not increase the largest
modulus when the one of the row before does not. -/
theorem normLeOne_next (eps : ℚ) {nx : Nat} (hnx : 2 ≤ nx) (ny k : Nat) (st : FilterState)
    (hk : gammaRow ny k = 1) (hprev : NormLeOne nx (blockRows nx (k - 1) st.HelpOne))
    (H : Mat)
    (hsol : ∀ j, j < nx →
      Solves nx (HelpTwo eps nx ny k st) (fun i => BlockC eps nx i j) (fun l => H l j)) :
    NormLeOne nx H := by
  intro x M hx
  apply block_estimate eps hnx _ hprev 1 1 (by norm_num) (by norm_num) (by norm_num) x
    (mulVec nx H x) M hx
  intro i hi
  have h1 := mulVec_HelpTwo eps nx ny k st (mulVec nx H x) hi
  rw [hk, mulVec_mulVec] at h1
  have : ∀ j ∈ range nx, mulVec nx (HelpTwo eps nx ny k st) (fun l => H l j) i * x j
      = BlockC eps nx i j * x j := by
    intro j hj
    rw [hsol j (mem_range.mp hj) i hi]
  rw [sum_congr rfl this, sum_BlockC eps hi] at h1
  linarith

theorem block_lt {nx k m l : Nat} (hk : k ≤ m) (hl : l < nx) : k * nx + l < (m + 1) * nx := by
  have h1 : (k + 1) * nx ≤ (m + 1) * nx := Nat.mul_le_mul_right nx (by omega)
  have h2 : (k + 1) * nx = k * nx + nx := by ring
  omega

theorem filterPass_HelpOne_lt (eps : ℚ) (nx ny : Nat) (f : Vec) (k : Nat) (st : FilterState)
    {r : Nat} (hr : r < k * nx) (j : Nat) :
    (filterPass eps nx ny f k st).HelpOne r j = st.HelpOne r j := by
  unfold filterPass
  simp only []
  rw [if_neg (by omega)]

theorem filterPass_help_lt (eps : ℚ) (nx ny : Nat) (f : Vec) (k : Nat) (st : FilterState)
    {r : Nat} (hr : r < k * nx) : (filterPass eps nx ny f k st).help r = st.help r := by
  unfold filterPass
  simp only []
  rw [if_neg (by omega)]

theorem filterPass_HelpOne_block (eps : ℚ) (nx ny : Nat) (f : Vec) (k : Nat)
    (st : FilterState) {l j : Nat} (hl : l < nx) (hj : j < nx) :
    (filterPass eps nx ny f k st).HelpOne (k * nx + l) j
      = (GaussElimination (HelpTwo eps nx ny k st) (fun i => BlockC eps nx i j) nx).2 l := by
  unfold filterPass
  simp only []
  rw [if_pos ⟨by omega, by omega, hj⟩, Nat.add_sub_cancel_left]

theorem filterPass_help_block (eps : ℚ) (nx ny : Nat) (f : Vec) (k : Nat)
    (st : FilterState) {l : Nat} (hl : l < nx) :
    (filterPass eps nx ny f k st).help (k * nx + l)
      = (GaussElimination (HelpTwo eps nx ny k st)
          (fun i => f (k * nx + i)
            - gammaRow ny k * BlockA eps nx i i * st.help ((k - 1) * nx + i)) nx).2 l := by
  have hrhs : (fun i => if k = ny - 1 then
        f (k * nx + i) - 2 * BlockA eps nx i i * st.help ((k - 1) * nx + i)
      else f (k * nx + i) - BlockA eps nx i i * st.help ((k - 1) * nx + i))
      = fun i => f (k * nx + i)
          - gammaRow ny k * BlockA eps nx i i * st.help ((k - 1) * nx + i) := by
    funext i
    unfold gammaRow
    split_ifs <;> ring
  unfold filterPass
  simp only []
  rw [if_pos ⟨by omega, by omega⟩, Nat.add_sub_cancel_left, hrhs]

/-- The matrix `HelpTwo` of a row already treated is not changed by a later pass. -/
theorem HelpTwo_frame (eps : ℚ) (nx ny : Nat) (f : Vec) (m : Nat) (st : FilterState)
    {k : Nat} (hk1 : 1 ≤ k) (hk : k ≤ m + 1) (i j : Nat) :
    HelpTwo eps nx ny k (filterPass eps nx ny f (m + 1) st) i j
      = HelpTwo eps nx ny k st i j := by
  unfold HelpTwo
  by_cases h : i < nx ∧ j < nx
  · have hlt : (k - 1) * nx + i < (m + 1) * nx := block_lt (by omega) h.1
    rw [if_pos h, if_pos h, filterPass_HelpOne_lt eps nx ny f (m + 1) st hlt]
  · rw [if_neg h, if_neg h]

theorem filterInit_inv (eps : ℚ) {nx : Nat} (hnx : 2 ≤ nx) (ny : Nat) (f : Vec) :
    FilterInv eps nx ny f 0 (filterInit eps nx f) := by
  have hT := BlockB_tridiagonal eps nx
  have hD := BlockB_rowDominant eps hnx
  have hone : ∀ j, j < nx →
      Solves nx (BlockB eps nx) (fun i => 2 * BlockC eps nx i j)
        (fun l => (filterInit eps nx f).HelpOne l j) := by
    intro j hj
    refine solves_congr (fun _ _ _ _ => rfl) (fun _ _ => rfl) (fun l hl => ?_)
      (ThomasAlgorithm_solves hT hD (fun i => 2 * BlockC eps nx i j))
    show _ = if l < nx ∧ j < nx then _ else _
    rw [if_pos ⟨hl, hj⟩]
  refine ⟨hone, ?_, fun k h1 h2 => by omega, fun k h1 h2 => by omega, fun k hk hny => ?_⟩
  · refine solves_congr (fun _ _ _ _ => rfl) (fun _ _ => rfl) (fun l hl => ?_)
      (ThomasAlgorithm_solves hT hD f)
    show _ = if l < nx then _ else _
    rw [if_pos hl]
  · have hk0 : k = 0 := by omega
    subst hk0
    apply normLeOne_first eps hnx
    intro j hj
    refine solves_congr (fun _ _ _ _ => rfl) (fun _ _ => rfl) (fun l _ => ?_) (hone j hj)
    show _ = (filterInit eps nx f).HelpOne (0 * nx + l) j
    rw [Nat.zero_mul, Nat.zero_add]

/-- One pass of the loop over the grid rows keeps the invariant of the buffers. -/
theorem filterPass_inv (eps : ℚ) {nx : Nat} (hnx : 2 ≤ nx) (hnx2 : nx ≤ 32769) (ny : Nat)
    (f : Vec) {m : Nat} (hm : m + 1 < ny) {st : FilterState}
    (h : FilterInv eps nx ny f m st) :
    FilterInv eps nx ny f (m + 1) (filterPass eps nx ny f (m + 1) st) := by
  have hns : Nonsingular nx (HelpTwo eps nx ny (m + 1) st) :=
    HelpTwo_nonsingular eps hnx ny (m + 1) st (h.bound m (le_refl m) hm)
  have hnew : ∀ j, j < nx →
      Solves nx (HelpTwo eps nx ny (m + 1) st) (fun i => BlockC eps nx i j)
        (fun l => (filterPass eps nx ny f (m + 1) st).HelpOne ((m + 1) * nx + l) j) := by
    intro j hj
    refine solves_congr (fun _ _ _ _ => rfl) (fun _ _ => rfl) (fun l hl => ?_)
      (GaussElimination_solves hnx2 hns (fun i => BlockC eps nx i j)).1
    exact (filterPass_HelpOne_block eps nx ny f (m + 1) st hl hj).symm
  refine ⟨fun j hj => ?_, ?_, fun k hk1 hk j hj => ?_, fun k hk1 hk => ?_,
    fun k hk hny => ?_⟩
  · refine solves_congr (fun _ _ _ _ => rfl) (fun _ _ => rfl) (fun l hl => ?_)
      (h.init_one j hj)
    have hlt : l < (m + 1) * nx := by
      have := block_lt (Nat.zero_le m) hl
      simpa using this
    exact (filterPass_HelpOne_lt eps nx ny f (m + 1) st hlt j).symm
  · refine solves_congr (fun _ _ _ _ => rfl) (fun _ _ => rfl) (fun l hl => ?_) h.init_help
    have hlt : l < (m + 1) * nx := by
      have := block_lt (Nat.zero_le m) hl
      simpa using this
    exact (filterPass_help_lt eps nx ny f (m + 1) st hlt).symm
  · rcases Nat.eq_or_lt_of_le hk with hk2 | hk2
    · subst hk2
      exact solves_congr
        (fun i _ j _ => (HelpTwo_frame eps nx ny f m st hk1 (le_refl _) i j).symm)
        (fun _ _ => rfl) (fun _ _ => rfl) (hnew j hj)
    · refine solves_congr
        (fun i _ j _ => (HelpTwo_frame eps nx ny f m st hk1 hk i j).symm)
        (fun _ _ => rfl) (fun l hl => ?_) (h.row_one k hk1 (by omega) j hj)
      exact (filterPass_HelpOne_lt eps nx ny f (m + 1) st (block_lt (by omega) hl) j).symm
  · rcases Nat.eq_or_lt_of_le hk with hk2 | hk2
    · subst hk2
      refine solves_congr
        (fun i _ j _ => (HelpTwo_frame eps nx ny f m st hk1 (le_refl _) i j).symm)
        (fun i hi => ?_) (fun l hl => ?_)
        (GaussElimination_solves hnx2 hns
          (fun i => f ((m + 1) * nx + i)
            - gammaRow ny (m + 1) * BlockA eps nx i i * st.help ((m + 1 - 1) * nx + i))).1
      · show _ = f ((m + 1) * nx + i) - gammaRow ny (m + 1) * BlockA eps nx i i
            * (filterPass eps nx ny f (m + 1) st).help ((m + 1 - 1) * nx + i)
        rw [filterPass_help_lt eps nx ny f (m + 1) st (block_lt (by omega) hi)]
      · exact (filterPass_help_block eps nx ny f (m + 1) st hl).symm
    · refine solves_congr
        (fun i _ j _ => (HelpTwo_frame eps nx ny f m st hk1 hk i j).symm)
        (fun i hi => ?_) (fun l hl => ?_) (h.row_help k hk1 (by omega))
      · show _ = f (k * nx + i) - gammaRow ny k * BlockA eps nx i i
            * (filterPass eps nx ny f (m + 1) st).help ((k - 1) * nx + i)
        rw [filterPass_help_lt eps nx ny f (m + 1) st (block_lt (by omega) hi)]
      · show st.help (k * nx + l) = (filterPass eps nx ny f (m + 1) st).help (k * nx + l)
        exact (filterPass_help_lt eps nx ny f (m + 1) st (block_lt (by omega) hl)).symm
  · rcases Nat.eq_or_lt_of_le hk with hk2 | hk2
    · subst hk2
      have hg : gammaRow ny (m + 1) = 1 := by
        unfold gammaRow
        rw [if_neg (by omega)]
      apply normLeOne_next eps hnx ny (m + 1) st hg (h.bound m (le_refl m) hm)
      intro j hj
      exact hnew j hj
    · intro x M hx i hi
      have hb := h.bound k (by omega) hny x M hx i hi
      have hc : mulVec nx (blockRows nx k (filterPass eps nx ny f (m + 1) st).HelpOne) x i
          = mulVec nx (blockRows nx k st.HelpOne) x i := by
        refine mulVec_congr (fun p hp q _ => ?_) (fun _ _ => rfl) i hi
        show (filterPass eps nx ny f (m + 1) st).HelpOne (k * nx + p) q
          = st.HelpOne (k * nx + p) q
        exact filterPass_HelpOne_lt eps nx ny f (m + 1) st (block_lt (by omega) hp) q
      rw [hc]
      exact hb

/-- The invariant of the buffers holds after the passes `kElem = 1 .. m`. -/
theorem filterPasses_inv (eps : ℚ) {nx : Nat} (hnx : 2 ≤ nx) (hnx2 : nx ≤ 32769) (ny : Nat)
    (f : Vec) : ∀ m, m < ny →
      FilterInv eps nx ny f m (filterPasses eps nx ny f (filterInit eps nx f) m) := by
  intro m
  induction m with
  | zero => intro _; exact filterInit_inv eps hnx ny f
  | succ k ih =>
    intro hk
    exact filterPass_inv eps hnx hnx2 ny f hk (ih (by omega))

theorem mulVec_sub (n : Nat) (M : Mat) (x y : Vec) (i : Nat) :
    mulVec n M (fun l => x l - y l) i = mulVec n M x i - mulVec n M y i := by
  unfold mulVec
  rw [← sum_sub_distrib]
  refine sum_congr rfl fun j _ => ?_
  show M i j * (x j - y j) = M i j * x j - M i j * y j
  ring

theorem filterRow_last (nx ny : Nat) (st : FilterState) :
    filterRow nx ny st (ny - 1) = blockVec nx (ny - 1) st.help := by
  funext i
  unfold filterRow blockVec
  rw [Nat.sub_self, filterBack]

theorem filterRow_rec (nx ny : Nat) (st : FilterState) {k : Nat} (hk : k + 1 < ny) :
    filterRow nx ny st k
      = fun i => blockVec nx k st.help i
          - mulVec nx (blockRows nx k st.HelpOne) (filterRow nx ny st (k + 1)) i := by
  funext i
  unfold filterRow blockVec mulVec blockRows
  rw [show ny - 1 - k = (ny - 2 - k) + 1 by omega, filterBack,
    show ny - 2 - (ny - 2 - k) = k by omega, show ny - 1 - (k + 1) = ny - 2 - k by omega]

/-- The transfer relation read backwards: the operator of row `k` applied to row `k+1`
of the result is the difference of `help` and the result in row `k`. -/
theorem transfer_apply (nx ny : Nat) (st : FilterState) {k : Nat} (hk : k + 1 < ny) (i : Nat) :
    mulVec nx (blockRows nx k st.HelpOne) (filterRow nx ny st (k + 1)) i
      = blockVec nx k st.help i - filterRow nx ny st k i := by
  have h := congrFun (filterRow_rec nx ny st hk) i
  simp only [] at h
  rw [h]
  ring

/-- A solved block applied to the transfer of the next row gives back the coupling. -/
theorem mulVec_transfer (eps : ℚ) {nx : Nat} (T H : Mat) (c : ℚ)
    (hsol : ∀ j, j < nx → Solves nx T (fun i => c * BlockC eps nx i j) (fun l => H l j))
    (x : Vec) {i : Nat} (hi : i < nx) :
    mulVec nx T (mulVec nx H x) i = -(c * (eps * eps)) * x i := by
  rw [mulVec_mulVec]
  have : ∀ j ∈ range nx, mulVec nx T (fun l => H l j) i * x j
      = c * (BlockC eps nx i j * x j) := by
    intro j hj
    rw [hsol j (mem_range.mp hj) i hi]
    show c * BlockC eps nx i j * x j = c * (BlockC eps nx i j * x j)
    ring
  rw [sum_congr rfl this, ← mul_sum, sum_BlockC eps hi]
  ring

/-- The block rows of the result satisfy the block tridiagonal system:
`BlockB*u_k = f_k + eps^2*(vertical neighbours)`. -/
theorem filterRow_block_eq (eps : ℚ) {nx : Nat} {ny : Nat} (hny : 2 ≤ ny)
    (f : Vec) {st : FilterState} (h : FilterInv eps nx ny f (ny - 1) st) {k i : Nat}
    (hk : k < ny) (hi : i < nx) :
    mulVec nx (BlockB eps nx) (filterRow nx ny st k) i
      = f (k * nx + i) + eps * eps * colNeighbours ny (filterRow nx ny st) k i := by
  unfold colNeighbours
  by_cases hk0 : k = 0
  · subst hk0
    rw [if_pos rfl, filterRow_rec nx ny st (show 0 + 1 < ny by omega), mulVec_sub]
    have h1 : mulVec nx (BlockB eps nx) (blockVec nx 0 st.help) i = f i := by
      rw [← h.init_help i hi]
      refine mulVec_congr (fun _ _ _ _ => rfl) (fun l _ => ?_) i hi
      show st.help (0 * nx + l) = st.help l
      rw [Nat.zero_mul, Nat.zero_add]
    have h2 := mulVec_transfer eps (BlockB eps nx) (blockRows nx 0 st.HelpOne) 2
      (fun j hj => solves_congr (fun _ _ _ _ => rfl) (fun _ _ => rfl)
        (fun l _ => by
          show st.HelpOne l j = st.HelpOne (0 * nx + l) j
          rw [Nat.zero_mul, Nat.zero_add]) (h.init_one j hj))
      (filterRow nx ny st (0 + 1)) hi
    rw [h1, h2]
    simp only [Nat.zero_mul, Nat.zero_add]
    ring
  · have hprev := transfer_apply nx ny st (show k - 1 + 1 < ny by omega) i
    rw [show k - 1 + 1 = k by omega] at hprev
    have hT := mulVec_HelpTwo eps nx ny k st (filterRow nx ny st k) hi
    rw [hprev] at hT
    have hhelp : mulVec nx (HelpTwo eps nx ny k st) (blockVec nx k st.help) i
        = f (k * nx + i) - gammaRow ny k * BlockA eps nx i i * st.help ((k - 1) * nx + i) :=
      h.row_help k (by omega) (by omega) i hi
    rw [BlockA_diag eps hi] at hhelp
    have hbv : blockVec nx (k - 1) st.help i = st.help ((k - 1) * nx + i) := rfl
    by_cases hlast : k = ny - 1
    · rw [if_neg hk0, if_pos hlast]
      have hg : gammaRow ny k = 2 := by unfold gammaRow; rw [if_pos hlast]
      have hrow : filterRow nx ny st k = blockVec nx k st.help := by
        rw [hlast]; exact filterRow_last nx ny st
      rw [hrow] at hT ⊢
      rw [hhelp, hg, hbv] at hT
      rw [show ny - 2 = k - 1 by omega]
      linarith
    · rw [if_neg hk0, if_neg hlast]
      have hg : gammaRow ny k = 1 := by unfold gammaRow; rw [if_neg hlast]
      have hk1 : k + 1 < ny := by omega
      have hone := mulVec_transfer eps (HelpTwo eps nx ny k st) (blockRows nx k st.HelpOne) 1
        (fun j hj => solves_congr (fun _ _ _ _ => rfl) (fun _ _ => by simp)
          (fun _ _ => rfl) (h.row_one k (by omega) (by omega) j hj))
        (filterRow nx ny st (k + 1)) hi
      have hsplit : mulVec nx (HelpTwo eps nx ny k st) (filterRow nx ny st k) i
          = mulVec nx (HelpTwo eps nx ny k st) (blockVec nx k st.help) i
            - mulVec nx (HelpTwo eps nx ny k st)
                (mulVec nx (blockRows nx k st.HelpOne) (filterRow nx ny st (k + 1))) i := by
        rw [filterRow_rec nx ny st hk1, mulVec_sub]
      rw [hsplit, hhelp, hone, hg, hbv] at hT
      linarith

theorem filterResult_entry (nx ny : Nat) (st : FilterState) (result0 : Vec) {k i : Nat}
    (hk : k < ny) (hi : i < nx) :
    filterResult nx ny st result0 (k * nx + i) = filterRow nx ny st k i := by
  have hlt : k * nx + i < nx * ny := by
    have := block_lt (show k ≤ ny - 1 by omega) hi
    rw [show ny - 1 + 1 = ny by omega, Nat.mul_comm ny nx] at this
    exact this
  have hdiv : (k * nx + i) / nx = k := by
    rw [Nat.mul_comm k nx, Nat.mul_add_div (by omega), Nat.div_eq_of_lt hi, Nat.add_zero]
  have hmod : (k * nx + i) % nx = i := by
    rw [Nat.mul_comm k nx, Nat.mul_add_mod, Nat.mod_eq_of_lt hi]
  unfold filterResult filterRow
  rw [if_pos hlt, hdiv, hmod]

/-- The left-hand side of the Helmholtz equation in terms of the grid rows of a field. -/
theorem helmholtzLhs_rows (eps : ℚ) {nx ny : Nat} (hnx : 2 ≤ nx) (hny : 2 ≤ ny) (u : Vec)
    (U : Nat → Vec) (hu : ∀ k i, k < ny → i < nx → u (k * nx + i) = U k i) {k i : Nat}
    (hk : k < ny) (hi : i < nx) :
    helmholtzLhs eps nx ny u k i
      = (4 * eps * eps + 1) * U k i
        - eps * eps * (rowNeighbours nx (U k) i + colNeighbours ny U k i) := by
  have hrow : (if i = 0 then 2 * u (k * nx + 1)
      else if i = nx - 1 then 2 * u (k * nx + (nx - 2))
      else u (k * nx + (i - 1)) + u (k * nx + (i + 1))) = rowNeighbours nx (U k) i := by
    unfold rowNeighbours
    split_ifs with h0 h1
    · rw [hu k 1 hk (by omega)]
    · rw [hu k (nx - 2) hk (by omega)]
    · rw [hu k (i - 1) hk (by omega), hu k (i + 1) hk (by omega)]
  have hcol : (if k = 0 then 2 * u (1 * nx + i)
      else if k = ny - 1 then 2 * u ((ny - 2) * nx + i)
      else u ((k - 1) * nx + i) + u ((k + 1) * nx + i)) = colNeighbours ny U k i := by
    unfold colNeighbours
    split_ifs with h0 h1
    · rw [hu 1 i (by omega) hi]
    · rw [hu (ny - 2) i (by omega) hi]
    · rw [hu (k - 1) i (by omega) hi, hu (k + 1) i (by omega) hi]
  unfold helmholtzLhs
  rw [hrow, hcol, hu k i hk hi]
  ring

/-- Below the sizes at which the 16-bit counters wrap, `DensityFiltering` returns and
the field it leaves in `UpdateSens` solves the discrete Helmholtz system with doubled
edge coupling for the field it was given. -/
theorem DensityFiltering_helmholtz (nElem : Nat) (config : CConfig) (s : CDiscAdjFEASolver)
    (hnx : 2 ≤ config.Nx) (hnx2 : config.Nx ≤ 32769) (hny : 2 ≤ config.Ny)
    (hny2 : config.Ny ≤ 65535) (hN : config.Nx * config.Ny = nElem) :
    ∃ s1, DensityFiltering nElem config s = some s1 ∧
      ∀ k i, k < config.Ny → i < config.Nx →
        helmholtzLhs config.HelmholtzFactor config.Nx config.Ny s1.UpdateSens k i
          = s.UpdateSens (k * config.Nx + i) := by
  unfold DensityFiltering
  rw [filterRows_some _ _ _ _ _ (by omega) hny2, Option.map_some']
  refine ⟨_, rfl, ?_⟩
  intro k i hk hi
  have hinv := filterPasses_inv config.HelmholtzFactor hnx hnx2 config.Ny
    (filterInput nElem s) (config.Ny - 1) (by omega)
  have hidx : ∀ k1 i1, k1 < config.Ny → i1 < config.Nx → k1 * config.Nx + i1 < nElem := by
    intro k1 i1 h1 h2
    have := block_lt (show k1 ≤ config.Ny - 1 by omega) h2
    rw [show config.Ny - 1 + 1 = config.Ny by omega, Nat.mul_comm config.Ny config.Nx,
      hN] at this
    exact this
  have hf : filterInput nElem s (k * config.Nx + i) = s.UpdateSens (k * config.Nx + i) := by
    unfold filterInput
    rw [writeRange_lt _ _ (hidx k i hk hi)]
  have hblock := filterRow_block_eq config.HelmholtzFactor hny (filterInput nElem s) hinv hk hi
  rw [mulVec_BlockB config.HelmholtzFactor hnx _ hi, hf] at hblock
  rw [helmholtzLhs_rows config.HelmholtzFactor hnx hny _
    (filterRow config.Nx config.Ny
      (filterPasses config.HelmholtzFactor config.Nx config.Ny (filterInput nElem s)
        (filterInit config.HelmholtzFactor config.Nx (filterInput nElem s))
        (config.Ny - 1)))
    (fun k1 i1 h1 h2 => by
      show writeRange nElem _ s.UpdateSens (k1 * config.Nx + i1) = _
      rw [writeRange_lt _ _ (hidx k1 i1 h1 h2), filterResult_entry _ _ _ _ h1 h2]) hk hi]
  linear_combination hblock

/-- C1 (counterexample): with one element, `Lagrangian_Value = Lagrangian_Value_Old = 0`,
`DesignVarUpdate[0] = 1` and `Lagrange_Sens_Old[0] = 1`, `CheckFirstWolfe` returns false
(accepts) although `sum_i DesignVarUpdate[i]*Lagrange_Sens_Old[i] = 1 > 0`. -/
theorem CheckFirstWolfe_accepts_ascent :
    (CheckFirstWolfe 1 ascentState 1).1 = false ∧
      ¬ (∑ i in range 1, ascentState.DesignVarUpdate i * ascentState.Lagrange_Sens_Old i ≤ 0) := by
  constructor
  · simp [CheckFirstWolfe, ascentState, CDiscAdjFEASolver.construct]
  · simp [ascentState]

/-- C1 (amended): whenever `CheckFirstWolfe` returns false, the Lagrangian satisfies the
sufficient-decrease bound `Lagrangian_Value - Lagrangian_Value_Old <= 1e-4 * h` with
`h = sum_i DesignVarUpdate[i]*Lagrange_Sens_Old[i]`; hence an accepted update that is
non-ascent (`h <= 0`) does not increase the Lagrangian, and an accepted update that
increases the Lagrangian has `h > 0`. -/
theorem CheckFirstWolfe_accept_bound (nElem : Nat) (s : CDiscAdjFEASolver) (steplen : ℚ)
    (hacc : (CheckFirstWolfe nElem s steplen).1 = false) :
    s.Lagrangian_Value - s.Lagrangian_Value_Old
        ≤ 1 / 10000 * ∑ i in range nElem, s.DesignVarUpdate i * s.Lagrange_Sens_Old i ∧
    ((∑ i in range nElem, s.DesignVarUpdate i * s.Lagrange_Sens_Old i) ≤ 0 →
      s.Lagrangian_Value ≤ s.Lagrangian_Value_Old) ∧
    (s.Lagrangian_Value_Old < s.Lagrangian_Value →
      0 < ∑ i in range nElem, s.DesignVarUpdate i * s.Lagrange_Sens_Old i) := by
  have hb : s.Lagrangian_Value ≤ s.Lagrangian_Value_Old
      + 1 / 10000 * ∑ i in range nElem, s.DesignVarUpdate i * s.Lagrange_Sens_Old i := by
    by_contra hcon
    unfold CheckFirstWolfe at hacc
    simp only [if_neg hcon] at hacc
    split_ifs at hacc
  refine ⟨by linarith, fun h => by linarith, fun h => by linarith⟩

/-- C1 (witness): the amended bound at the accepted one-element state. -/
theorem CheckFirstWolfe_accept_bound_witness :
    (CheckFirstWolfe 1 ascentState 1).1 = false ∧
    ascentState.Lagrangian_Value - ascentState.Lagrangian_Value_Old
        ≤ 1 / 10000 * ∑ i in range 1, ascentState.DesignVarUpdate i * ascentState.Lagrange_Sens_Old i :=
  have hacc : (CheckFirstWolfe 1 ascentState 1).1 = false := by
    simp [CheckFirstWolfe, ascentState, CDiscAdjFEASolver.construct]
  ⟨hacc, (CheckFirstWolfe_accept_bound 1 ascentState 1 hacc).1⟩

/-- C2 (failing input): with `N = 4`, the constructor's identity `Hess`,
`ExtIter = 0 <= OneShotStart` and `Lagrange_Sens = [1,0,0,0]`, `BFGSUpdateProjected`
leaves `Hess` the identity and `UpdateSens = [-4,0,0,0]`, while the negated
Hessian-vector product is `[-1,0,0,0]`. -/
theorem BFGSUpdateProjected_unit_gradient :
    (∀ i, i < 4 → ∀ j, j < 4 →
      (BFGSUpdateProjected 4 sampleConfig 0 unitGradientState).Hess i j = identityMat i j) ∧
    (BFGSUpdateProjected 4 sampleConfig 0 unitGradientState).UpdateSens 0 = -4 ∧
    (∀ i, 0 < i → i < 4 →
      (BFGSUpdateProjected 4 sampleConfig 0 unitGradientState).UpdateSens i = 0) ∧
    -mulVec 4 (BFGSUpdateProjected 4 sampleConfig 0 unitGradientState).Hess
        unitGradientState.Lagrange_Sens 0 = -1 := by
  refine ⟨fun i _ j _ => ?_, ?_, fun i hi0 hi => ?_, ?_⟩
  · simp [BFGSUpdateProjected, bfgsHess, sampleConfig, unitGradientState,
      CDiscAdjFEASolver.construct]
  · simp [BFGSUpdateProjected, writeRange, unitGradientState]
  · have hne : i ≠ 0 := Nat.pos_iff_ne_zero.mp hi0
    simp [BFGSUpdateProjected, writeRange, unitGradientState, hi, hne]
  · simp [BFGSUpdateProjected, bfgsHess, sampleConfig, unitGradientState,
      CDiscAdjFEASolver.construct, mulVec, identityMat, sum_range_succ]

/-- The direction written by the last loop of `BFGSUpdateProjected` for any state:
`UpdateSens[i] = -(N * Lagrange_Sens[i])`, whatever `Hess` holds. -/
theorem BFGSUpdateProjected_UpdateSens (nElem : Nat) (config : CConfig) (ExtIter : Nat)
    (s : CDiscAdjFEASolver) (i : Nat) (hi : i < nElem) :
    (BFGSUpdateProjected nElem config ExtIter s).UpdateSens i
      = -((nElem : ℚ) * s.Lagrange_Sens i) := by
  simp [BFGSUpdateProjected, writeRange, hi]

/-- C3 (counterexample): one element, `Hess = 1`, `rk = 2`, `duk = 1` (so `rk·duk = 2 > 0`)
and `ExtIter = 1 > OneShotStart = 0`: the updated `Hess` is `1/2`, and applied to `duk`
it gives `1/2`, not `rk = 2`. -/
theorem BFGSUpdateProjected_secant_fails :
    sampleConfig.OneShotStart < 1 ∧
    0 < ∑ i in range 1,
      (secantState.Lagrange_Sens i - secantState.Lagrange_Sens_Old i) * secantState.DesignVarUpdate i ∧
    mulVec 1 (BFGSUpdateProjected 1 sampleConfig 1 secantState).Hess secantState.DesignVarUpdate 0
      = 1 / 2 ∧
    mulVec 1 (BFGSUpdateProjected 1 sampleConfig 1 secantState).Hess secantState.DesignVarUpdate 0
      ≠ secantState.Lagrange_Sens 0 - secantState.Lagrange_Sens_Old 0 := by
  have h : mulVec 1 (BFGSUpdateProjected 1 sampleConfig 1 secantState).Hess
      secantState.DesignVarUpdate 0 = 1 / 2 := by
    simp [BFGSUpdateProjected, bfgsHess, bfgsEntry, writeBlock, sampleConfig, secantState,
      CDiscAdjFEASolver.construct, mulVec, identityMat]
    norm_num
  refine ⟨by simp [sampleConfig], ?_, h, ?_⟩
  · simp [secantState, CDiscAdjFEASolver.construct]
  · rw [h]
    simp [secantState, CDiscAdjFEASolver.construct]
    norm_num

/-- C3 (amended): for every `Hess` and every pair `rk = Lagrange_Sens - Lagrange_Sens_Old`,
`duk = DesignVarUpdate` with `rk·duk > 0` and `ExtIter > OneShotStart`, the `Hess` produced
by `BFGSUpdateProjected`, applied to `rk`, reproduces `duk`:
`sum_j Hess'[i][j]*rk[j] = duk[i]` for every `i < N` (the inverse secant equation). -/
theorem BFGSUpdateProjected_inverse_secant (nElem : Nat) (config : CConfig) (ExtIter : Nat)
    (s : CDiscAdjFEASolver) (hIter : config.OneShotStart < ExtIter)
    (hvk : 0 < ∑ i in range nElem,
      (s.Lagrange_Sens i - s.Lagrange_Sens_Old i) * s.DesignVarUpdate i)
    (i : Nat) (hi : i < nElem) :
    ∑ j in range nElem, (BFGSUpdateProjected nElem config ExtIter s).Hess i j
        * (s.Lagrange_Sens j - s.Lagrange_Sens_Old j)
      = s.DesignVarUpdate i := by
  have hH : (BFGSUpdateProjected nElem config ExtIter s).Hess
      = writeBlock nElem
          (bfgsEntry s.Hess
            (mulVec nElem s.Hess (fun i => s.Lagrange_Sens i - s.Lagrange_Sens_Old i))
            (fun i => s.DesignVarUpdate i)
            (dot nElem (fun i => s.Lagrange_Sens i - s.Lagrange_Sens_Old i)
              (fun i => s.DesignVarUpdate i))
            (dot nElem (fun i => s.Lagrange_Sens i - s.Lagrange_Sens_Old i)
              (mulVec nElem s.Hess (fun i => s.Lagrange_Sens i - s.Lagrange_Sens_Old i))))
          s.Hess := by
    show bfgsHess nElem config ExtIter s = _
    unfold bfgsHess
    simp only [gt_iff_lt, hIter, if_true, hvk]
    rfl
  rw [hH]
  have h1 := mulVec_writeBlock
    (bfgsEntry s.Hess
      (mulVec nElem s.Hess (fun i => s.Lagrange_Sens i - s.Lagrange_Sens_Old i))
      (fun i => s.DesignVarUpdate i)
      (dot nElem (fun i => s.Lagrange_Sens i - s.Lagrange_Sens_Old i)
        (fun i => s.DesignVarUpdate i))
      (dot nElem (fun i => s.Lagrange_Sens i - s.Lagrange_Sens_Old i)
        (mulVec nElem s.Hess (fun i => s.Lagrange_Sens i - s.Lagrange_Sens_Old i))))
    s.Hess (fun i => s.Lagrange_Sens i - s.Lagrange_Sens_Old i) hi
  have h2 := bfgsEntry_secant nElem s.Hess
    (fun i => s.Lagrange_Sens i - s.Lagrange_Sens_Old i) (fun i => s.DesignVarUpdate i) hvk i
  exact h1.trans h2

/-- C3 (witness): the inverse secant equation at the one-element state with `rk = 2`,
`duk = 1`. -/
theorem BFGSUpdateProjected_inverse_secant_witness :
    ∑ j in range 1, (BFGSUpdateProjected 1 sampleConfig 1 secantState).Hess 0 j
        * (secantState.Lagrange_Sens j - secantState.Lagrange_Sens_Old j)
      = secantState.DesignVarUpdate 0 :=
  BFGSUpdateProjected_inverse_secant 1 sampleConfig 1 secantState
    (by simp [sampleConfig])
    (by simp [secantState, CDiscAdjFEASolver.construct])
    0 (by decide)

/-- C5: for every density field, candidate direction, target fraction and step length
`step != 0`, after `VolumeProjection(step)` followed by `DesignUpdateProjected(step)`
every entry of `Density` lies in `[0,1]`, whether or not the root finder converged. -/
theorem VolumeProjection_box (nElem : Nat) (config : CConfig) (s : CDiscAdjFEASolver)
    (steplen : ℚ) (hstep : steplen ≠ 0) (i : Nat) (hi : i < nElem) :
    0 ≤ (DesignUpdateProjected nElem (VolumeProjection nElem config s steplen) steplen).Density i ∧
    (DesignUpdateProjected nElem (VolumeProjection nElem config s steplen) steplen).Density i ≤ 1 := by
  have h : (DesignUpdateProjected nElem (VolumeProjection nElem config s steplen) steplen).Density i
      = clip (s.Density i + steplen * s.UpdateSens i) (brentFinal nElem config s steplen).b := by
    rw [← VolumeProjection_point nElem config s steplen hstep i hi]
    unfold DesignUpdateProjected
    simp only []
    rw [writeRange_lt _ _ hi, writeRange_lt _ _ hi]
    show s.Density i + _ = _
    ring
  rw [h]
  exact ⟨clip_nonneg _ _, clip_le_one _ _⟩

/-- C5 (witness): the first entry of the projected design for the field
`[0.2, 0.8, 0.3, 0.7]` with step `1`. -/
theorem VolumeProjection_box_witness :
    0 ≤ (DesignUpdateProjected 4 (VolumeProjection 4 sampleConfig scenarioState 1) 1).Density 0 ∧
    (DesignUpdateProjected 4 (VolumeProjection 4 sampleConfig scenarioState 1) 1).Density 0 ≤ 1 :=
  VolumeProjection_box 4 sampleConfig scenarioState 1 (by norm_num) 0 (by norm_num)

/-- C6 (counterexample): for `Density = [1.5, 1.5, 1, 1]`, a zero direction, step `1`,
target fraction `0.49` and `StepTolerance = 0.01` the root finder reports convergence, and
the projected field sums to `1.96 + 5003/499550`, more than `0.01` away from
`N*target = 1.96`. -/
theorem VolumeProjection_sum_off_tolerance :
    0 < steepConfig.VolumeConstraint ∧ steepConfig.VolumeConstraint < 1 ∧
    (brentFinal 4 steepConfig steepState 1).found = true ∧
    ¬ |(∑ i in range 4,
          (steepState.Density i + 1 * (VolumeProjection 4 steepConfig steepState 1).UpdateSens i))
        - (4 : ℕ) * steepConfig.VolumeConstraint| ≤ steepConfig.StepTolerance := by
  refine ⟨by norm_num [steepConfig, sampleConfig], by norm_num [steepConfig, sampleConfig],
    steep_final.1, ?_⟩
  rw [VolumeProjection_defect 4 steepConfig steepState 1 (by norm_num), steep_final.2]
  norm_num [steepConfig, sampleConfig, abs_of_pos]

/-- C6 (amended): for every input field `y = Density + step*UpdateSens` (`step != 0`) and
every target fraction in `[0,1]`, when the root finder of `VolumeProjection` stops with
`found` set, the projected field `z_i = Density[i] + step*UpdateSens'[i]` has
`sum_i z_i = N*target` exactly or `|sum_i z_i - N*target| <= N*(tol + 4*EPS*|lambda|)`,
with `tol` the configured `StepTolerance` and `lambda` the final shift (the tolerance
bounds the bracket of the shift, not the sum).  For `y = [0.2, 0.8, 0.3, 0.7]`, `N = 4`,
target `0.5` (tolerance `0.001`) the sum is exactly `2`. -/
theorem VolumeProjection_sum_bound :
    (∀ (nElem : Nat) (config : CConfig) (s : CDiscAdjFEASolver) (steplen : ℚ),
      steplen ≠ 0 → 0 ≤ config.VolumeConstraint → config.VolumeConstraint ≤ 1 →
      (brentFinal nElem config s steplen).found = true →
      (∑ i in range nElem,
          (s.Density i + steplen * (VolumeProjection nElem config s steplen).UpdateSens i))
        = (nElem : ℚ) * config.VolumeConstraint ∨
      |(∑ i in range nElem,
          (s.Density i + steplen * (VolumeProjection nElem config s steplen).UpdateSens i))
        - (nElem : ℚ) * config.VolumeConstraint|
        ≤ (nElem : ℚ) * (config.StepTolerance
            + 4 * EPS * |(brentFinal nElem config s steplen).b|)) ∧
    (∑ i in range 4,
        (scenarioState.Density i
          + 1 * (VolumeProjection 4 sampleConfig scenarioState 1).UpdateSens i)) = 2 := by
  constructor
  · intro nElem config s steplen hstep h0 h1 hfound
    rw [VolumeProjection_defect nElem config s steplen hstep]
    rcases brentFinal_bound nElem config s steplen h0 h1 hfound with hz | hb
    · left
      have := VolumeProjection_defect nElem config s steplen hstep
      rw [hz] at this
      linarith
    · exact Or.inr hb
  · have h := VolumeProjection_defect 4 sampleConfig scenarioState 1 (by norm_num)
    rw [scenario_final.2.2] at h
    have ht : ((4 : ℕ) : ℚ) * sampleConfig.VolumeConstraint = 2 := by
      norm_num [sampleConfig]
    linarith

/-- C6 (witness): the bound at the field `[0.2, 0.8, 0.3, 0.7]` with target `0.5`, where
the root finder stops with `found` set. -/
theorem VolumeProjection_sum_bound_witness :
    (brentFinal 4 sampleConfig scenarioState 1).found = true ∧
    ((∑ i in range 4,
          (scenarioState.Density i
            + 1 * (VolumeProjection 4 sampleConfig scenarioState 1).UpdateSens i))
        = ((4 : ℕ) : ℚ) * sampleConfig.VolumeConstraint ∨
      |(∑ i in range 4,
          (scenarioState.Density i
            + 1 * (VolumeProjection 4 sampleConfig scenarioState 1).UpdateSens i))
        - ((4 : ℕ) : ℚ) * sampleConfig.VolumeConstraint|
        ≤ ((4 : ℕ) : ℚ) * (sampleConfig.StepTolerance
            + 4 * EPS * |(brentFinal 4 sampleConfig scenarioState 1).b|)) :=
  ⟨scenario_final.1,
    VolumeProjection_sum_bound.1 4 sampleConfig scenarioState 1 (by norm_num)
      (by norm_num [sampleConfig]) (by norm_num [sampleConfig]) scenario_final.1⟩

/-- C7 (failing input): on a grid of 65536 rows (any `nx`, any `eps`, any field) the
16-bit row counter of `DensityFiltering` wraps to `0` before it reaches `nElemy`, and
the pass with `kElem = 0` indexes `HelpOne` outside the buffer: no field `u` is
produced. -/
theorem DensityFiltering_tall_grid (eps : ℚ) (nx : Nat) (s : CDiscAdjFEASolver) :
    DensityFiltering (nx * 65536) (tallConfig eps nx) s = none :=
  DensityFiltering_wrap (nx * 65536) (tallConfig eps nx) s (by norm_num [tallConfig])

/-- C8 (failing input): with `eps = 0`, two columns and 65536 rows (`N = 131072`) the
loop over the grid rows of `DensityFiltering` does not end with a result, so
`UpdateSens` is not returned unchanged. -/
theorem DensityFiltering_zero_tall_grid (s : CDiscAdjFEASolver) :
    (tallConfig 0 2).HelmholtzFactor = 0 ∧
    DensityFiltering 131072 (tallConfig 0 2) s ≠ some s := by
  refine ⟨rfl, ?_⟩
  rw [DensityFiltering_wrap 131072 (tallConfig 0 2) s (by norm_num [tallConfig])]
  simp

/-- C9 (failing input): on a 1x1 grid with `eps = 1` and input value `1`, the set-up
loop of `DensityFiltering` writes `BlockB[0][1] = -2` (column `1` of a block with one
column), `ThomasAlgorithm` divides the value by `BlockB[0][0] = 5`, and `UpdateSens[0]`
is `1/5` after the call, not `1`. -/
theorem DensityFiltering_one_cell :
    BlockB 1 1 0 1 = -2 ∧
    (∃ s1, DensityFiltering 1 (oneCellConfig 1) (oneCellState 1) = some s1 ∧
      s1.UpdateSens 0 = 1 / 5) := by
  constructor
  · norm_num [BlockB]
  · unfold DensityFiltering
    rw [filterRows_exit _ _ _ _ _ _ _ (by norm_num) (by norm_num [oneCellConfig]),
      Option.map_some']
    refine ⟨_, rfl, ?_⟩
    norm_num [writeRange, filterInput, filterResult, filterBack, filterInit, ThomasAlgorithm,
      thomasBack, thomasHelp, BlockB, oneCellConfig, oneCellState]

/-- What `DensityFiltering` returns on a 1x1 grid for every `eps` and input value `f`:
`UpdateSens[0] = f / (4*eps*eps + 1)`. -/
theorem DensityFiltering_one_cell_value (eps f : ℚ) :
    ∃ s1, DensityFiltering 1 (oneCellConfig eps) (oneCellState f) = some s1 ∧
      s1.UpdateSens 0 = f / (4 * eps * eps + 1) := by
  unfold DensityFiltering
  rw [filterRows_exit _ _ _ _ _ _ _ (by norm_num) (by norm_num [oneCellConfig]),
    Option.map_some']
  refine ⟨_, rfl, ?_⟩
  norm_num [writeRange, filterInput, filterResult, filterBack, filterInit, ThomasAlgorithm,
    thomasBack, thomasHelp, BlockB, oneCellConfig, oneCellState]

/-- C10 (failing input): for `n = 32770`, the nonsingular matrix that is the identity
plus the entry `A[0][32769] = 1`, and `b` with the single entry `b[32769] = 1`,
`GaussElimination` returns `b` as it was (the inner backward loop for column `32769`
starts at `(short)32768 = -32768` and does not run); row `0` of `A*x` is then `1`
while the original `b[0]` is `0`. -/
theorem GaussElimination_wide_system :
    Nonsingular 32770 wideMatrix ∧
    (GaussElimination wideMatrix wideRhs 32770).2 32769 = 1 ∧
    (GaussElimination wideMatrix wideRhs 32770).2 0 = 0 ∧
    mulVec 32770 wideMatrix (GaussElimination wideMatrix wideRhs 32770).2 0 = 1 ∧
    wideRhs 0 = 0 := by
  rw [GaussElimination_wide, mulVec_wideMatrix_zero]
  refine ⟨wideMatrix_nonsingular, ?_, ?_, ?_, ?_⟩ <;> simp [wideRhs]

theorem sum_unitVec_mul {n : Nat} (hn : 0 < n) (c : ℚ) (f : Vec) :
    ∑ i in range n, unitVec c i * f i = c * f 0 := by
  rw [Finset.sum_eq_single 0]
  · simp [unitVec]
  · intro b _ hb
    simp [unitVec, hb]
  · intro h
    exact absurd (Finset.mem_range.mpr hn) h

theorem sum_mul_unitVec {n : Nat} (hn : 0 < n) (c : ℚ) (f : Vec) :
    ∑ i in range n, f i * unitVec c i = f 0 * c := by
  rw [Finset.sum_eq_single 0]
  · simp [unitVec]
  · intro b _ hb
    simp [unitVec, hb]
  · intro h
    exact absurd (Finset.mem_range.mpr hn) h

/-- The inverse update for a gradient difference along the first coordinate. -/
theorem secantEntry_unitVec {n : Nat} (hn : 0 < n) (H : Mat) (r : ℚ) (duk : Vec) (vk : ℚ)
    (i j : Nat) :
    secantEntry n H (unitVec r) duk vk i j
      = H i j + 1 / vk * duk i * duk j
        + (-(1 / vk) * duk i * H j 0 * r - 1 / vk * duk j * H i 0 * r
          + 1 / vk * (1 / vk) * duk i * duk j * r * H 0 0 * r) := by
  have hin : ∀ k, (∑ l in range n,
      1 / vk * (1 / vk) * duk i * duk j * unitVec r l * H l k * unitVec r k)
      = 1 / vk * (1 / vk) * duk i * duk j * r * H 0 k * unitVec r k := by
    intro k
    have e : ∀ l, 1 / vk * (1 / vk) * duk i * duk j * unitVec r l * H l k * unitVec r k
        = unitVec r l * (1 / vk * (1 / vk) * duk i * duk j * H l k * unitVec r k) := by
      intro l; ring
    simp only [e]
    rw [sum_unitVec_mul hn]
    ring
  have hout : ∀ k, (-(1 / vk) * duk i * H j k * unitVec r k
      - 1 / vk * duk j * H i k * unitVec r k
      + 1 / vk * (1 / vk) * duk i * duk j * r * H 0 k * unitVec r k)
      = (-(1 / vk) * duk i * H j k - 1 / vk * duk j * H i k
          + 1 / vk * (1 / vk) * duk i * duk j * r * H 0 k) * unitVec r k := by
    intro k; ring
  unfold secantEntry
  simp only [hin, hout]
  rw [sum_mul_unitVec hn]
  ring

/-- With `LBFGSNum = 0` the cap of `maxCount` is `BFGSCount`. -/
theorem lbfgsMaxCount_zero (config : CConfig) (h : config.LBFGSNum = 0) (c : Nat)
    (hc : c < 2 ^ 64 - 1) : lbfgsMaxCount config c = c := by
  unfold lbfgsMaxCount
  simp only [h, Nat.zero_add]
  rw [Nat.mod_eq_of_lt (by norm_num), if_pos hc]

/-- With `1 <= LBFGSNum < 2^64` the local `maxCount` is `min (LBFGSNum - 1) BFGSCount`. -/
theorem lbfgsMaxCount_pos (config : CConfig) (h1 : 1 ≤ config.LBFGSNum)
    (h2 : config.LBFGSNum < 2 ^ 64) (c : Nat) :
    lbfgsMaxCount config c = min (config.LBFGSNum - 1) c := by
  unfold lbfgsMaxCount
  have e : (config.LBFGSNum + (2 ^ 64 - 1)) % 2 ^ 64 = config.LBFGSNum - 1 := by
    have : config.LBFGSNum + (2 ^ 64 - 1) = (config.LBFGSNum - 1) + 2 ^ 64 := by omega
    rw [this, Nat.add_mod_right, Nat.mod_eq_of_lt (by omega)]
  simp only [e]
  split_ifs with hlt
  · exact (min_eq_right (le_of_lt hlt)).symm
  · exact (min_eq_left (not_lt.mp hlt)).symm

/-- After the upward shift every row up to `m` holds the old row `0`. -/
theorem shiftStore_smear (S : Mat) (m : Nat) :
    ∀ k, k ≤ m → ∀ i, i < 38 → shiftStore S m k i = S 0 i := by
  induction m with
  | zero =>
    intro k hk i _
    have : k = 0 := by omega
    subst this
    rfl
  | succ n ih =>
    intro k hk i hi
    show (if k = n + 1 ∧ i < 38 then shiftStore S n n i else shiftStore S n k i) = S 0 i
    by_cases h : k = n + 1
    · rw [if_pos ⟨h, hi⟩]
      exact ih n (le_refl n) i hi
    · rw [if_neg (fun hh => h hh.1)]
      exact ih k (by omega) i hi

/-- The state left by the limited-memory branch. -/
theorem updateHess_lbfgs (sqrt : ℚ → ℚ) (config : CConfig) (ExtIter : Nat) (s : CDiscAdjSolver)
    (hext : ExtIter > config.OneShotStart) (hd : config.DampedBFGS = false)
    (hl : config.LBFGS = true)
    (hvk : s.vk > 0 ∧ (|s.vk| > 1 / 1000 ∨ config.CheckVk = false)) :
    CDiscAdjSolver.updateHess sqrt config ExtIter s
      = { s with
          rkStore := storePair (shiftStore s.rkStore (lbfgsMaxCount config s.BFGSCount))
            (lbfgsMaxCount config s.BFGSCount) (fun i => s.ProjectedSens i - s.ProjectedSensOld i)
          dukStore := storePair (shiftStore s.dukStore (lbfgsMaxCount config s.BFGSCount))
            (lbfgsMaxCount config s.BFGSCount) (fun i => s.DesignVarUpdate i)
          Hess :=
            lbfgsReplay
              (storePair (shiftStore s.rkStore (lbfgsMaxCount config s.BFGSCount))
                (lbfgsMaxCount config s.BFGSCount)
                (fun i => s.ProjectedSens i - s.ProjectedSensOld i))
              (storePair (shiftStore s.dukStore (lbfgsMaxCount config s.BFGSCount))
                (lbfgsMaxCount config s.BFGSCount) (fun i => s.DesignVarUpdate i))
              (writeBlock 38
                (resetEntry config.HInit
                  (s.vk / ∑ i in range 38,
                    (s.ProjectedSens i - s.ProjectedSensOld i)
                      * (s.ProjectedSens i - s.ProjectedSensOld i)))
                s.Hess)
              (lbfgsMaxCount config s.BFGSCount + 1)
          BFGSCount := s.BFGSCount + 1 } := by
  unfold CDiscAdjSolver.vk at hvk
  unfold CDiscAdjSolver.updateHess
  simp only [if_pos hext, hd, if_pos hvk, hl, if_true]
  simp [CDiscAdjSolver.vk]

/-- After the upward shift and the store of the new pair, every row below `maxCount`
holds what row `0` held before the call. -/
theorem storePair_shiftStore_row (S : Mat) (v : Vec) {maxCount k : Nat} (hk : k < maxCount)
    {i : Nat} (hi : i < 38) : storePair (shiftStore S maxCount) maxCount v k i = S 0 i := by
  unfold storePair
  rw [if_neg (by omega)]
  exact shiftStore_smear S maxCount k (le_of_lt hk) i hi

/-- The accumulated `sBs` is the quadratic form of `Bess` at `duk`. -/
theorem curvatureB_eq_quadForm (n : Nat) (Bess : Mat) (duk : Vec) :
    curvatureB n Bess duk = quadForm n Bess duk := by
  unfold curvatureB quadForm dot mulVec
  refine Finset.sum_congr rfl (fun i _ => ?_)
  rw [Finset.mul_sum]
  exact Finset.sum_congr rfl (fun j _ => by ring)

/-- The curvature recomputed from the damped gradient difference:
`vknew = theta*vk + (1 - theta)*sBs`. -/
theorem dampedRk_dot (n : Nat) (Bess : Mat) (rk duk : Vec) (theta : ℚ) :
    (∑ i in range n, dampedRk n Bess rk duk theta i * duk i)
      = theta * (∑ i in range n, rk i * duk i) + (1 - theta) * curvatureB n Bess duk := by
  unfold dampedRk curvatureB
  rw [Finset.mul_sum, Finset.mul_sum, ← Finset.sum_add_distrib]
  refine Finset.sum_congr rfl (fun i _ => ?_)
  rw [add_mul, Finset.sum_mul, Finset.mul_sum]
  congr 1
  · ring
  · exact Finset.sum_congr rfl (fun j _ => by ring)

/-- The sum accumulated into `theta` on the ratio path: `sBs - useb * sum_i duk[i]^2`. -/
theorem ratio_sum (n : Nat) (Bess : Mat) (duk : Vec) (useb : ℚ) :
    (∑ i in range n, ∑ j in range n,
      (if i = j then duk i * (Bess i j - useb) * duk j else duk i * Bess i j * duk j))
      = curvatureB n Bess duk - useb * ∑ i in range n, duk i * duk i := by
  unfold curvatureB
  rw [Finset.mul_sum, ← Finset.sum_sub_distrib]
  refine Finset.sum_congr rfl (fun i hi => ?_)
  have e : ∀ j, (if i = j then duk i * (Bess i j - useb) * duk j else duk i * Bess i j * duk j)
      = duk i * Bess i j * duk j - (if i = j then useb * (duk i * duk j) else 0) := by
    intro j
    split_ifs <;> ring
  simp only [e]
  rw [Finset.sum_sub_distrib, Finset.sum_ite_eq, if_pos hi]

/-- Power path of the damped branch: for `gamma` in `(0,1)`, `sBs > 0` and a curvature
`vk < gamma*sBs`, the blending scalar lies in `(0,1)` and the curvature recomputed from
the damped gradient difference is `(1/10 + 9/10*gamma)*sBs > 0`. -/
theorem dampedTheta_power (n : Nat) (config : CConfig) (Bess : Mat) (rk duk : Vec)
    (normduk : ℚ) (hpow : config.DampedBFGSPow = true) (hg0 : 0 < config.DampedGamma)
    (hg1 : config.DampedGamma < 1) (hB : 0 < curvatureB n Bess duk)
    (htrig : (∑ i in range n, rk i * duk i) < config.DampedGamma * curvatureB n Bess duk) :
    0 < dampedTheta n config Bess rk duk normduk ∧
    dampedTheta n config Bess rk duk normduk < 1 ∧
    (∑ i in range n,
        dampedRk n Bess rk duk (dampedTheta n config Bess rk duk normduk) i * duk i)
      = (1 / 10 + 9 / 10 * config.DampedGamma) * curvatureB n Bess duk ∧
    0 < ∑ i in range n,
        dampedRk n Bess rk duk (dampedTheta n config Bess rk duk normduk) i * duk i := by
  set sBs := curvatureB n Bess duk with hs
  set vk := ∑ i in range n, rk i * duk i with hv
  set g := config.DampedGamma with hg
  have hth : dampedTheta n config Bess rk duk normduk
      = 9 / 10 * ((1 - g) * sBs) / (sBs - vk) := by
    unfold dampedTheta
    simp only [hpow, if_true]
    rw [if_pos htrig]
  have hden : 0 < sBs - vk := by nlinarith
  have hnum : 0 < (1 - g) * sBs := mul_pos (by linarith) hB
  have h1 : 0 < dampedTheta n config Bess rk duk normduk := by
    rw [hth]
    exact div_pos (by linarith) hden
  have h2 : dampedTheta n config Bess rk duk normduk < 1 := by
    rw [hth, div_lt_one hden]
    nlinarith
  have h3 : (∑ i in range n,
        dampedRk n Bess rk duk (dampedTheta n config Bess rk duk normduk) i * duk i)
      = (1 / 10 + 9 / 10 * g) * sBs := by
    rw [dampedRk_dot, hth]
    have hne : sBs - vk ≠ 0 := ne_of_gt hden
    field_simp
    ring
  refine ⟨h1, h2, h3, ?_⟩
  rw [h3]
  exact mul_pos (by linarith) hB

/-- The blending scalar on the ratio path when damping is triggered below `bmin`. -/
theorem dampedTheta_ratio_low (n : Nat) (config : CConfig) (Bess : Mat) (rk duk : Vec)
    (normduk : ℚ) (hpow : config.DampedBFGSPow = false)
    (htrig : (∑ i in range n, rk i * duk i) / normduk < config.DampedMin) :
    dampedTheta n config Bess rk duk normduk
      = 9 / 10 * ((1 + (curvatureB n Bess duk
            - config.DampedMin * ∑ i in range n, duk i * duk i))
          / (curvatureB n Bess duk - ∑ i in range n, rk i * duk i)) := by
  unfold dampedTheta
  simp only [hpow]
  rw [if_neg (by simp), if_pos (Or.inl htrig), if_pos htrig, ratio_sum]

theorem curvatureB_identity_unitVec {n : Nat} (hn : 0 < n) (c : ℚ) :
    curvatureB n identityMat (unitVec c) = c * c := by
  unfold curvatureB
  have e : ∀ i, (∑ j in range n, unitVec c i * identityMat i j * unitVec c j)
      = unitVec c i * (identityMat i 0 * c) := by
    intro i
    rw [sum_mul_unitVec hn]
    ring
  simp only [e]
  rw [sum_unitVec_mul hn]
  simp [identityMat]

/-- A pass of the forward loop of `GaussElimination` writes inside the leading block
only. -/
theorem gaussStep_frame {n m : Nat} (hm : m < n) (Ab : Mat × Vec) {p q : Nat}
    (h : n ≤ p ∨ n ≤ q) : (gaussStep n m Ab).1 p q = Ab.1 p q := by
  have hr := pivotScan_range Ab.1 m (n - 1 - m)
  show eliminateBelow (swapRows Ab.1 n m (pivotScan Ab.1 m (n - 1 - m))) n m p q = Ab.1 p q
  unfold eliminateBelow
  rw [if_neg (by omega)]
  unfold swapRows
  by_cases hq : m ≤ q ∧ q < n
  · rw [if_pos hq, if_neg (by omega), if_neg (by omega)]
  · rw [if_neg hq]

/-- The forward loop of `GaussElimination` writes inside the leading block only. -/
theorem gaussForward_frame {n : Nat} (Ab : Mat × Vec) {p q : Nat} (h : n ≤ p ∨ n ≤ q) :
    ∀ m, m ≤ n → (gaussForward n m Ab).1 p q = Ab.1 p q := by
  intro m
  induction m with
  | zero => intro _; rfl
  | succ k ih =>
    intro hk
    rw [gaussForward, gaussStep_frame (by omega) _ h]
    exact ih (by omega)

/-- C11: for every `n`, `A` and `b`, when `GaussElimination(A, b, n)` returns, every
entry `A[i][j]` equals its value at the call (the leading `n x n` block is copied back
from the saved entries, and the swaps and reductions of the solve touch no entry outside
that block); only `b` is changed. -/
theorem GaussElimination_restores_matrix (A : Mat) (b : Vec) (n : Nat) :
    ∀ i j, (GaussElimination A b n).1 i j = A i j := by
  intro i j
  show writeBlock n A (gaussForward n n (A, b)).1 i j = A i j
  unfold writeBlock
  by_cases h : i < n ∧ j < n
  · rw [if_pos h]
  · rw [if_neg h]
    exact gaussForward_frame (A, b) (by omega) n (le_refl n)

/-- C12: for every `n >= 2`, every tridiagonal, strictly row diagonally dominant `n x n`
matrix `A` and every right-hand side `d`, `ThomasAlgorithm(A, d, n)` divides by no zero
pivot (the divisors are `A[0][0]` and `A[i][i] - HelpOne[i-1]*A[i][i-1]`), leaves in the
entries `0 .. n-1` of `d` a vector `x` with `A*x` equal to the original `d`, and leaves the
other entries of `d` as they were; `A` is only read. -/
theorem ThomasAlgorithm_round_trip {n : Nat} (_hn : 2 ≤ n) {A : Mat} (hT : IsTridiagonal n A)
    (hD : IsRowDominant n A) (d : Vec) :
    (∀ i, i < n → thomasDen A n i ≠ 0) ∧
    (∀ i, i < n → (∑ j in range n, A i j * ThomasAlgorithm A d n j) = d i) ∧
    (∀ i, n ≤ i → ThomasAlgorithm A d n i = d i) := by
  refine ⟨fun i hi => ThomasAlgorithm_pivots hT hD i hi,
    fun i hi => ThomasAlgorithm_solves hT hD d i hi, fun i hi => ?_⟩
  unfold ThomasAlgorithm
  rw [if_neg (by omega)]

/-- C12 (witness): the round trip for the `3 x 3` filter block with `eps = 1` (diagonal
`5`, neighbours `-2`, `-1`) and the right-hand side `[1, 0, 0, ...]`. -/
theorem ThomasAlgorithm_round_trip_witness :
    (∀ i, i < 3 → thomasDen (BlockB 1 3) 3 i ≠ 0) ∧
    (∀ i, i < 3 →
      (∑ j in range 3, BlockB 1 3 i j * ThomasAlgorithm (BlockB 1 3) (unitVec 1) 3 j)
        = unitVec 1 i) ∧
    (∀ i, 3 ≤ i → ThomasAlgorithm (BlockB 1 3) (unitVec 1) 3 i = unitVec 1 i) :=
  ThomasAlgorithm_round_trip (by decide) (BlockB_tridiagonal 1 3)
    (BlockB_rowDominant 1 (by decide)) (unitVec 1)

theorem firstPairState_vk : firstPairState.vk = 2 := by
  unfold CDiscAdjSolver.vk
  simp only [firstPairState, zeroSolver, sub_zero]
  rw [sum_unitVec_mul (by norm_num)]
  simp [unitVec]

theorem firstPair_maxCount : lbfgsMaxCount (lbfgsConfig 0) firstPairState.BFGSCount = 0 :=
  lbfgsMaxCount_zero (lbfgsConfig 0) rfl 0 (by norm_num)

theorem firstPair_updateHess (sqrt : ℚ → ℚ) :
    CDiscAdjSolver.updateHess sqrt (lbfgsConfig 0) 1 firstPairState
      = { firstPairState with
          rkStore := storePair firstPairState.rkStore 0 (unitVec 2)
          dukStore := storePair firstPairState.dukStore 0 (unitVec 1)
          Hess :=
            writeBlock 38
              (secantEntry 38 identityMat (unitVec 2) (unitVec 1) 2) identityMat
          BFGSCount := 1 } := by
  rw [updateHess_lbfgs sqrt (lbfgsConfig 0) 1 firstPairState (by decide) rfl rfl
    ⟨by rw [firstPairState_vk]; norm_num, Or.inr rfl⟩]
  rw [firstPair_maxCount]
  have hrk : (fun i => firstPairState.ProjectedSens i - firstPairState.ProjectedSensOld i)
      = unitVec 2 := by
    funext i
    simp [firstPairState, zeroSolver]
  have hduk : (fun i => firstPairState.DesignVarUpdate i) = unitVec 1 := rfl
  have hH0 : ∀ c : ℚ, writeBlock 38 (resetEntry (lbfgsConfig 0).HInit c) firstPairState.Hess
      = identityMat := by
    intro c
    funext i j
    simp [writeBlock, resetEntry, lbfgsConfig, sampleConfig, firstPairState, zeroSolver,
      identityMat]
  simp only [hrk, hduk, hH0, shiftStore, Nat.zero_add]
  have hrep : lbfgsReplay (storePair firstPairState.rkStore 0 (unitVec 2))
      (storePair firstPairState.dukStore 0 (unitVec 1)) identityMat 1
      = writeBlock 38 (secantEntry 38 identityMat (unitVec 2) (unitVec 1) 2) identityMat := by
    have r0 : storePair firstPairState.rkStore 0 (unitVec 2) 0 = unitVec 2 := by
      funext i
      simp [storePair, firstPairState, zeroSolver, unitVec]
      intro h1
      rw [if_neg (by omega)]
    have d0 : storePair firstPairState.dukStore 0 (unitVec 1) 0 = unitVec 1 := by
      funext i
      simp [storePair, firstPairState, zeroSolver, unitVec]
      intro h1
      rw [if_neg (by omega)]
    show writeBlock 38 (secantEntry 38 identityMat
        (storePair firstPairState.rkStore 0 (unitVec 2) 0)
        (storePair firstPairState.dukStore 0 (unitVec 1) 0)
        (∑ i in range 38, storePair firstPairState.rkStore 0 (unitVec 2) 0 i
          * storePair firstPairState.dukStore 0 (unitVec 1) 0 i)) identityMat = _
    rw [r0, d0, sum_unitVec_mul (by norm_num)]
    simp [unitVec]
  rw [hrep]
  rfl

/-- C13 (failing input): with L-BFGS on and `LBFGSNum = 0` (the stores have no row), the
all-zero solver with identity `Hess`, gradient difference `rk = [2,0,..]`, step
`duk = [1,0,..]` and `ProjectedGradient = [1,0,..]`, and `ExtIter = 1 > OneShotStart = 0`:
`maxCount = GetLBFGSNum()-1` wraps and is capped to `BFGSCount = 0`, so the call writes
`rkStore[0][0] = 2` and `dukStore[0][0] = 1`, replays that pair into `Hess[0][0] = 1/2`, and
leaves `UpdateSens[0] = -1/2`, while `-ProjectedGradient[0] = -1`. -/
theorem BFGSUpdateProjected_zero_history (sqrt : ℚ → ℚ) :
    (lbfgsConfig 0).LBFGS = true ∧ (lbfgsConfig 0).LBFGSNum = 0 ∧
    firstPairState.rkStore 0 0 = 0 ∧ firstPairState.dukStore 0 0 = 0 ∧
    (CDiscAdjSolver.BFGSUpdateProjected sqrt (lbfgsConfig 0) 1 firstPairState).rkStore 0 0 = 2 ∧
    (CDiscAdjSolver.BFGSUpdateProjected sqrt (lbfgsConfig 0) 1 firstPairState).dukStore 0 0 = 1 ∧
    (CDiscAdjSolver.BFGSUpdateProjected sqrt (lbfgsConfig 0) 1 firstPairState).Hess 0 0
      = 1 / 2 ∧
    (CDiscAdjSolver.BFGSUpdateProjected sqrt (lbfgsConfig 0) 1 firstPairState).UpdateSens 0
      = -(1 / 2) ∧
    -firstPairState.ProjectedGradient 0 = -1 := by
  have hH : (CDiscAdjSolver.updateHess sqrt (lbfgsConfig 0) 1 firstPairState).Hess 0 0
      = 1 / 2 := by
    rw [firstPair_updateHess]
    show writeBlock 38 (secantEntry 38 identityMat (unitVec 2) (unitVec 1) 2) identityMat 0 0
      = 1 / 2
    rw [writeBlock_lt _ _ (by norm_num) (by norm_num), secantEntry_unitVec (by norm_num)]
    norm_num [identityMat, unitVec]
  have hU : ∀ M : Mat, (∑ j in range 38, M 0 j * firstPairState.ProjectedGradient j) = M 0 0 := by
    intro M
    show (∑ j in range 38, M 0 j * unitVec 1 j) = M 0 0
    rw [sum_mul_unitVec (by norm_num)]
    ring
  refine ⟨rfl, rfl, rfl, rfl, ?_, ?_, ?_, ?_, ?_⟩
  · show (CDiscAdjSolver.updateHess sqrt (lbfgsConfig 0) 1 firstPairState).rkStore 0 0 = 2
    rw [firstPair_updateHess]
    simp [storePair, unitVec]
  · show (CDiscAdjSolver.updateHess sqrt (lbfgsConfig 0) 1 firstPairState).dukStore 0 0 = 1
    rw [firstPair_updateHess]
    simp [storePair, unitVec]
  · exact hH
  · show writeRange 38 (fun i => 0 - ∑ j in range 38,
        (CDiscAdjSolver.updateHess sqrt (lbfgsConfig 0) 1 firstPairState).Hess i j
          * firstPairState.ProjectedGradient j) firstPairState.UpdateSens 0 = -(1 / 2)
    rw [writeRange_lt _ _ (by norm_num)]
    show 0 - ∑ j in range 38,
        (CDiscAdjSolver.updateHess sqrt (lbfgsConfig 0) 1 firstPairState).Hess 0 j
          * firstPairState.ProjectedGradient j = -(1 / 2)
    rw [hU, hH]
    norm_num
  · simp [firstPairState, unitVec]

theorem writeRange_unitVec (c d : ℚ) : writeRange 38 (unitVec c) (unitVec d) = unitVec c := by
  funext i
  unfold writeRange
  split_ifs with h
  · rfl
  · have : i ≠ 0 := by omega
    simp [unitVec, this]

theorem unitVec_sub (c d : ℚ) : (fun i => unitVec c i - unitVec d i) = unitVec (c - d) := by
  funext i
  unfold unitVec
  split_ifs <;> simp

/-- The members written by one call of the limited-memory branch with capacity
`1 <= m < 2^64`, for a gradient `[g,0,..]` after a step `[u,0,..]` from a state whose old
gradient is `[g0,0,..]`, when the curvature `(g - g0)*u` is positive. -/
theorem lbfgsCall_fields (sqrt : ℚ → ℚ) {m : Nat} (hm1 : 1 ≤ m) (hm2 : m < 2 ^ 64)
    (g u g0 : ℚ) (s : CDiscAdjSolver) (hold : s.ProjectedSensOld = unitVec g0)
    (hvk : 0 < (g - g0) * u) :
    (lbfgsCall sqrt m (unitVec g) (unitVec u) s).rkStore
      = storePair (shiftStore s.rkStore (min (m - 1) s.BFGSCount)) (min (m - 1) s.BFGSCount)
          (unitVec (g - g0)) ∧
    (lbfgsCall sqrt m (unitVec g) (unitVec u) s).dukStore
      = storePair (shiftStore s.dukStore (min (m - 1) s.BFGSCount)) (min (m - 1) s.BFGSCount)
          (unitVec u) ∧
    (lbfgsCall sqrt m (unitVec g) (unitVec u) s).BFGSCount = s.BFGSCount + 1 ∧
    (lbfgsCall sqrt m (unitVec g) (unitVec u) s).ProjectedSensOld = unitVec g := by
  have hrk : (fun i => unitVec g i - s.ProjectedSensOld i) = unitVec (g - g0) := by
    rw [hold]; exact unitVec_sub g g0
  have hv : ({ s with ProjectedSens := unitVec g, DesignVarUpdate := unitVec u } :
      CDiscAdjSolver).vk = (g - g0) * u := by
    unfold CDiscAdjSolver.vk
    show (∑ i in range 38, (fun i => unitVec g i - s.ProjectedSensOld i) i * unitVec u i) = _
    rw [hrk, sum_unitVec_mul (by norm_num)]
    simp [unitVec]
  have hmc : lbfgsMaxCount (lbfgsConfig m) s.BFGSCount = min (m - 1) s.BFGSCount :=
    lbfgsMaxCount_pos (lbfgsConfig m) hm1 hm2 s.BFGSCount
  have hup := updateHess_lbfgs sqrt (lbfgsConfig m) 1
    { s with ProjectedSens := unitVec g, DesignVarUpdate := unitVec u }
    (show 1 > 0 by norm_num) rfl rfl ⟨by rw [hv]; exact hvk, Or.inr rfl⟩
  refine ⟨?_, ?_, ?_, ?_⟩
  · show (CDiscAdjSolver.updateHess sqrt (lbfgsConfig m) 1
        { s with ProjectedSens := unitVec g, DesignVarUpdate := unitVec u }).rkStore = _
    rw [hup]
    show storePair (shiftStore s.rkStore (lbfgsMaxCount (lbfgsConfig m) s.BFGSCount))
        (lbfgsMaxCount (lbfgsConfig m) s.BFGSCount)
        (fun i => unitVec g i - s.ProjectedSensOld i) = _
    rw [hmc, hrk]
  · show (CDiscAdjSolver.updateHess sqrt (lbfgsConfig m) 1
        { s with ProjectedSens := unitVec g, DesignVarUpdate := unitVec u }).dukStore = _
    rw [hup]
    show storePair (shiftStore s.dukStore (lbfgsMaxCount (lbfgsConfig m) s.BFGSCount))
        (lbfgsMaxCount (lbfgsConfig m) s.BFGSCount) (fun i => unitVec u i) = _
    rw [hmc]
  · show (CDiscAdjSolver.updateHess sqrt (lbfgsConfig m) 1
        { s with ProjectedSens := unitVec g, DesignVarUpdate := unitVec u }).BFGSCount = _
    rw [hup]
  · show writeRange 38 (unitVec g) s.ProjectedSensOld = unitVec g
    rw [hold, writeRange_unitVec]

/-- The stores after the three calls of `lbfgsThreeCalls` with capacity `1 <= m < 2^64`. -/
theorem lbfgsThreeCalls_store (sqrt : ℚ → ℚ) {m : Nat} (hm1 : 1 ≤ m) (hm2 : m < 2 ^ 64) :
    (lbfgsThreeCalls sqrt m).BFGSCount = 3 ∧
    (lbfgsThreeCalls sqrt m).rkStore
      = storePair (shiftStore
          (storePair (shiftStore
            (storePair zeroSolver.rkStore 0 (unitVec 1)) (min (m - 1) 1))
            (min (m - 1) 1) (unitVec 2)) (min (m - 1) 2))
          (min (m - 1) 2) (unitVec 3) ∧
    (lbfgsThreeCalls sqrt m).dukStore
      = storePair (shiftStore
          (storePair (shiftStore
            (storePair zeroSolver.dukStore 0 (unitVec 1)) (min (m - 1) 1))
            (min (m - 1) 1) (unitVec 2)) (min (m - 1) 2))
          (min (m - 1) 2) (unitVec 3) := by
  have h0 : zeroSolver.ProjectedSensOld = unitVec 0 := by
    funext i; simp [zeroSolver, unitVec]
  obtain ⟨a1, b1, c1, d1⟩ := lbfgsCall_fields sqrt hm1 hm2 1 1 0 zeroSolver h0 (by norm_num)
  obtain ⟨a2, b2, c2, d2⟩ := lbfgsCall_fields sqrt hm1 hm2 3 2 1
    (lbfgsCall sqrt m (unitVec 1) (unitVec 1) zeroSolver) d1 (by norm_num)
  obtain ⟨a3, b3, c3, _⟩ := lbfgsCall_fields sqrt hm1 hm2 6 3 3
    (lbfgsCall sqrt m (unitVec 3) (unitVec 2)
      (lbfgsCall sqrt m (unitVec 1) (unitVec 1) zeroSolver)) d2 (by norm_num)
  have z : zeroSolver.BFGSCount = 0 := rfl
  rw [z] at a1 b1 c1
  rw [c1] at a2 b2 c2
  rw [c2] at a3 b3 c3
  norm_num at a1 b1 a2 b2 a3 b3 c3
  unfold lbfgsThreeCalls
  refine ⟨c3, ?_, ?_⟩
  · rw [a3, a2, a1]; rfl
  · rw [b3, b2, b1]; rfl

/-- C14 (failing input): three applied L-BFGS updates with the pairs
`p1 = ([1,0,..],[1,0,..])`, `p2 = ([2,0,..],[2,0,..])`, `p3 = ([3,0,..],[3,0,..])`.
With capacity `M = 2` rows `0, 1` of `rkStore` and `dukStore` hold `p1, p3` (the claim:
`p2, p3`); with capacity `M = 3` rows `0, 1, 2` hold `p1, p1, p3` (the claim:
`p1, p2, p3`).  The shift loop copies row `kCount` to row `kCount+1` for increasing
`kCount`, so row `0` is spread over the rows below `maxCount` and is never replaced. -/
theorem BFGSUpdateProjected_history_not_ring (sqrt : ℚ → ℚ) :
    (lbfgsThreeCalls sqrt 2).BFGSCount = 3 ∧
    (lbfgsThreeCalls sqrt 2).rkStore 0 0 = 1 ∧ (lbfgsThreeCalls sqrt 2).dukStore 0 0 = 1 ∧
    (lbfgsThreeCalls sqrt 2).rkStore 1 0 = 3 ∧ (lbfgsThreeCalls sqrt 2).dukStore 1 0 = 3 ∧
    (lbfgsThreeCalls sqrt 3).BFGSCount = 3 ∧
    (lbfgsThreeCalls sqrt 3).rkStore 0 0 = 1 ∧ (lbfgsThreeCalls sqrt 3).dukStore 0 0 = 1 ∧
    (lbfgsThreeCalls sqrt 3).rkStore 1 0 = 1 ∧ (lbfgsThreeCalls sqrt 3).dukStore 1 0 = 1 ∧
    (lbfgsThreeCalls sqrt 3).rkStore 2 0 = 3 ∧ (lbfgsThreeCalls sqrt 3).dukStore 2 0 = 3 := by
  obtain ⟨c2, r2, d2⟩ := lbfgsThreeCalls_store sqrt (show 1 ≤ 2 by norm_num) (by norm_num)
  obtain ⟨c3, r3, d3⟩ := lbfgsThreeCalls_store sqrt (show 1 ≤ 3 by norm_num) (by norm_num)
  rw [r2, d2, r3, d3]
  refine ⟨c2, ?_, ?_, ?_, ?_, c3, ?_, ?_, ?_, ?_, ?_, ?_⟩ <;>
    norm_num [storePair, shiftStore, unitVec]

/-- C15 (failing input): ratio path (`DampedBFGSPow` off) with `[bmin, bmax] = [7/10, 10]`,
`Bess` the identity (symmetric positive definite), the unit vectors
`rk = [3/5, 4/5, 0, ..]`, `duk = [1, 0, ..]` and `normduk = 1`.  The curvature
`vk = 3/5` has `vk/normduk < bmin`, so damping is triggered; the accumulation of `theta`
starts from its initial value `1.0`, the blending scalar is `theta = 117/40 > 1`, and the
curvature recomputed from `rk' = theta*rk + (1-theta)*Bess*duk` is `vknew = -17/100 < 0`. -/
theorem dampedTheta_ratio_path_fails :
    IsSPD 38 identityMat ∧
    (∑ i in range 38, tiltedVec i * unitVec 1 i) = 3 / 5 ∧
    (∑ i in range 38, tiltedVec i * unitVec 1 i) / 1 < ratioConfig.DampedMin ∧
    dampedTheta 38 ratioConfig identityMat tiltedVec (unitVec 1) 1 = 117 / 40 ∧
    (∑ i in range 38,
        dampedRk 38 identityMat tiltedVec (unitVec 1)
          (dampedTheta 38 ratioConfig identityMat tiltedVec (unitVec 1) 1) i * unitVec 1 i)
      = -(17 / 100) := by
  have hvk : (∑ i in range 38, tiltedVec i * unitVec 1 i) = 3 / 5 := by
    rw [sum_mul_unitVec (by norm_num)]
    norm_num [tiltedVec]
  have hB : curvatureB 38 identityMat (unitVec 1) = 1 := by
    rw [curvatureB_identity_unitVec (by norm_num)]
    norm_num
  have hdd : (∑ i in range 38, unitVec 1 i * unitVec 1 i) = 1 := by
    rw [sum_unitVec_mul (by norm_num)]
    norm_num [unitVec]
  have htrig : (∑ i in range 38, tiltedVec i * unitVec 1 i) / 1 < ratioConfig.DampedMin := by
    rw [hvk]
    norm_num [ratioConfig]
  have hth : dampedTheta 38 ratioConfig identityMat tiltedVec (unitVec 1) 1 = 117 / 40 := by
    rw [dampedTheta_ratio_low 38 ratioConfig identityMat tiltedVec (unitVec 1) 1 rfl htrig,
      hB, hdd, hvk]
    norm_num [ratioConfig]
  refine ⟨identityMat_spd 38, hvk, htrig, hth, ?_⟩
  rw [dampedRk_dot, hth, hvk, hB]
  norm_num

/-- C16: in the non-damped branch with `ExtIter > OneShotStart`, the update is skipped
(`BFGSCount` is not advanced) if and only if `vk <= 0` or (`CheckVk` is on and
`|vk| <= 1e-3`); when it is skipped, `Hess` is unchanged if `IdentityHessian` is off,
and on the 38 design variables it is the identity (`HScale` times the identity when
`HInit` is on) if `IdentityHessian` is on; when it is not skipped and L-BFGS is off,
`Hess` is the inverse secant update; in every case the call leaves
`UpdateSens = -Hess*ProjectedGradient` with the `Hess` it leaves. -/
theorem BFGSUpdateProjected_curvature_test (sqrt : ℚ → ℚ) (config : CConfig) (ExtIter : Nat)
    (s : CDiscAdjSolver) (hext : ExtIter > config.OneShotStart)
    (hd : config.DampedBFGS = false) :
    ((CDiscAdjSolver.BFGSUpdateProjected sqrt config ExtIter s).BFGSCount = s.BFGSCount ↔
      (s.vk ≤ 0 ∨ (config.CheckVk = true ∧ |s.vk| ≤ 1 / 1000))) ∧
    ((s.vk ≤ 0 ∨ (config.CheckVk = true ∧ |s.vk| ≤ 1 / 1000)) →
      (config.IdentityHessian = false →
        (CDiscAdjSolver.BFGSUpdateProjected sqrt config ExtIter s).Hess = s.Hess) ∧
      (config.IdentityHessian = true → ∀ i j, i < 38 → j < 38 →
        (CDiscAdjSolver.BFGSUpdateProjected sqrt config ExtIter s).Hess i j
          = if i = j then (if config.HInit = true then config.HScale else 1) else 0)) ∧
    (¬ (s.vk ≤ 0 ∨ (config.CheckVk = true ∧ |s.vk| ≤ 1 / 1000)) → config.LBFGS = false →
      ∀ i j, i < 38 → j < 38 →
        (CDiscAdjSolver.BFGSUpdateProjected sqrt config ExtIter s).Hess i j
          = secantEntry 38 s.Hess (fun k => s.ProjectedSens k - s.ProjectedSensOld k)
              (fun k => s.DesignVarUpdate k) s.vk i j) ∧
    (∀ i, i < 38 →
      (CDiscAdjSolver.BFGSUpdateProjected sqrt config ExtIter s).UpdateSens i
        = -∑ j in range 38,
            (CDiscAdjSolver.BFGSUpdateProjected sqrt config ExtIter s).Hess i j
              * s.ProjectedGradient j) := by
  have hiff : (s.vk > 0 ∧ (|s.vk| > 1 / 1000 ∨ config.CheckVk = false)) ↔
      ¬ (s.vk ≤ 0 ∨ (config.CheckVk = true ∧ |s.vk| ≤ 1 / 1000)) := by
    constructor
    · rintro ⟨h1, h2⟩ h3
      rcases h3 with h3 | ⟨h3, h4⟩
      · exact absurd h1 (not_lt.mpr h3)
      · rcases h2 with h2 | h2
        · exact absurd h2 (not_lt.mpr h4)
        · rw [h3] at h2; cases h2
    · intro h
      push_neg at h
      refine ⟨h.1, ?_⟩
      by_cases hc : config.CheckVk = true
      · exact Or.inl (h.2 hc)
      · exact Or.inr (by simpa using hc)
  have hB : (CDiscAdjSolver.BFGSUpdateProjected sqrt config ExtIter s).BFGSCount
      = (CDiscAdjSolver.updateHess sqrt config ExtIter s).BFGSCount := rfl
  have hH : (CDiscAdjSolver.BFGSUpdateProjected sqrt config ExtIter s).Hess
      = (CDiscAdjSolver.updateHess sqrt config ExtIter s).Hess := rfl
  have hskip : (s.vk ≤ 0 ∨ (config.CheckVk = true ∧ |s.vk| ≤ 1 / 1000)) →
      CDiscAdjSolver.updateHess sqrt config ExtIter s
        = if config.IdentityHessian = true then
            { s with Hess := writeBlock 38 (resetEntry config.HInit config.HScale) s.Hess }
          else s := by
    intro hs
    have hn : ¬ (s.vk > 0 ∧ (|s.vk| > 1 / 1000 ∨ config.CheckVk = false)) :=
      fun h => (hiff.mp h) hs
    unfold CDiscAdjSolver.vk at hn
    unfold CDiscAdjSolver.updateHess
    simp only [if_pos hext, hd, if_neg hn]
    simp
  have happ : ¬ (s.vk ≤ 0 ∨ (config.CheckVk = true ∧ |s.vk| ≤ 1 / 1000)) →
      (CDiscAdjSolver.updateHess sqrt config ExtIter s).BFGSCount = s.BFGSCount + 1 ∧
      (config.LBFGS = false →
        (CDiscAdjSolver.updateHess sqrt config ExtIter s).Hess
          = writeBlock 38
              (secantEntry 38 s.Hess (fun k => s.ProjectedSens k - s.ProjectedSensOld k)
                (fun k => s.DesignVarUpdate k) s.vk) s.Hess) := by
    intro hs
    have hp : s.vk > 0 ∧ (|s.vk| > 1 / 1000 ∨ config.CheckVk = false) := hiff.mpr hs
    unfold CDiscAdjSolver.vk at hp
    unfold CDiscAdjSolver.updateHess
    simp only [if_pos hext, hd, if_pos hp]
    constructor
    · by_cases hl : config.LBFGS = true
      · simp [hl]
      · simp [hl]
    · intro hl
      simp [hl, CDiscAdjSolver.vk]
  refine ⟨⟨fun h => ?_, fun h => ?_⟩, fun h => ⟨fun hi => ?_, fun hi i j hi1 hj1 => ?_⟩,
    fun h hl i j hi1 hj1 => ?_, fun i hi1 => ?_⟩
  · by_contra hcon
    rw [hB, (happ hcon).1] at h
    omega
  · rw [hB, hskip h]
    split_ifs <;> rfl
  · rw [hH, hskip h, if_neg (by simp [hi])]
  · rw [hH, hskip h, if_pos hi]
    show writeBlock 38 (resetEntry config.HInit config.HScale) s.Hess i j = _
    rw [writeBlock_lt _ _ hi1 hj1]
    unfold resetEntry
    by_cases hij : i = j
    · by_cases hin : config.HInit = true
      · simp [hij, hin]
      · simp [hij, hin]
    · simp [hij]
  · rw [hH, (happ h).2 hl, writeBlock_lt _ _ hi1 hj1]
  · show writeRange 38 (fun i => 0 - ∑ j in range 38,
        (CDiscAdjSolver.updateHess sqrt config ExtIter s).Hess i j * s.ProjectedGradient j)
        s.UpdateSens i = _
    rw [writeRange_lt _ _ hi1, hH]
    ring

/-- C16 (witness): the all-zero solver (`vk = 0`) with `IdentityHessian` and `HInit` on and
`HScale = 3`, at `ExtIter = 1 > OneShotStart = 0`: the update is skipped and `Hess` is
three times the identity. -/
theorem BFGSUpdateProjected_curvature_test_witness :
    (1 > ({ sampleConfig with IdentityHessian := true, HInit := true, HScale := 3 } :
      CConfig).OneShotStart) ∧
    ((CDiscAdjSolver.BFGSUpdateProjected (fun x => x)
        { sampleConfig with IdentityHessian := true, HInit := true, HScale := 3 } 1
        zeroSolver).BFGSCount = zeroSolver.BFGSCount ↔
      (zeroSolver.vk ≤ 0 ∨
        (({ sampleConfig with IdentityHessian := true, HInit := true, HScale := 3 } :
          CConfig).CheckVk = true ∧ |zeroSolver.vk| ≤ 1 / 1000))) :=
  ⟨by decide,
    (BFGSUpdateProjected_curvature_test (fun x => x)
      { sampleConfig with IdentityHessian := true, HInit := true, HScale := 3 } 1 zeroSolver
      (by decide) rfl).1⟩

/-- C17: for every constraint index `c < ConstraintNum`, after
`CDiscAdjFEASolver::StoreConstraint` followed by `UpdateMultiplier` the multiplier is the
old multiplier plus `cons_factor[c]*ConstraintFunc_Value[c]`, `Constraint_Old[c]` holds the
`Constraint_Save[c]` from before `StoreConstraint`, `Constraint_Save[c]` holds
`ConstraintFunc_Value[c]`, and `cons_factor[c]` is unchanged. -/
theorem UpdateMultiplier_after_StoreConstraint (config : CConfig) (s : CDiscAdjFEASolver)
    (c : Nat) (hc : c < config.ConstraintNum) :
    (UpdateMultiplier config (StoreConstraint config s)).multiplier c
        = s.multiplier c + s.cons_factor c * s.ConstraintFunc_Value c ∧
    (UpdateMultiplier config (StoreConstraint config s)).Constraint_Old c
        = s.Constraint_Save c ∧
    (UpdateMultiplier config (StoreConstraint config s)).Constraint_Save c
        = s.ConstraintFunc_Value c ∧
    (UpdateMultiplier config (StoreConstraint config s)).cons_factor c = s.cons_factor c := by
  refine ⟨?_, ?_, ?_, rfl⟩
  · unfold UpdateMultiplier StoreConstraint
    simp only [writeRange, if_pos hc]
  · show writeRange config.ConstraintNum s.Constraint_Save s.Constraint_Old c = _
    rw [writeRange_lt _ _ hc]
  · show writeRange config.ConstraintNum s.ConstraintFunc_Value s.Constraint_Save c = _
    rw [writeRange_lt _ _ hc]

/-- C17 (witness): one constraint with value `1`, multiplier `1` and factor `2`: the new
multiplier is `1 + 2*1`. -/
theorem UpdateMultiplier_after_StoreConstraint_witness :
    0 < sampleConfig.ConstraintNum ∧
    (UpdateMultiplier sampleConfig
        (StoreConstraint sampleConfig { oneConstraintState with cons_factor := fun _ => 2 })).multiplier 0
      = 1 + 2 * 1 :=
  ⟨by decide,
    (UpdateMultiplier_after_StoreConstraint sampleConfig
      { oneConstraintState with cons_factor := fun _ => 2 } 0 (by decide)).1⟩

/-- C18 (counterexample): after `SetMultiplier(config, 1)` with `ConstraintFactor = 1`, a
call of `CDiscAdjSolver::UpdateMultiplier` with the satisfied value `Constraint_Save = -1`
leaves `multiplier = 0`, not the value `1` passed to `SetMultiplier`; and when an active
call with `FactorIncrease` has doubled `cons_factor` before, the inactive call leaves
`cons_factor = 2`, not the configured `ConstraintFactor = 1`. -/
theorem UpdateMultiplier_not_reset :
    inactiveState.multiplieroriginal = 1 ∧
    (CDiscAdjSolver.UpdateMultiplier sampleConfig inactiveState).multiplier = 0 ∧
    growthConfig.ConstraintFactor = 1 ∧
    (CDiscAdjSolver.UpdateMultiplier growthConfig
      { CDiscAdjSolver.UpdateMultiplier growthConfig
          { CDiscAdjSolver.SetMultiplier growthConfig 1 zeroSolver with Constraint_Save := 1 }
        with Constraint_Save := -1 }).cons_factor = 2 := by
  refine ⟨rfl, ?_, rfl, ?_⟩
  · simp [CDiscAdjSolver.UpdateMultiplier, inactiveState, sampleConfig,
      CDiscAdjSolver.SetMultiplier]
  · norm_num [CDiscAdjSolver.UpdateMultiplier, CDiscAdjSolver.proportionalRule, growthConfig,
      sampleConfig, CDiscAdjSolver.SetMultiplier, zeroSolver]

/-- C18 (amended): in `CDiscAdjSolver::UpdateMultiplier` with `EqualConstraint` off and a
stored constraint value of the satisfied sign (`Constraint_Save <= 0` when `PosConstraint`
is on, `Constraint_Save >= 0` when it is off), `multiplier` is set to `0`, `multiplierhelp`
(the base of the next proportional step) is reset to the value installed by
`SetMultiplier` (`multiplieroriginal`), and `cons_factor` and `multiplieroriginal` are
left as they are; the proportional rule is not applied. -/
theorem UpdateMultiplier_inactive (config : CConfig) (s : CDiscAdjSolver)
    (heq : config.EqualConstraint = false)
    (hsign : (config.PosConstraint = true ∧ s.Constraint_Save ≤ 0) ∨
      (config.PosConstraint = false ∧ s.Constraint_Save ≥ 0)) :
    (CDiscAdjSolver.UpdateMultiplier config s).multiplier = 0 ∧
    (CDiscAdjSolver.UpdateMultiplier config s).multiplierhelp = s.multiplieroriginal ∧
    (CDiscAdjSolver.UpdateMultiplier config s).cons_factor = s.cons_factor ∧
    (CDiscAdjSolver.UpdateMultiplier config s).multiplieroriginal = s.multiplieroriginal := by
  unfold CDiscAdjSolver.UpdateMultiplier
  rcases hsign with ⟨hp, hs⟩ | ⟨hp, hs⟩
  · rw [if_pos hp, if_pos ⟨hs, heq⟩]
    exact ⟨rfl, rfl, rfl, rfl⟩
  · rw [if_neg (by simp [hp]), if_pos ⟨hs, heq⟩]
    exact ⟨rfl, rfl, rfl, rfl⟩

/-- C18 (witness): the amended statement at the state left by `SetMultiplier(config, 1)`
with `Constraint_Save = -1`. -/
theorem UpdateMultiplier_inactive_witness :
    (CDiscAdjSolver.UpdateMultiplier sampleConfig inactiveState).multiplier = 0 ∧
    (CDiscAdjSolver.UpdateMultiplier sampleConfig inactiveState).multiplierhelp
      = inactiveState.multiplieroriginal ∧
    (CDiscAdjSolver.UpdateMultiplier sampleConfig inactiveState).cons_factor
      = inactiveState.cons_factor ∧
    (CDiscAdjSolver.UpdateMultiplier sampleConfig inactiveState).multiplieroriginal
      = inactiveState.multiplieroriginal :=
  UpdateMultiplier_inactive sampleConfig inactiveState rfl
    (Or.inl ⟨rfl, by norm_num [inactiveState, CDiscAdjSolver.SetMultiplier]⟩)

/-- C19 (counterexample): with one node, one constraint of value `g = 1` and multiplier
`1`, zero solutions and zero objective: when `OneShotConstraint` is off
`AssembleLagrangian` sets `Lagrangian_Value = 0` while the stated formula gives `1` (the
multiplier term is not added); when it is on with `OneShotAlpha = 4` the routine gives
`3` while the stated formula gives `3/2` (the squared constraint is weighted by
`alpha/2 = 2`, not by `1/2`). -/
theorem AssembleLagrangian_differs :
    (AssembleLagrangian sampleConfig 1 1 zeroNode zeroNode oneConstraintState).Lagrangian_Value
      = 0 ∧
    statedLagrangian sampleConfig 1 1 zeroNode zeroNode oneConstraintState = 1 ∧
    (AssembleLagrangian penaltyConfig 1 1 zeroNode zeroNode oneConstraintState).Lagrangian_Value
      = 3 ∧
    statedLagrangian penaltyConfig 1 1 zeroNode zeroNode oneConstraintState = 3 / 2 := by
  refine ⟨?_, ?_, ?_, ?_⟩
  · norm_num [AssembleLagrangian, sampleConfig, zeroNode, oneConstraintState,
      CDiscAdjFEASolver.construct]
  · norm_num [statedLagrangian, sampleConfig, zeroNode, oneConstraintState,
      CDiscAdjFEASolver.construct]
  · norm_num [AssembleLagrangian, penaltyConfig, sampleConfig, zeroNode, oneConstraintState,
      CDiscAdjFEASolver.construct]
  · norm_num [statedLagrangian, penaltyConfig, sampleConfig, zeroNode, oneConstraintState,
      CDiscAdjFEASolver.construct]

/-- C19 (amended): for every state and configuration `AssembleLagrangian` sets
`Lagrangian_Value = alpha/2*(||x - x_store||^2 + P) + beta/2*||a - a_store||^2 + f_obj + M
+ <x - x_store, a_store>`, where with `OneShotConstraint` on `P = sum_c g_c^2` and
`M = sum_c multiplier[c]*g_c`, and with `OneShotConstraint` off `P = M = 0`; it also
copies `ObjFunc_Value` to `Obj_Save`. -/
theorem AssembleLagrangian_value (config : CConfig) (nPoint nVar : Nat)
    (direct node : Nat → CVariable) (s : CDiscAdjFEASolver) :
    (AssembleLagrangian config nPoint nVar direct node s).Lagrangian_Value
      = config.OneShotAlpha / 2 *
          ((∑ iPoint in range nPoint, ∑ iVar in range nVar,
              ((direct iPoint).Solution iVar - (direct iPoint).Solution_Store iVar) ^ 2)
            + (if config.OneShotConstraint = true then
                ∑ c in range config.ConstraintNum, s.ConstraintFunc_Value c ^ 2
              else 0))
        + config.OneShotBeta / 2 *
          (∑ iPoint in range nPoint, ∑ iVar in range nVar,
              ((node iPoint).Solution iVar - (node iPoint).Solution_Store iVar) ^ 2)
        + s.ObjFunc_Value
        + (if config.OneShotConstraint = true then
            ∑ c in range config.ConstraintNum, s.multiplier c * s.ConstraintFunc_Value c
          else 0)
        + (∑ iPoint in range nPoint, ∑ iVar in range nVar,
            ((direct iPoint).Solution iVar - (direct iPoint).Solution_Store iVar)
              * (node iPoint).Solution_Store iVar) ∧
    (AssembleLagrangian config nPoint nVar direct node s).Obj_Save = s.ObjFunc_Value := by
  refine ⟨?_, rfl⟩
  have sq : ∀ x : ℚ, x ^ 2 = x * x := fun x => by ring
  have hm : (∑ c in range config.ConstraintNum, s.multiplier c * s.ConstraintFunc_Value c)
      = ∑ c in range config.ConstraintNum, s.ConstraintFunc_Value c * s.multiplier c :=
    Finset.sum_congr rfl (fun c _ => mul_comm _ _)
  simp only [sq, hm]
  unfold AssembleLagrangian
  by_cases h : config.OneShotConstraint = true
  · simp only [if_pos h]
    ring
  · simp only [if_neg h]
    ring

/-- C20: each `CheckFirstWolfe` returns true exactly when
`Lagrangian_Value > Lagrangian_Value_Old + 1e-4*h` (and false otherwise), with
`h = sum_i DesignVarUpdate[i]*Lagrange_Sens_Old[i]` in `CDiscAdjFEASolver` and
`h = sum_{i<38} DesignVarUpdateReal[i]*ProjectedSens[i]` in `CDiscAdjSolver`; the
returned flag is the same for any two values of the `steplen` argument. -/
theorem CheckFirstWolfe_returns (nElem : Nat) (s : CDiscAdjFEASolver) (d : CDiscAdjSolver)
    (steplen steplen2 : ℚ) :
    ((CheckFirstWolfe nElem s steplen).1 = true ↔
      s.Lagrangian_Value > s.Lagrangian_Value_Old
        + 1 / 10000 * ∑ i in range nElem, s.DesignVarUpdate i * s.Lagrange_Sens_Old i) ∧
    ((CheckFirstWolfe nElem s steplen).1 = false ↔
      ¬ s.Lagrangian_Value > s.Lagrangian_Value_Old
        + 1 / 10000 * ∑ i in range nElem, s.DesignVarUpdate i * s.Lagrange_Sens_Old i) ∧
    (CheckFirstWolfe nElem s steplen).1 = (CheckFirstWolfe nElem s steplen2).1 ∧
    (CDiscAdjSolver.CheckFirstWolfe d steplen = true ↔
      d.Lagrangian_Value > d.Lagrangian_Value_Old
        + 1 / 10000 * ∑ i in range 38, d.DesignVarUpdateReal i * d.ProjectedSens i) ∧
    (CDiscAdjSolver.CheckFirstWolfe d steplen = false ↔
      ¬ d.Lagrangian_Value > d.Lagrangian_Value_Old
        + 1 / 10000 * ∑ i in range 38, d.DesignVarUpdateReal i * d.ProjectedSens i) ∧
    CDiscAdjSolver.CheckFirstWolfe d steplen = CDiscAdjSolver.CheckFirstWolfe d steplen2 := by
  have hfea : ∀ t : ℚ, ((CheckFirstWolfe nElem s t).1 = true ↔
      s.Lagrangian_Value > s.Lagrangian_Value_Old
        + 1 / 10000 * ∑ i in range nElem, s.DesignVarUpdate i * s.Lagrange_Sens_Old i) := by
    intro t
    unfold CheckFirstWolfe
    by_cases h : s.Lagrangian_Value ≤ s.Lagrangian_Value_Old
        + 1 / 10000 * ∑ i in range nElem, s.DesignVarUpdate i * s.Lagrange_Sens_Old i
    · simp only [if_pos h]
      constructor
      · intro h1; cases h1
      · intro h1; exact absurd h (not_le.mpr h1)
    · simp only [if_neg h]
      constructor
      · intro _; exact not_le.mp h
      · intro _; split_ifs <;> rfl
  have hdis : ∀ t : ℚ, (CDiscAdjSolver.CheckFirstWolfe d t = true ↔
      d.Lagrangian_Value > d.Lagrangian_Value_Old
        + 1 / 10000 * ∑ i in range 38, d.DesignVarUpdateReal i * d.ProjectedSens i) := by
    intro t
    unfold CDiscAdjSolver.CheckFirstWolfe
    by_cases h : d.Lagrangian_Value ≤ d.Lagrangian_Value_Old
        + 1 / 10000 * ∑ i in range 38, d.DesignVarUpdateReal i * d.ProjectedSens i
    · simp only [if_pos h]
      constructor
      · intro h1; cases h1
      · intro h1; exact absurd h (not_le.mpr h1)
    · simp only [if_neg h]
      constructor
      · intro _; exact not_le.mp h
      · intro _; trivial
  refine ⟨hfea steplen, ?_, ?_, hdis steplen, ?_, ?_⟩
  · rw [← hfea steplen]; simp
  · have h1 := hfea steplen
    have h2 := hfea steplen2
    cases hb : (CheckFirstWolfe nElem s steplen).1 <;>
      cases hb2 : (CheckFirstWolfe nElem s steplen2).1 <;> simp_all
  · rw [← hdis steplen]; simp
  · rfl

/-- The test of `CheckDescentDirection` in terms of the directional derivative. -/
theorem CheckDescentDirection_eq (s : CDiscAdjSolver) (steplen : ℚ) :
    CDiscAdjSolver.CheckDescentDirection s steplen = true ↔ s.slope ≤ 0 := by
  unfold CDiscAdjSolver.CheckDescentDirection CDiscAdjSolver.slope
  by_cases h : (∑ iVertex in range 38, s.UpdateSens iVertex * s.ProjectedSens iVertex) ≤ 0
  · simp only [if_pos h]
    exact ⟨fun _ => h, fun _ => trivial⟩
  · simp only [if_neg h]
    exact ⟨fun hc => (by cases hc), fun hc => absurd hc h⟩

/-- `ChangeDirection` negates the directional derivative. -/
theorem slope_ChangeDirection (s : CDiscAdjSolver) :
    (CDiscAdjSolver.ChangeDirection s).slope = -s.slope := by
  unfold CDiscAdjSolver.slope
  rw [← Finset.sum_neg_distrib]
  refine Finset.sum_congr rfl (fun i hi => ?_)
  show writeRange 38 (fun iVertex => -s.UpdateSens iVertex) s.UpdateSens i * s.ProjectedSens i = _
  rw [writeRange_lt _ _ (Finset.mem_range.mp hi)]
  ring

/-- C21: `CDiscAdjSolver::CheckDescentDirection` returns true if and only if the
directional derivative `sum_{i<38} UpdateSens[i]*ProjectedSens[i]` is `<= 0`, for every
state and every `steplen` (it writes no member: the routine yields the flag only);
`ChangeDirection` negates the 38 entries of `UpdateSens`, and whenever
`CheckDescentDirection` returns false, the call after `ChangeDirection` returns true. -/
theorem CheckDescentDirection_iff (s : CDiscAdjSolver) (steplen steplen2 : ℚ) :
    (CDiscAdjSolver.CheckDescentDirection s steplen = true ↔
      (∑ i in range 38, s.UpdateSens i * s.ProjectedSens i) ≤ 0) ∧
    (∀ i, i < 38 → (CDiscAdjSolver.ChangeDirection s).UpdateSens i = -s.UpdateSens i) ∧
    (CDiscAdjSolver.CheckDescentDirection s steplen = false →
      CDiscAdjSolver.CheckDescentDirection (CDiscAdjSolver.ChangeDirection s) steplen2
        = true) := by
  refine ⟨CheckDescentDirection_eq s steplen, fun i hi => ?_, fun hf => ?_⟩
  · show writeRange 38 (fun iVertex => -s.UpdateSens iVertex) s.UpdateSens i = _
    rw [writeRange_lt _ _ hi]
  · rw [CheckDescentDirection_eq, slope_ChangeDirection]
    have hpos : ¬ s.slope ≤ 0 := by
      intro h
      rw [(CheckDescentDirection_eq s steplen).mpr h] at hf
      cases hf
    linarith [not_le.mp hpos]

/-- The value returned by `QuadraticApproximation` when the divisor is not zero. -/
theorem QuadraticApproximation_some (s : CDiscAdjSolver) (steplen : ℚ)
    (hden : s.Lagrangian_Value - s.Lagrangian_Value_Old - s.slope * steplen ≠ 0) :
    (CDiscAdjSolver.QuadraticApproximation s steplen).1
      = some (-s.slope * steplen ^ 2
          / (2 * (s.Lagrangian_Value - s.Lagrangian_Value_Old - s.slope * steplen))) := by
  unfold CDiscAdjSolver.QuadraticApproximation CDiscAdjSolver.slope at *
  simp only []
  rw [if_neg (mul_ne_zero two_ne_zero hden)]
  simp only [pow_two, mul_assoc]

/-- No value is returned by `QuadraticApproximation` when the divisor is zero. -/
theorem QuadraticApproximation_none (s : CDiscAdjSolver) (steplen : ℚ)
    (hden : s.Lagrangian_Value - s.Lagrangian_Value_Old - s.slope * steplen = 0) :
    (CDiscAdjSolver.QuadraticApproximation s steplen).1 = none := by
  unfold CDiscAdjSolver.QuadraticApproximation CDiscAdjSolver.slope at *
  simp only []
  rw [if_pos (by rw [hden, mul_zero])]

/-- C22: for every step `s != 0`, with `g = sum_{i<38} UpdateSens[i]*ProjectedSens[i]`,
`L_old = Lagrangian_Value_Old`, `L_new = Lagrangian_Value` and `L_new - L_old - g*s != 0`,
`QuadraticApproximation(s)` returns `t = -g*s^2 / (2*(L_new - L_old - g*s))`; the quadratic
`q` with `q(0) = L_old`, `q'(0) = g`, `q(s) = L_new` has `q'(t) = 0`, `t` is the only point
with `q'(u) = 0`, and `t` minimises `q` when `L_new - L_old - g*s > 0`. -/
theorem QuadraticApproximation_stationary (s : CDiscAdjSolver) (steplen : ℚ)
    (hs : steplen ≠ 0)
    (hden : s.Lagrangian_Value - s.Lagrangian_Value_Old - s.slope * steplen ≠ 0) :
    ∃ t : ℚ,
      (CDiscAdjSolver.QuadraticApproximation s steplen).1 = some t ∧
      t = -s.slope * steplen ^ 2
          / (2 * (s.Lagrangian_Value - s.Lagrangian_Value_Old - s.slope * steplen)) ∧
      quadraticModel s.Lagrangian_Value_Old s.slope s.Lagrangian_Value steplen 0
        = s.Lagrangian_Value_Old ∧
      quadraticModelDeriv s.Lagrangian_Value_Old s.slope s.Lagrangian_Value steplen 0
        = s.slope ∧
      quadraticModel s.Lagrangian_Value_Old s.slope s.Lagrangian_Value steplen steplen
        = s.Lagrangian_Value ∧
      quadraticModelDeriv s.Lagrangian_Value_Old s.slope s.Lagrangian_Value steplen t = 0 ∧
      (∀ u : ℚ,
        quadraticModelDeriv s.Lagrangian_Value_Old s.slope s.Lagrangian_Value steplen u = 0 →
          u = t) ∧
      (0 < s.Lagrangian_Value - s.Lagrangian_Value_Old - s.slope * steplen →
        ∀ u : ℚ,
          quadraticModel s.Lagrangian_Value_Old s.slope s.Lagrangian_Value steplen t
            ≤ quadraticModel s.Lagrangian_Value_Old s.slope s.Lagrangian_Value steplen u) := by
  set g := s.slope with hg
  set Lo := s.Lagrangian_Value_Old with hLo
  set Ln := s.Lagrangian_Value with hLn
  have hs2 : steplen ^ 2 ≠ 0 := pow_ne_zero 2 hs
  have hc : (Ln - Lo - g * steplen) / steplen ^ 2 ≠ 0 := div_ne_zero hden hs2
  have hd : quadraticModelDeriv Lo g Ln steplen
      (-g * steplen ^ 2 / (2 * (Ln - Lo - g * steplen))) = 0 := by
    unfold quadraticModelDeriv
    field_simp
    ring
  refine ⟨-g * steplen ^ 2 / (2 * (Ln - Lo - g * steplen)),
    QuadraticApproximation_some s steplen hden, rfl, ?_, ?_, ?_, hd, ?_, ?_⟩
  · unfold quadraticModel
    ring
  · unfold quadraticModelDeriv
    ring
  · unfold quadraticModel
    rw [div_mul_cancel₀ _ hs2]
    ring
  · intro u hu
    unfold quadraticModelDeriv at hu hd
    have h2 : 2 * ((Ln - Lo - g * steplen) / steplen ^ 2)
        * (u - -g * steplen ^ 2 / (2 * (Ln - Lo - g * steplen))) = 0 := by
      linear_combination hu - hd
    rcases mul_eq_zero.mp h2 with h3 | h3
    · exact absurd h3 (mul_ne_zero two_ne_zero hc)
    · linarith
  · intro hpos u
    have hcpos : 0 < (Ln - Lo - g * steplen) / steplen ^ 2 :=
      div_pos hpos (by positivity)
    have key : quadraticModel Lo g Ln steplen u
        - quadraticModel Lo g Ln steplen (-g * steplen ^ 2 / (2 * (Ln - Lo - g * steplen)))
        = quadraticModelDeriv Lo g Ln steplen
              (-g * steplen ^ 2 / (2 * (Ln - Lo - g * steplen)))
            * (u - -g * steplen ^ 2 / (2 * (Ln - Lo - g * steplen)))
          + (Ln - Lo - g * steplen) / steplen ^ 2
            * (u - -g * steplen ^ 2 / (2 * (Ln - Lo - g * steplen))) ^ 2 := by
      unfold quadraticModel quadraticModelDeriv
      ring
    rw [hd, zero_mul, zero_add] at key
    have : 0 ≤ (Ln - Lo - g * steplen) / steplen ^ 2
        * (u - -g * steplen ^ 2 / (2 * (Ln - Lo - g * steplen))) ^ 2 :=
      mul_nonneg (le_of_lt hcpos) (sq_nonneg _)
    linarith

theorem flatState_slope : flatState.slope = -1 := by
  unfold CDiscAdjSolver.slope
  show (∑ i in range 38, unitVec (-1) i * unitVec 1 i) = -1
  rw [sum_unitVec_mul (by norm_num)]
  simp [unitVec]

theorem linearState_slope : linearState.slope = -1 := flatState_slope

/-- C22 (witness): direction `[-1,0,..]`, gradient `[1,0,..]` (`g = -1`),
`L_old = L_new = 0` and step `1`: the returned step is `1/2`. -/
theorem QuadraticApproximation_stationary_witness :
    ∃ t : ℚ,
      (CDiscAdjSolver.QuadraticApproximation flatState 1).1 = some t ∧
      t = -flatState.slope * 1 ^ 2
          / (2 * (flatState.Lagrangian_Value - flatState.Lagrangian_Value_Old
            - flatState.slope * 1)) :=
  have h := QuadraticApproximation_stationary flatState 1 one_ne_zero
    (by rw [flatState_slope]; norm_num [flatState, zeroSolver])
  h.elim fun t ht => ⟨t, ht.1, ht.2.1⟩

/-- C23 (counterexample): direction `[-1,0,..]`, gradient `[1,0,..]` (`g = -1`),
`L_old = 0`, `L_new = -1` and step `s = 1`: the denominator `L_new - L_old - g*s` is `0`,
and `QuadraticApproximation` divides by it: no step is returned, in particular not the
halved step `1/2`. -/
theorem QuadraticApproximation_divides_by_zero :
    linearState.Lagrangian_Value - linearState.Lagrangian_Value_Old - linearState.slope * 1
      = 0 ∧
    (CDiscAdjSolver.QuadraticApproximation linearState 1).1 = none ∧
    (CDiscAdjSolver.QuadraticApproximation linearState 1).1 ≠ some (1 / 2) := by
  have h0 : linearState.Lagrangian_Value - linearState.Lagrangian_Value_Old
      - linearState.slope * 1 = 0 := by
    rw [linearState_slope]
    norm_num [linearState, flatState, zeroSolver]
  have hn := QuadraticApproximation_none linearState 1 h0
  refine ⟨h0, hn, ?_⟩
  rw [hn]
  simp

/-- C23 (amended): `QuadraticApproximation(s)` has no test of its denominator and no
fallback.  When `L_new - L_old - g*s` is zero the division is performed all the same and
no step is returned (the model has no value); when it is not zero the value returned is
the quotient `-g*s^2/(2*(L_new - L_old - g*s))`, so the halved step `s/2` is returned only
when the quotient equals it.  In both cases `GradPhiCubic = g`, `PhiCubic = L_old`,
`PhiOld = L_new` and `StepOld = s` are recorded. -/
theorem QuadraticApproximation_no_fallback (s : CDiscAdjSolver) (steplen : ℚ) :
    (s.Lagrangian_Value - s.Lagrangian_Value_Old - s.slope * steplen = 0 →
      (CDiscAdjSolver.QuadraticApproximation s steplen).1 = none) ∧
    (s.Lagrangian_Value - s.Lagrangian_Value_Old - s.slope * steplen ≠ 0 →
      (CDiscAdjSolver.QuadraticApproximation s steplen).1
        = some (-s.slope * steplen ^ 2
            / (2 * (s.Lagrangian_Value - s.Lagrangian_Value_Old - s.slope * steplen)))) ∧
    ((CDiscAdjSolver.QuadraticApproximation s steplen).1 = some (steplen / 2) →
      s.Lagrangian_Value - s.Lagrangian_Value_Old - s.slope * steplen ≠ 0 ∧
      -s.slope * steplen ^ 2
          / (2 * (s.Lagrangian_Value - s.Lagrangian_Value_Old - s.slope * steplen))
        = steplen / 2) ∧
    (CDiscAdjSolver.QuadraticApproximation s steplen).2.GradPhiCubic = s.slope ∧
    (CDiscAdjSolver.QuadraticApproximation s steplen).2.PhiCubic = s.Lagrangian_Value_Old ∧
    (CDiscAdjSolver.QuadraticApproximation s steplen).2.PhiOld = s.Lagrangian_Value ∧
    (CDiscAdjSolver.QuadraticApproximation s steplen).2.StepOld = steplen := by
  have hstate : ∀ P : CDiscAdjSolver → Prop,
      P { s with
          GradPhiCubic := s.slope
          PhiCubic := s.Lagrangian_Value_Old
          PhiOld := s.Lagrangian_Value
          StepOld := steplen } →
      P (CDiscAdjSolver.QuadraticApproximation s steplen).2 := by
    intro P hP
    unfold CDiscAdjSolver.QuadraticApproximation
    simp only []
    split_ifs <;> exact hP
  refine ⟨QuadraticApproximation_none s steplen, QuadraticApproximation_some s steplen,
    fun h => ?_, hstate (fun x => x.GradPhiCubic = s.slope) rfl,
    hstate (fun x => x.PhiCubic = s.Lagrangian_Value_Old) rfl,
    hstate (fun x => x.PhiOld = s.Lagrangian_Value) rfl,
    hstate (fun x => x.StepOld = steplen) rfl⟩
  by_cases hden : s.Lagrangian_Value - s.Lagrangian_Value_Old - s.slope * steplen = 0
  · rw [QuadraticApproximation_none s steplen hden] at h
    cases h
  · rw [QuadraticApproximation_some s steplen hden] at h
    exact ⟨hden, Option.some.inj h⟩

/-- The candidate step of the cubic model at the samples of `cubicState` with the current
step `4` is `3`. -/
theorem cubicState_candidate : cubicCandidate Rat.sqrt cubicState 4 = 3 := by
  have h36 : Rat.sqrt 36 = 6 := by
    rw [show (36 : ℚ) = 6 * 6 by norm_num, Rat.sqrt_eq]
    norm_num
  unfold cubicCandidate
  norm_num [cubicState, zeroSolver, h36]

/-- C24 (counterexample): with the samples of `phi(t) = -9*t - 3*t^2 + t^3` at the old
step `8` and the current step `s = 4`, the candidate of the cubic model is `t = 3`, so
`|t - s| = 1` is neither below `1e-15` nor above `s/2 = 2`; `CubicApproximation(4)` returns
`2 = s/2`, not `t` (the test in the source is `|t - s| > 0.5`). -/
theorem CubicApproximation_absolute_window :
    cubicCandidate Rat.sqrt cubicState 4 = 3 ∧
    ¬ (|cubicCandidate Rat.sqrt cubicState 4 - 4| < 1 / 10 ^ 15) ∧
    ¬ (|cubicCandidate Rat.sqrt cubicState 4 - 4| > 4 / 2) ∧
    (CDiscAdjSolver.CubicApproximation Rat.sqrt cubicState 4).1 = 2 ∧
    (CDiscAdjSolver.CubicApproximation Rat.sqrt cubicState 4).1
      ≠ cubicCandidate Rat.sqrt cubicState 4 := by
  have habs : |(3 : ℚ) - 4| = 1 := by norm_num [abs_of_neg]
  have hres : (CDiscAdjSolver.CubicApproximation Rat.sqrt cubicState 4).1 = 2 := by
    unfold CDiscAdjSolver.CubicApproximation
    simp only [cubicState_candidate, habs]
    norm_num
  refine ⟨cubicState_candidate, ?_, ?_, hres, ?_⟩
  · rw [cubicState_candidate, habs]; norm_num
  · rw [cubicState_candidate, habs]; norm_num
  · rw [hres, cubicState_candidate]; norm_num

/-- C24 (amended): for every state and current step `s`, with `t` the candidate computed
from the cubic model, `CubicApproximation(s)` returns `s/2` whenever `|t - s| < 1e-15`, or
`|t - s| > 0.5` (an absolute threshold, the same for every `s`), or `t = 0`, and returns
`t` otherwise; in every case it records `PhiOld = Lagrangian_Value` and `StepOld = s`. -/
theorem CubicApproximation_window (sqrt : ℚ → ℚ) (s : CDiscAdjSolver) (steplen : ℚ) :
    ((|cubicCandidate sqrt s steplen - steplen| < 1 / 10 ^ 15 ∨
        |cubicCandidate sqrt s steplen - steplen| > 1 / 2 ∨
        cubicCandidate sqrt s steplen = 0) →
      (CDiscAdjSolver.CubicApproximation sqrt s steplen).1 = steplen / 2) ∧
    (¬ (|cubicCandidate sqrt s steplen - steplen| < 1 / 10 ^ 15 ∨
        |cubicCandidate sqrt s steplen - steplen| > 1 / 2 ∨
        cubicCandidate sqrt s steplen = 0) →
      (CDiscAdjSolver.CubicApproximation sqrt s steplen).1 = cubicCandidate sqrt s steplen) ∧
    (CDiscAdjSolver.CubicApproximation sqrt s steplen).2.PhiOld = s.Lagrangian_Value ∧
    (CDiscAdjSolver.CubicApproximation sqrt s steplen).2.StepOld = steplen := by
  have hhalf : steplen * (1 / 2) = steplen / 2 := by ring
  refine ⟨fun h => ?_, fun h => ?_, ?_, ?_⟩
  · unfold CDiscAdjSolver.CubicApproximation
    simp only []
    by_cases h1 : |cubicCandidate sqrt s steplen - steplen| < 1 / 10 ^ 15
    · rw [if_pos h1]
      exact hhalf
    · have h2 : |cubicCandidate sqrt s steplen - steplen| > 1 / 2
          ∨ cubicCandidate sqrt s steplen = 0 := by
        rcases h with h | h
        · exact absurd h h1
        · exact h
      rw [if_neg h1, if_pos h2]
      exact hhalf
  · push_neg at h
    unfold CDiscAdjSolver.CubicApproximation
    simp only []
    rw [if_neg (not_lt.mpr h.1), if_neg (by
      rintro (h2 | h2)
      · exact absurd h2 (not_lt.mpr h.2.1)
      · exact h.2.2 h2)]
  · unfold CDiscAdjSolver.CubicApproximation
    simp only []
    split_ifs <;> rfl
  · unfold CDiscAdjSolver.CubicApproximation
    simp only []
    split_ifs <;> rfl

/-- C28: for every step `s > 0`, if the direction is a strict descent direction
(`g = sum_{i<38} UpdateSens[i]*ProjectedSens[i] < 0`) and sufficient decrease failed
(`Lagrangian_Value > Lagrangian_Value_Old + 1e-4*s*g`), then the divisor
`2*(Lagrangian_Value - Lagrangian_Value_Old - g*s)` of `QuadraticApproximation(s)` is
strictly positive and the call returns `t` with `0 < t < s/(2*(1 - 1e-4)) < s`. -/
theorem QuadraticApproximation_backtrack (s : CDiscAdjSolver) (steplen : ℚ)
    (hs : 0 < steplen) (hg : s.slope < 0)
    (hfail : s.Lagrangian_Value > s.Lagrangian_Value_Old + 1 / 10000 * steplen * s.slope) :
    0 < 2 * (s.Lagrangian_Value - s.Lagrangian_Value_Old - s.slope * steplen) ∧
    ∃ t : ℚ,
      (CDiscAdjSolver.QuadraticApproximation s steplen).1 = some t ∧
      0 < t ∧ t < steplen / (2 * (1 - 1 / 10000)) ∧
      steplen / (2 * (1 - 1 / 10000)) < steplen := by
  set g := s.slope with hgdef
  have hgs : g * steplen < 0 := mul_neg_of_neg_of_pos hg hs
  have hden : 0 < s.Lagrangian_Value - s.Lagrangian_Value_Old - g * steplen := by
    nlinarith
  have hlow : -(g * steplen) * (1 - 1 / 10000)
      < s.Lagrangian_Value - s.Lagrangian_Value_Old - g * steplen := by
    nlinarith
  refine ⟨by linarith, -g * steplen ^ 2
      / (2 * (s.Lagrangian_Value - s.Lagrangian_Value_Old - g * steplen)),
    QuadraticApproximation_some s steplen (ne_of_gt hden), ?_, ?_, ?_⟩
  · apply div_pos
    · have : 0 < steplen ^ 2 := by positivity
      nlinarith
    · linarith
  · rw [div_lt_div_iff₀ (by linarith) (by norm_num)]
    have h1 : 0 < -(g * steplen) := by linarith
    nlinarith [mul_pos hs h1, mul_pos hs (sub_pos.mpr hlow)]
  · rw [div_lt_iff₀ (by norm_num)]
    linarith

/-- C28 (witness): direction `[-1,0,..]`, gradient `[1,0,..]` (`g = -1`),
`L_old = L_new = 0` and step `1`. -/
theorem QuadraticApproximation_backtrack_witness :
    0 < 2 * (flatState.Lagrangian_Value - flatState.Lagrangian_Value_Old
      - flatState.slope * 1) ∧
    ∃ t : ℚ,
      (CDiscAdjSolver.QuadraticApproximation flatState 1).1 = some t ∧
      0 < t ∧ t < 1 / (2 * (1 - 1 / 10000)) ∧
      (1 : ℚ) / (2 * (1 - 1 / 10000)) < 1 :=
  QuadraticApproximation_backtrack flatState 1 one_pos
    (by rw [flatState_slope]; norm_num)
    (by rw [flatState_slope]; norm_num [flatState, zeroSolver])

/-- C26: `VolumeProjection` saves the direction it is given in `UpdateSensOld`, and
`CheckFirstWolfe` ends with `UpdateSens` determined by `UpdateSensOld`: when the step is
rejected (`Lagrangian_Value > Lagrangian_Value_Old + 1e-4*h`) and
`h = sum_i DesignVarUpdate[i]*Lagrange_Sens_Old[i] > 0`, `UpdateSens[i] = -1e-3*UpdateSensOld[i]`
for every element `i`; in every other case (accepted, or rejected with `h <= 0`)
`UpdateSens[i] = UpdateSensOld[i]`; `UpdateSensOld` itself is left as it was. -/
theorem CheckFirstWolfe_direction (nElem : Nat) (config : CConfig) (s0 s : CDiscAdjFEASolver)
    (steplen0 steplen : ℚ) (i : Nat) (hi : i < nElem) :
    (VolumeProjection nElem config s0 steplen0).UpdateSensOld i = s0.UpdateSens i ∧
    ((s.Lagrangian_Value > s.Lagrangian_Value_Old
          + 1 / 10000 * ∑ k in range nElem, s.DesignVarUpdate k * s.Lagrange_Sens_Old k ∧
        (∑ k in range nElem, s.DesignVarUpdate k * s.Lagrange_Sens_Old k) > 0) →
      (CheckFirstWolfe nElem s steplen).1 = true ∧
      (CheckFirstWolfe nElem s steplen).2.UpdateSens i = -(1 / 1000) * s.UpdateSensOld i) ∧
    (¬ (s.Lagrangian_Value > s.Lagrangian_Value_Old
          + 1 / 10000 * ∑ k in range nElem, s.DesignVarUpdate k * s.Lagrange_Sens_Old k ∧
        (∑ k in range nElem, s.DesignVarUpdate k * s.Lagrange_Sens_Old k) > 0) →
      (CheckFirstWolfe nElem s steplen).2.UpdateSens i = s.UpdateSensOld i) ∧
    (CheckFirstWolfe nElem s steplen).2.UpdateSensOld = s.UpdateSensOld := by
  refine ⟨?_, ?_, ?_, ?_⟩
  · show writeRange nElem s0.UpdateSens s0.UpdateSensOld i = s0.UpdateSens i
    rw [writeRange_lt _ _ hi]
  · rintro ⟨hrej, hpos⟩
    unfold CheckFirstWolfe
    simp only [if_neg (not_le.mpr hrej), if_pos hpos]
    refine ⟨trivial, ?_⟩
    show writeRange nElem (fun i => -(1 / 1000) * s.UpdateSensOld i) _ i = _
    rw [writeRange_lt _ _ hi]
  · intro hno
    unfold CheckFirstWolfe
    by_cases hacc : s.Lagrangian_Value ≤ s.Lagrangian_Value_Old
        + 1 / 10000 * ∑ k in range nElem, s.DesignVarUpdate k * s.Lagrange_Sens_Old k
    · simp only [if_pos hacc]
      show writeRange nElem s.UpdateSensOld s.UpdateSens i = _
      rw [writeRange_lt _ _ hi]
    · have hpos : ¬ (∑ k in range nElem, s.DesignVarUpdate k * s.Lagrange_Sens_Old k) > 0 :=
        fun h => hno ⟨not_le.mp hacc, h⟩
      simp only [if_neg hacc, if_neg hpos]
      show writeRange nElem s.UpdateSensOld s.UpdateSens i = _
      rw [writeRange_lt _ _ hi]
  · unfold CheckFirstWolfe
    simp only []
    split_ifs <;> rfl

/-- C26 (witness): the one-element state with equal Lagrangian values, update `1` and old
gradient `1` (the step is accepted): `UpdateSens[0] = UpdateSensOld[0]`. -/
theorem CheckFirstWolfe_direction_witness :
    (VolumeProjection 1 sampleConfig ascentState 1).UpdateSensOld 0 = ascentState.UpdateSens 0 ∧
    (CheckFirstWolfe 1 ascentState 1).2.UpdateSensOld = ascentState.UpdateSensOld :=
  have h := CheckFirstWolfe_direction 1 sampleConfig ascentState ascentState 1 1 0 (by decide)
  ⟨h.1, h.2.2.2⟩

/-- The entry left by the two cuts of `DesignUpdateProjected` keeps the design variable
in the box when the arithmetic is exact, wherever the design variable and the proposed
update lie. -/
theorem projectedEntry_box (config : CConfig) (normsens : ℚ) (s : CDiscAdjSolver) (steplen : ℚ)
    (i : Nat) :
    InBox (s.DesignVar i + projectedEntry (fun x => x) config normsens s steplen i) := by
  unfold projectedEntry InBox
  simp only []
  split_ifs <;> constructor <;> linarith

/-- The integer chosen by `roundNearestEven` when one integer is nearest. -/
theorem roundNearestEven_eq {y : ℚ} {n : ℤ} (h : |y - n| < 1 / 2) : roundNearestEven y = n := by
  have h1 := abs_lt.mp h
  have hf1 : (⌊y⌋ : ℚ) ≤ y := Int.floor_le y
  have hf2 : y < ⌊y⌋ + 1 := Int.lt_floor_add_one y
  have hle : ⌊y⌋ ≤ n := by
    have : (⌊y⌋ : ℚ) < n + 1 := by linarith [h1.2]
    have : ⌊y⌋ < n + 1 := by exact_mod_cast this
    omega
  have hge : n - 1 ≤ ⌊y⌋ := by
    have : (n : ℚ) - 1 < ⌊y⌋ + 1 := by linarith [h1.1]
    have : n - 1 < ⌊y⌋ + 1 := by exact_mod_cast this
    omega
  unfold roundNearestEven
  rcases (show ⌊y⌋ = n ∨ ⌊y⌋ = n - 1 by omega) with he | he
  · rw [if_pos (by rw [he]; linarith [h1.2]), he]
  · have hgt : y - ⌊y⌋ > 1 / 2 := by rw [he]; push_cast; linarith [h1.1]
    rw [if_neg (by linarith), if_pos hgt, he]
    ring

/-- The integer chosen by `roundNearestEven` is at most `1/2` away. -/
theorem roundNearestEven_error (y : ℚ) : |(roundNearestEven y : ℚ) - y| ≤ 1 / 2 := by
  have hf1 : (⌊y⌋ : ℚ) ≤ y := Int.floor_le y
  have hf2 : y < ⌊y⌋ + 1 := Int.lt_floor_add_one y
  unfold roundNearestEven
  rw [abs_le]
  split_ifs with h1 h2 h3
  · constructor <;> linarith
  · push_cast
    constructor <;> linarith
  · constructor <;> linarith
  · push_cast
    constructor <;> linarith

/-- The binary exponent of a number between two consecutive powers of two. -/
theorem log_two_eq {x : ℚ} {e : ℤ} (h1 : (2 : ℚ) ^ e ≤ |x|) (h2 : |x| < 2 ^ (e + 1)) :
    Int.log 2 |x| = e := by
  have hpos : 0 < |x| := lt_of_lt_of_le (by positivity) h1
  have a := (Int.zpow_le_iff_le_log (by norm_num : 1 < 2) hpos).mp h1
  have b := (Int.lt_zpow_iff_log_lt (by norm_num : 1 < 2) hpos).mp h2
  omega

/-- The value of `roundDouble` from the binary exponent `e` of `x` and the integer `n`
nearest to `x / 2^(e-52)`. -/
theorem roundDouble_eq {x : ℚ} {e n : ℤ} (h1 : (2 : ℚ) ^ e ≤ |x|) (h2 : |x| < 2 ^ (e + 1))
    (hn : |x / 2 ^ (e - 52) - n| < 1 / 2) : roundDouble x = n * 2 ^ (e - 52) := by
  have hpos : 0 < |x| := lt_of_lt_of_le (by positivity) h1
  unfold roundDouble
  rw [if_neg (abs_pos.mp hpos), log_two_eq h1 h2, roundNearestEven_eq hn]

/-- The relative error of `roundDouble` is at most `2^-53`. -/
theorem roundDouble_error (x : ℚ) : |roundDouble x - x| ≤ 1 / 2 ^ 53 * |x| := by
  unfold roundDouble
  by_cases hx : x = 0
  · rw [if_pos hx, hx]
    simp
  · rw [if_neg hx]
    have hpos : 0 < |x| := abs_pos.mpr hx
    have hq : (0 : ℚ) < 2 ^ (Int.log 2 |x| - 52) := by positivity
    have hlog : (2 : ℚ) ^ Int.log 2 |x| ≤ |x| := Int.zpow_log_le_self (by norm_num) hpos
    have hr := roundNearestEven_error (x / 2 ^ (Int.log 2 |x| - 52))
    have e1 : (roundNearestEven (x / 2 ^ (Int.log 2 |x| - 52)) : ℚ) * 2 ^ (Int.log 2 |x| - 52) - x
        = ((roundNearestEven (x / 2 ^ (Int.log 2 |x| - 52)) : ℚ)
            - x / 2 ^ (Int.log 2 |x| - 52)) * 2 ^ (Int.log 2 |x| - 52) := by
      field_simp
    have e2 : (2 : ℚ) ^ (Int.log 2 |x| - 52) = 2 ^ Int.log 2 |x| / 2 ^ 52 := by
      rw [zpow_sub₀ (by norm_num : (2 : ℚ) ≠ 0)]
      norm_num
    rw [e1, abs_mul, abs_of_pos hq]
    calc |(roundNearestEven (x / 2 ^ (Int.log 2 |x| - 52)) : ℚ)
            - x / 2 ^ (Int.log 2 |x| - 52)| * 2 ^ (Int.log 2 |x| - 52)
        ≤ 1 / 2 * 2 ^ (Int.log 2 |x| - 52) := mul_le_mul_of_nonneg_right hr (le_of_lt hq)
      _ = 1 / 2 ^ 53 * 2 ^ Int.log 2 |x| := by rw [e2]; ring
      _ ≤ 1 / 2 ^ 53 * |x| := mul_le_mul_of_nonneg_left hlog (by positivity)

/-- The `double` constant `0.005`. -/
theorem roundDouble_bound : roundDouble (5 / 1000) = 5764607523034235 / 2 ^ 60 := by
  rw [@roundDouble_eq (5 / 1000) (-8) 5764607523034235 (by norm_num [abs_of_pos])
    (by norm_num [abs_of_pos]) (by norm_num [abs_lt])]
  norm_num

/-- For a rounding `fl` of relative error at most `u`, the design variable left by
`ApplyDesignVar` after the cuts of `DesignUpdateProjected` exceeds the rounded bound
`c = fl(0.005)` in modulus by at most `u*((1 + u)*(c + |DesignVar|) + c)`. -/
theorem projectedEntry_rounded (fl : ℚ → ℚ) (u : ℚ) (hu : 0 ≤ u)
    (hfl : ∀ z, |fl z - z| ≤ u * |z|) (hc : 0 ≤ fl (5 / 1000)) (config : CConfig)
    (normsens : ℚ) (s : CDiscAdjSolver) (steplen : ℚ) (i : Nat) :
    |fl (s.DesignVar i + projectedEntry fl config normsens s steplen i)|
      ≤ fl (5 / 1000) + u * ((1 + u) * (fl (5 / 1000) + |s.DesignVar i|) + fl (5 / 1000)) := by
  set c := fl (5 / 1000) with hcdef
  set D := s.DesignVar i with hD
  have hD0 : 0 ≤ |D| := abs_nonneg D
  have hE : 0 ≤ u * ((1 + u) * (c + |D|) + c) := by positivity
  -- a cut to the bound `b` (`b = c` or `b = -c`) leaves a sum within the error of `b`
  have hcut : ∀ b : ℚ, |b| = c →
      |fl (D + fl (b - D)) - b| ≤ u * ((1 + u) * (c + |D|) + c) := by
    intro b hb
    have h1 := hfl (b - D)
    have h2 := hfl (D + fl (b - D))
    have hz : |b - D| ≤ c + |D| := by
      have := abs_sub b D
      linarith
    have he1 : |fl (b - D) - (b - D)| ≤ u * (c + |D|) :=
      le_trans h1 (mul_le_mul_of_nonneg_left hz hu)
    have hsum : |D + fl (b - D)| ≤ c + u * (c + |D|) := by
      have e : D + fl (b - D) = b + (fl (b - D) - (b - D)) := by ring
      rw [e]
      have := abs_add b (fl (b - D) - (b - D))
      linarith
    have he2 : |fl (D + fl (b - D)) - (D + fl (b - D))| ≤ u * (c + u * (c + |D|)) :=
      le_trans h2 (mul_le_mul_of_nonneg_left hsum hu)
    have e : fl (D + fl (b - D)) - b
        = (fl (D + fl (b - D)) - (D + fl (b - D))) + (fl (b - D) - (b - D)) := by ring
    rw [e]
    have := abs_add (fl (D + fl (b - D)) - (D + fl (b - D))) (fl (b - D) - (b - D))
    nlinarith
  have hup := hcut c (abs_of_nonneg hc)
  have hlo := hcut (-c) (by rw [abs_neg, abs_of_nonneg hc])
  rw [abs_le] at hup hlo
  unfold projectedEntry
  simp only []
  rw [← hcdef, ← hD]
  rw [abs_le]
  split_ifs with h1 h2 h3 h4 h5 h6 h7 h8 <;> constructor <;> linarith

/-- The entries written by `DesignUpdateProjected`. -/
theorem DesignUpdateProjected_entry (fl sqrt : ℚ → ℚ) (config : CConfig) (s : CDiscAdjSolver)
    (steplen : ℚ) {i : Nat} (hi : i < 38) :
    (CDiscAdjSolver.DesignUpdateProjected fl sqrt config s steplen).DesignVarUpdateReal i
      = projectedEntry fl config
          (sqrt (fl (accumulate fl
            (fun iVertex => fl (s.UpdateSens iVertex * s.UpdateSens iVertex)) 38 / (38 * 38))))
          s steplen i ∧
    (CDiscAdjSolver.DesignUpdateProjected fl sqrt config s steplen).DesignVarUpdate i
      = projectedEntry fl config
          (sqrt (fl (accumulate fl
            (fun iVertex => fl (s.UpdateSens iVertex * s.UpdateSens iVertex)) 38 / (38 * 38))))
          s steplen i := by
  constructor
  · show writeRange 38 _ s.DesignVarUpdateReal i = _
    rw [writeRange_lt _ _ hi]
  · show writeRange 38 _ s.DesignVarUpdate i = _
    rw [writeRange_lt _ _ hi]

/-- The design variable left by `ApplyDesignVar` after `DesignUpdateProjected`. -/
theorem ApplyDesignVar_entry (fl sqrt : ℚ → ℚ) (config : CConfig) (s : CDiscAdjSolver)
    (steplen : ℚ) {i : Nat} (hi : i < 38) :
    (CDiscAdjSolver.ApplyDesignVar fl
        (CDiscAdjSolver.DesignUpdateProjected fl sqrt config s steplen)).DesignVar i
      = fl (s.DesignVar i
          + (CDiscAdjSolver.DesignUpdateProjected fl sqrt config s steplen).DesignVarUpdateReal
              i) := by
  show writeRange 38
      (fun iVertex =>
        fl ((CDiscAdjSolver.DesignUpdateProjected fl sqrt config s steplen).DesignVar iVertex
          + (CDiscAdjSolver.DesignUpdateProjected fl sqrt config s steplen).DesignVarUpdateReal
              iVertex))
      (CDiscAdjSolver.DesignUpdateProjected fl sqrt config s steplen).DesignVar i = _
  rw [writeRange_lt _ _ hi]
  rfl

theorem roundDouble_one : roundDouble 1 = 1 := by
  rw [@roundDouble_eq 1 0 4503599627370496 (by norm_num) (by norm_num) (by norm_num)]
  norm_num

theorem roundDouble_two : roundDouble 2 = 2 := by
  rw [@roundDouble_eq 2 1 4503599627370496 (by norm_num) (by norm_num) (by norm_num)]
  norm_num

/-- The `double` difference `0.005 - 1.0`. -/
theorem roundDouble_cut :
    roundDouble (5764607523034235 / 2 ^ 60 - 1) = -(8962163258467287 / 2 ^ 53) := by
  have hneg : (5764607523034235 / 2 ^ 60 - 1 : ℚ) < 0 := by norm_num
  rw [@roundDouble_eq (5764607523034235 / 2 ^ 60 - 1) (-1) (-8962163258467287)
    (by rw [abs_of_neg hneg]; norm_num) (by rw [abs_of_neg hneg]; norm_num)
    (by rw [abs_lt]; norm_num)]
  norm_num

/-- The `double` sum `1.0 + (0.005 - 1.0)` is computed without a rounding error. -/
theorem roundDouble_sum :
    roundDouble (1 + -(8962163258467287 / 2 ^ 53)) = 45035996273705 / 2 ^ 53 := by
  have hpos : (0 : ℚ) < 1 + -(8962163258467287 / 2 ^ 53) := by norm_num
  rw [@roundDouble_eq (1 + -(8962163258467287 / 2 ^ 53)) (-8) 5764607523034240
    (by rw [abs_of_pos hpos]; norm_num) (by rw [abs_of_pos hpos]; norm_num)
    (by rw [abs_lt]; norm_num)]
  norm_num

/-- The update of entry `0` in double precision at `outsideState` with step `1`. -/
theorem outsideState_entry (normsens : ℚ) :
    projectedEntry roundDouble sampleConfig normsens outsideState 1 0
      = -(8962163258467287 / 2 ^ 53) := by
  have hU : outsideState.UpdateSens 0 = 1 := by simp [outsideState, unitVec]
  have hD : outsideState.DesignVar 0 = 1 := by simp [outsideState, unitVec]
  have hO : sampleConfig.OSStepAdaptive = false := rfl
  have h11 : (1 : ℚ) + 1 = 2 := by norm_num
  have hd2 : (if roundDouble ((1 : ℚ) + 1) > 5764607523034235 / 2 ^ 60 then
        roundDouble (5764607523034235 / 2 ^ 60 - 1)
      else 1) = -(8962163258467287 / 2 ^ 53) := by
    rw [h11, roundDouble_two, if_pos (by norm_num), roundDouble_cut]
  have hlast : ¬ ((45035996273705 : ℚ) / 2 ^ 53 < -(5764607523034235 / 2 ^ 60)) := by
    norm_num
  unfold projectedEntry
  simp only [hU, hD, hO, mul_one, roundDouble_one, roundDouble_bound, Bool.false_eq_true,
    if_false, hd2, roundDouble_sum, if_neg hlast]

/-- C29 (counterexample): double precision, `DesignVar = [1,0,..]` (outside the box),
`UpdateSens = [1,0,..]` and `steplen = 1`.  The upper cut stores
`DesignVarUpdateReal[0] = 0.005 - 1.0`, rounded to `-8962163258467287/2^53`, and
`ApplyDesignVar` leaves `DesignVar[0] = 1.0 + DesignVarUpdateReal[0] = 45035996273705/2^53
= 0.0050000000000000044...`, which is above `0.005` and above the `double` constant
`0.005`. -/
theorem DesignUpdateProjected_rounding_overshoot :
    outsideState.DesignVar 0 = 1 ∧
    (CDiscAdjSolver.DesignUpdateProjected roundDouble Rat.sqrt sampleConfig outsideState
        1).DesignVarUpdateReal 0 = -(8962163258467287 / 2 ^ 53) ∧
    (CDiscAdjSolver.ApplyDesignVar roundDouble
        (CDiscAdjSolver.DesignUpdateProjected roundDouble Rat.sqrt sampleConfig outsideState
          1)).DesignVar 0 = 45035996273705 / 2 ^ 53 ∧
    ¬ InBox ((CDiscAdjSolver.ApplyDesignVar roundDouble
        (CDiscAdjSolver.DesignUpdateProjected roundDouble Rat.sqrt sampleConfig outsideState
          1)).DesignVar 0) ∧
    roundDouble (5 / 1000)
      < (CDiscAdjSolver.ApplyDesignVar roundDouble
          (CDiscAdjSolver.DesignUpdateProjected roundDouble Rat.sqrt sampleConfig outsideState
            1)).DesignVar 0 := by
  have hD : outsideState.DesignVar 0 = 1 := by simp [outsideState, unitVec]
  have hR : (CDiscAdjSolver.DesignUpdateProjected roundDouble Rat.sqrt sampleConfig outsideState
      1).DesignVarUpdateReal 0 = -(8962163258467287 / 2 ^ 53) := by
    rw [(DesignUpdateProjected_entry roundDouble Rat.sqrt sampleConfig outsideState 1
      (by norm_num : 0 < 38)).1]
    exact outsideState_entry _
  have hA : (CDiscAdjSolver.ApplyDesignVar roundDouble
      (CDiscAdjSolver.DesignUpdateProjected roundDouble Rat.sqrt sampleConfig outsideState
        1)).DesignVar 0 = 45035996273705 / 2 ^ 53 := by
    rw [ApplyDesignVar_entry roundDouble Rat.sqrt sampleConfig outsideState 1
      (by norm_num : 0 < 38), hR, hD, roundDouble_sum]
  refine ⟨hD, hR, hA, ?_, ?_⟩
  · rw [hA]
    unfold InBox
    norm_num
  · rw [hA, roundDouble_bound]
    norm_num

/-- C29 (amended): for every state (also with `DesignVar` outside the box), every
`UpdateSens` and every `steplen`, after `CDiscAdjSolver::DesignUpdateProjected` each
`i < 38` has `DesignVarUpdateReal[i] = DesignVarUpdate[i]`, `DesignVarUpdateSave[i]` holds
the `DesignVarUpdateReal[i]` from before the call, and `DesignVar` is not written.  In
exact arithmetic `-0.005 <= DesignVar[i] + DesignVarUpdateReal[i] <= 0.005`, so that a
following `ApplyDesignVar` leaves `DesignVar[i]` in `[-0.005, 0.005]`.  In double precision
(round to nearest, no overflow) the `DesignVar[i]` left by `ApplyDesignVar` satisfies
`|DesignVar[i]| <= c + 2^-53*((1 + 2^-53)*(c + |d|) + c)`, with `c` the `double` constant
`0.005` and `d` the `DesignVar[i]` before the call. -/
theorem DesignUpdateProjected_box_rounding (fl sqrt : ℚ → ℚ) (config : CConfig)
    (s : CDiscAdjSolver) (steplen : ℚ) (i : Nat) (hi : i < 38) :
    (CDiscAdjSolver.DesignUpdateProjected fl sqrt config s steplen).DesignVarUpdateReal i
      = (CDiscAdjSolver.DesignUpdateProjected fl sqrt config s steplen).DesignVarUpdate i ∧
    (CDiscAdjSolver.DesignUpdateProjected fl sqrt config s steplen).DesignVarUpdateSave i
      = s.DesignVarUpdateReal i ∧
    (CDiscAdjSolver.DesignUpdateProjected fl sqrt config s steplen).DesignVar = s.DesignVar ∧
    InBox (s.DesignVar i
      + (CDiscAdjSolver.DesignUpdateProjected (fun x => x) sqrt config s
          steplen).DesignVarUpdateReal i) ∧
    InBox ((CDiscAdjSolver.ApplyDesignVar (fun x => x)
      (CDiscAdjSolver.DesignUpdateProjected (fun x => x) sqrt config s steplen)).DesignVar i) ∧
    |(CDiscAdjSolver.ApplyDesignVar roundDouble
        (CDiscAdjSolver.DesignUpdateProjected roundDouble sqrt config s steplen)).DesignVar i|
      ≤ roundDouble (5 / 1000)
        + 1 / 2 ^ 53
          * ((1 + 1 / 2 ^ 53) * (roundDouble (5 / 1000) + |s.DesignVar i|)
            + roundDouble (5 / 1000)) := by
  have hbox : InBox (s.DesignVar i
      + (CDiscAdjSolver.DesignUpdateProjected (fun x => x) sqrt config s
          steplen).DesignVarUpdateReal i) := by
    rw [(DesignUpdateProjected_entry (fun x => x) sqrt config s steplen hi).1]
    exact projectedEntry_box config _ s steplen i
  refine ⟨?_, ?_, rfl, hbox, ?_, ?_⟩
  · rw [(DesignUpdateProjected_entry fl sqrt config s steplen hi).1,
      (DesignUpdateProjected_entry fl sqrt config s steplen hi).2]
  · show writeRange 38 s.DesignVarUpdateReal s.DesignVarUpdateSave i = _
    rw [writeRange_lt _ _ hi]
  · rw [ApplyDesignVar_entry (fun x => x) sqrt config s steplen hi]
    exact hbox
  · rw [ApplyDesignVar_entry roundDouble sqrt config s steplen hi,
      (DesignUpdateProjected_entry roundDouble sqrt config s steplen hi).1]
    exact projectedEntry_rounded roundDouble (1 / 2 ^ 53) (by positivity) roundDouble_error
      (by rw [roundDouble_bound]; positivity) config _ s steplen i

/-- C29 (witness): double precision at `DesignVar = [1,0,..]`, `UpdateSens = [1,0,..]`
and step `1`: the first design variable left by `ApplyDesignVar` is within the rounding
error of the bound. -/
theorem DesignUpdateProjected_box_rounding_witness :
    |(CDiscAdjSolver.ApplyDesignVar roundDouble
        (CDiscAdjSolver.DesignUpdateProjected roundDouble Rat.sqrt sampleConfig outsideState
          1)).DesignVar 0|
      ≤ roundDouble (5 / 1000)
        + 1 / 2 ^ 53
          * ((1 + 1 / 2 ^ 53) * (roundDouble (5 / 1000) + |outsideState.DesignVar 0|)
            + roundDouble (5 / 1000)) :=
  (DesignUpdateProjected_box_rounding roundDouble Rat.sqrt sampleConfig outsideState 1 0
    (by decide)).2.2.2.2.2

/-- Membership in the box is the negation of the test of the `while` loop. -/
theorem inBox_iff (x : ℚ) : InBox x ↔ ¬ (x > 5 / 1000 ∨ x < -(5 / 1000)) := by
  unfold InBox
  constructor
  · rintro ⟨h1, h2⟩ (h | h) <;> linarith
  · intro h
    push_neg at h
    exact ⟨h.2, h.1⟩

/-- The `while` loop for one design variable: when some halving `steplen/2^k` is in the
box, the loop ends after `j <= k` passes with `steplen/2^j`, which is in the box, and
`j = 0` when `steplen` itself is. -/
theorem halveWhile_exit (dv u : ℚ) :
    ∀ (k : Nat) (steplen : ℚ), InBox (dv + u * (steplen / 2 ^ k)) →
      ∃ j, j ≤ k ∧ InBox (dv + u * (steplen / 2 ^ j)) ∧
        (InBox (dv + u * steplen) → j = 0) ∧
        ∀ fuel, j + 1 ≤ fuel → halveWhile dv u fuel steplen = some (steplen / 2 ^ j) := by
  intro k
  induction k with
  | zero =>
    intro steplen h
    refine ⟨0, le_refl 0, h, fun _ => rfl, fun fuel hf => ?_⟩
    obtain ⟨f, rfl⟩ : ∃ f, fuel = f + 1 := ⟨fuel - 1, by omega⟩
    rw [pow_zero, div_one] at h ⊢
    rw [halveWhile, if_neg ((inBox_iff _).mp h)]
  | succ n ih =>
    intro steplen h
    by_cases hin : InBox (dv + u * steplen)
    · refine ⟨0, Nat.zero_le _, by rwa [pow_zero, div_one], fun _ => rfl, fun fuel hf => ?_⟩
      obtain ⟨f, rfl⟩ : ∃ f, fuel = f + 1 := ⟨fuel - 1, by omega⟩
      rw [pow_zero, div_one, halveWhile, if_neg ((inBox_iff _).mp hin)]
    · have e : ∀ m : Nat, steplen * (1 / 2) / 2 ^ m = steplen / 2 ^ (m + 1) := by
        intro m
        rw [pow_succ, mul_one_div, div_div, mul_comm]
      obtain ⟨j, hj, hbox, _, hfuel⟩ := ih (steplen * (1 / 2)) (by rw [e]; exact h)
      refine ⟨j + 1, by omega, by rw [← e]; exact hbox, fun h0 => absurd h0 hin,
        fun fuel hf => ?_⟩
      obtain ⟨f, rfl⟩ : ∃ f, fuel = f + 1 := ⟨fuel - 1, by omega⟩
      have hout : dv + u * steplen > 5 / 1000 ∨ dv + u * steplen < -(5 / 1000) := by
        by_contra hc
        exact hin ((inBox_iff _).mpr hc)
      rw [halveWhile, if_pos hout, hfuel f (by omega), e]

/-- For a design variable strictly inside the box some halving of the step is in the
box. -/
theorem exists_halving (dv u steplen : ℚ) (h1 : -(5 / 1000) < dv) (h2 : dv < 5 / 1000) :
    ∃ k : Nat, InBox (dv + u * (steplen / 2 ^ k)) := by
  have hm : 0 < 5 / 1000 - |dv| := by
    have : |dv| < 5 / 1000 := abs_lt.mpr ⟨h1, h2⟩
    linarith
  obtain ⟨n, hn⟩ := exists_nat_gt (|u * steplen| / (5 / 1000 - |dv|))
  have hpow : (n : ℚ) < 2 ^ n := by exact_mod_cast Nat.lt_two_pow n
  have h2n : (0 : ℚ) < 2 ^ n := by positivity
  have hlt : |u * steplen| < (5 / 1000 - |dv|) * 2 ^ n := by
    have := (div_lt_iff₀ hm).mp hn
    nlinarith
  have hq : |u * (steplen / 2 ^ n)| < 5 / 1000 - |dv| := by
    have e : u * (steplen / 2 ^ n) = u * steplen / 2 ^ n := by ring
    rw [e, abs_div, abs_of_pos h2n, div_lt_iff₀ h2n]
    exact hlt
  have hsum : |dv + u * (steplen / 2 ^ n)| < 5 / 1000 := by
    have := abs_add dv (u * (steplen / 2 ^ n))
    linarith
  have := abs_lt.mp hsum
  exact ⟨n, le_of_lt this.1, le_of_lt this.2⟩

/-- A step between `0` and a step that is in the box is in the box, when the design
variable is. -/
theorem inBox_halving {dv u t : ℚ} (h0 : InBox dv) (h1 : InBox (dv + u * t)) (j : Nat) :
    InBox (dv + u * (t / 2 ^ j)) := by
  have hp : (0 : ℚ) < 2 ^ j := by positivity
  have hone : (1 : ℚ) ≤ 2 ^ j := by exact_mod_cast Nat.one_le_two_pow
  have e : dv + u * (t / 2 ^ j) = dv + (1 / 2 ^ j) * (u * t) := by
    field_simp
  have hth0 : (0 : ℚ) < 1 / 2 ^ j := by positivity
  have hth1 : (1 : ℚ) / 2 ^ j ≤ 1 := by
    rw [div_le_one hp]
    exact hone
  rw [e]
  unfold InBox at *
  constructor
  · nlinarith [mul_nonneg (sub_nonneg.mpr hth1) (sub_nonneg.mpr h0.1),
      mul_nonneg (le_of_lt hth0) (sub_nonneg.mpr h1.1)]
  · nlinarith [mul_nonneg (sub_nonneg.mpr hth1) (sub_nonneg.mpr h0.2),
      mul_nonneg (le_of_lt hth0) (sub_nonneg.mpr h1.2)]

/-- The loop over the design variables of `DesignUpdateBounds`: for design variables
strictly inside the box it ends with `steplen/2^k`, every variable treated so far is in
the box for that step, and `k = 0` when the step given already respects the bounds. -/
theorem boundsLoop_exit (DesignVar UpdateSens : Vec) (steplen : ℚ) (n : Nat)
    (hin : ∀ i, i < n → -(5 / 1000) < DesignVar i ∧ DesignVar i < 5 / 1000) :
    ∀ m, m ≤ n → ∃ k F : Nat,
      (∀ i, i < m → InBox (DesignVar i + UpdateSens i * (steplen / 2 ^ k))) ∧
      ((∀ i, i < m → InBox (DesignVar i + UpdateSens i * steplen)) → k = 0) ∧
      ∀ fuel, F ≤ fuel → boundsLoop DesignVar UpdateSens fuel m steplen
        = some (steplen / 2 ^ k) := by
  intro m
  induction m with
  | zero =>
    intro _
    exact ⟨0, 0, fun i hi => absurd hi (Nat.not_lt_zero i), fun _ => rfl,
      fun fuel _ => by rw [pow_zero, div_one]; rfl⟩
  | succ p ih =>
    intro hp
    obtain ⟨k, F, hbox, hzero, hfuel⟩ := ih (by omega)
    obtain ⟨h1, h2⟩ := hin p (by omega)
    obtain ⟨k0, hk0⟩ := exists_halving (DesignVar p) (UpdateSens p) (steplen / 2 ^ k) h1 h2
    obtain ⟨j, _, hj, hj0, hjf⟩ := halveWhile_exit (DesignVar p) (UpdateSens p) k0
      (steplen / 2 ^ k) hk0
    have e : steplen / 2 ^ k / 2 ^ j = steplen / 2 ^ (k + j) := by
      rw [pow_add, div_div]
    refine ⟨k + j, max F (j + 1), fun i hi => ?_, fun hall => ?_, fun fuel hf => ?_⟩
    · rw [← e]
      rcases Nat.lt_succ_iff_lt_or_eq.mp hi with h | h
      · obtain ⟨a1, a2⟩ := hin i (by omega)
        exact inBox_halving ⟨le_of_lt a1, le_of_lt a2⟩ (hbox i h) j
      · subst h
        exact hj
    · have hk : k = 0 := hzero (fun i hi => hall i (by omega))
      subst hk
      have hj' : j = 0 := hj0 (by
        rw [pow_zero, div_one]
        exact hall p (by omega))
      omega
    · rw [boundsLoop, hfuel fuel (le_trans (le_max_left _ _) hf)]
      show halveWhile (DesignVar p) (UpdateSens p) fuel (steplen / 2 ^ k) = _
      rw [hjf fuel (le_trans (le_max_right _ _) hf), e]

/-- C30: for every state in which every `DesignVar[i]` (`i < 38`) lies strictly inside
`(-0.005, 0.005)`, every `UpdateSens` and every `steplen`, the halving loops of
`CDiscAdjSolver::DesignUpdateBounds` terminate (from some number of passes allowed on,
the model has a result) and the call returns `steplen/2^k` for some `k >= 0` with
`-0.005 <= DesignVar[i] + UpdateSens[i]*steplen/2^k <= 0.005` for every `i < 38` and
`DesignVarUpdateReal[i] = DesignVarUpdate[i] = UpdateSens[i]*steplen/2^k`; `k = 0` when the
full step already respects the bounds. -/
theorem DesignUpdateBounds_terminates (s : CDiscAdjSolver) (steplen : ℚ)
    (hin : ∀ i, i < 38 → -(5 / 1000) < s.DesignVar i ∧ s.DesignVar i < 5 / 1000) :
    ∃ k F : Nat,
      ((∀ i, i < 38 → InBox (s.DesignVar i + s.UpdateSens i * steplen)) → k = 0) ∧
      (∀ i, i < 38 → InBox (s.DesignVar i + s.UpdateSens i * (steplen / 2 ^ k))) ∧
      ∀ fuel, F ≤ fuel →
        ∃ s1 : CDiscAdjSolver,
          CDiscAdjSolver.DesignUpdateBounds fuel s steplen = some (steplen / 2 ^ k, s1) ∧
          (∀ i, i < 38 → s1.DesignVarUpdateReal i = s.UpdateSens i * (steplen / 2 ^ k)) ∧
          (∀ i, i < 38 → s1.DesignVarUpdate i = s.UpdateSens i * (steplen / 2 ^ k)) ∧
          (∀ i, i < 38 → s1.DesignVarUpdateSave i = s.DesignVarUpdateReal i) ∧
          s1.DesignVar = s.DesignVar := by
  obtain ⟨k, F, hbox, hzero, hfuel⟩ :=
    boundsLoop_exit s.DesignVar s.UpdateSens steplen 38 hin 38 (le_refl 38)
  refine ⟨k, F, hzero, hbox, fun fuel hf => ?_⟩
  unfold CDiscAdjSolver.DesignUpdateBounds
  rw [hfuel fuel hf]
  refine ⟨_, rfl, fun i hi => ?_, fun i hi => ?_, fun i hi => ?_, rfl⟩
  · simp only [writeRange, if_pos hi]
  · simp only [writeRange, if_pos hi]
  · simp only [writeRange, if_pos hi]

/-- C30 (witness): the all-zero solver (every design variable `0`) with the direction
`[1,0,..]` and the step `1`. -/
theorem DesignUpdateBounds_terminates_witness :
    ∃ k F : Nat,
      ((∀ i, i < 38 →
        InBox (unitDirectionState.DesignVar i + unitDirectionState.UpdateSens i * 1)) → k = 0) ∧
      (∀ i, i < 38 →
        InBox (unitDirectionState.DesignVar i + unitDirectionState.UpdateSens i * (1 / 2 ^ k))) ∧
      ∀ fuel, F ≤ fuel →
        ∃ s1 : CDiscAdjSolver,
          CDiscAdjSolver.DesignUpdateBounds fuel unitDirectionState 1 = some (1 / 2 ^ k, s1) ∧
          (∀ i, i < 38 →
            s1.DesignVarUpdateReal i = unitDirectionState.UpdateSens i * (1 / 2 ^ k)) ∧
          (∀ i, i < 38 →
            s1.DesignVarUpdate i = unitDirectionState.UpdateSens i * (1 / 2 ^ k)) ∧
          (∀ i, i < 38 → s1.DesignVarUpdateSave i = unitDirectionState.DesignVarUpdateReal i) ∧
          s1.DesignVar = unitDirectionState.DesignVar :=
  DesignUpdateBounds_terminates unitDirectionState 1
    (fun i _ => by norm_num [unitDirectionState, zeroSolver])

end SU2
